import Mathlib

/-!
# bitgoin/tx : transaction assembly, signing and the micropayment channel

A shallow embedding of `struct.go`, `p2pk.go`, `p2sh.go` and `micropayment.go`.

* Byte slices are lists of naturals below 256; `byte(x)` is `x % 256`.
* `uint64` / `uint32` values are naturals; every machine addition and subtraction is
  written with its explicit wrap-around (`add64`, `sub64`).
* A Go function returning `(value, error)` where the value is `nil` exactly when the error is
  not, is an `Except Error _`; a function that can hand back values together with an error
  returns a tuple whose last component is the `Option Error`.
* A run-time fault (index out of range, nil dereference, `log.Fatal`) is the outer `none` of an
  `Option`.
* Pointers are modelled by the values they point to: distinct slots never alias. The one
  place where the code writes into memory it was handed, the appends of `FillP2PKsign` into
  the scripts of the inputs, has that memory explicit (`Memory`, `Slice`, `sliceAppend`).
* Everything that lives outside the package (the `sort`, `packer`, `sha256` and `address`
  libraries) is collected in the structure `Ext` and taken as a parameter.
-/

namespace Bitgoin

/-- A byte slice. -/
abbrev Bytes := List Nat

/-- Wrap-around addition of two `uint64`. -/
def add64 (a b : Nat) : Nat := (a + b) % 2 ^ 64

/-- Wrap-around subtraction of two `uint64`. -/
def sub64 (a b : Nat) : Nat := (a + (2 ^ 64 - b % 2 ^ 64)) % 2 ^ 64

/-- The constant `math.MaxUint32`. -/
def MaxUint32 : Nat := 4294967295

/-- Key type `address.PublicKey` of the key library; a key is named by a number. -/
structure PublicKey where
  id : Nat
  deriving DecidableEq, Repr

/-- Key type `address.PrivateKey` of the key library, with its `PublicKey` field. -/
structure PrivateKey where
  id : Nat
  PublicKey : PublicKey
  deriving DecidableEq, Repr

/-- UTXO represents an available transaction (`Key` may be a nil pointer). -/
structure UTXO where
  Key : Option PrivateKey
  TxHash : Bytes
  Value : Nat
  Script : Bytes
  TxIndex : Nat
  deriving DecidableEq, Repr

/-- Send is information about address and amount to send. -/
structure Send where
  Addr : String
  Amount : Nat
  deriving DecidableEq, Repr

/-- TxIn is the info of input transaction. -/
structure TxIn where
  Hash : Bytes
  Index : Nat
  Script : Bytes
  Seq : Nat
  deriving DecidableEq, Repr

/-- TxOut is the info of output transaction. -/
structure TxOut where
  Value : Nat
  Script : Bytes
  deriving DecidableEq, Repr

/-- Tx describes a bitcoin transaction. -/
structure Tx where
  Version : Nat
  TxIn : List TxIn
  TxOut : List TxOut
  Locktime : Nat
  deriving DecidableEq, Repr

/-- PubInfo is info of public keys in M of N multisig; `bond` is a nullable pointer. -/
structure PubInfo where
  Pubs : List PublicKey
  Amount : Nat
  bond : Option Tx
  Fee : Nat
  M : Nat
  deriving DecidableEq, Repr

/-- The Go `error` values built in the package, one constructor per message;
`lib` carries an error handed back by an external library. -/
inductive Error where
  /-- an error returned by the address, key or packer library -/
  | lib (msg : String)
  /-- "shortage of coin %d < %d %d" with amount, total, len(coins) -/
  | shortage (amount total ncoins : Nat)
  /-- "refund address is empty" -/
  | refundEmpty
  /-- "last index of sends must be refund address and amount must be 0" -/
  | lastSendNotZero
  /-- "N must be 0~7" -/
  | nRange
  /-- "M must be 0~N" -/
  | mRange
  /-- "not found" -/
  | notFound
  /-- "must call MultisigOut first" -/
  | noBond
  /-- "total coins of output must be less than one of input" -/
  | totalTooBig
  /-- "%s at %d" with the verification error and the slot -/
  | verifyAt (msg : String) (i : Nat)
  /-- "signatures are not enough" -/
  | sigsNotEnough
  /-- "len of redeem script must be less than 255" -/
  | redeemTooLong
  /-- "must fill sigs" -/
  | mustFillSigs
  /-- "must fill prev in pubinfo" -/
  | mustFillPrev
  /-- "negative amount for payer" -/
  | negativePayer
  /-- "negative amount for payee" -/
  | negativePayee
  /-- "locktime in refund tx is illegal " -/
  | refundLocktime
  /-- "illegal txin number" -/
  | txinNumber
  /-- "illegal txin index" -/
  | txinIndex
  /-- "illegal script in bond" -/
  | bondScript
  /-- "illegal txin hash in refund" -/
  | refundHash
  deriving DecidableEq, Repr

deriving instance DecidableEq for Except

/-- The order `UTXOs.Less` sorts by, read as "may stay in front of": `¬ Less b a`. -/
def coinLE (a b : UTXO) : Prop := a.Value ≤ b.Value

instance (a b : UTXO) : Decidable (coinLE a b) := by
  unfold coinLE; infer_instance

/-- The collaborators outside the package.
`sortCoins` is `sort.Sort` on `UTXOs` (an unstable sort: only its contract is known, namely
that the result is a rearrangement of the input in which no later element is `Less` than an
earlier one); `Pack` is `packer.Pack` on a `Tx`; `Sum256` is `sha256.Sum256`; the rest is the
key and address library. -/
structure Ext where
  sortCoins : List UTXO → List UTXO
  sort_perm : ∀ l, (sortCoins l).Perm l
  sort_sorted : ∀ l, (sortCoins l).Sorted coinLE
  Pack : Tx → Except String Bytes
  Sum256 : Bytes → Bytes
  Sign : PrivateKey → Bytes → Except String Bytes
  Verify : PublicKey → Bytes → Bytes → Option String
  Serialize : PublicKey → Bytes
  Address : PublicKey → String
  DecodeAddress : String → Except String Bytes
  AddressBytes : Bytes → Bytes

/-- Modelled from the spec: the opcode constants are declared outside the given sources;
their values are the ones of the script templates in the spec and the test vectors. -/
def opDUP : Nat := 0x76
/-- Modelled from the spec: opcode constant `OP_HASH160`. -/
def opHASH160 : Nat := 0xa9
/-- Modelled from the spec: opcode constant `OP_EQUALVERIFY`. -/
def opEQUALVERIFY : Nat := 0x88
/-- Modelled from the spec: opcode constant `OP_CHECKSIG`. -/
def opCHECKSIG : Nat := 0xac
/-- Modelled from the spec: opcode constant `OP_0`. -/
def op0 : Nat := 0x00
/-- Modelled from the spec: opcode constant `OP_1`. -/
def op1 : Nat := 0x51
/-- Modelled from the spec: opcode constant `OP_PUSHDATA1`. -/
def opPUSHDATA1 : Nat := 0x4c
/-- Modelled from the spec: opcode constant `OP_CHECKMULTISIG`. -/
def opCHECKMULTISIG : Nat := 0xae
/-- Modelled from the spec: opcode constant `OP_EQUAL`. -/
def opEQUAL : Nat := 0x87
/-- Modelled from the spec: opcode constant `OP_RETURN`. -/
def opRETURN : Nat := 0x6a

/-! ## p2pk.go -/

/-- DefaultP2PKScript returns default p2pk script. -/
def DefaultP2PKScript (E : Ext) (btcadr : String) : Except Error Bytes :=
  match E.DecodeAddress btcadr with
  | .error e => .error (.lib e)
  | .ok addr =>
    .ok ([opDUP, opHASH160, addr.length % 256] ++ addr ++ [opEQUALVERIFY, opCHECKSIG])

/-- The output paying `send.Amount` to `send.Addr`. -/
def p2pkTtxout (E : Ext) (send : Send) : Except Error TxOut :=
  match DefaultP2PKScript E send.Addr with
  | .error e => .error e
  | .ok script => .ok { Value := send.Amount, Script := script }

/-- The loop of `p2pkTxouts` over the remaining sends, with the outputs and total so far. -/
def p2pkTxoutsLoop (E : Ext) : List Send → List TxOut → Nat → Except Error (List TxOut × Nat)
  | [], txouts, total => .ok (txouts, total)
  | send :: rest, txouts, total =>
    if send.Amount = 0 then p2pkTxoutsLoop E rest txouts total
    else
      match p2pkTtxout E send with
      | .error e => .error e
      | .ok txout => p2pkTxoutsLoop E rest (txouts ++ [txout]) (add64 total send.Amount)

/-- The outputs of the non-zero sends and the total of fee and amounts. -/
def p2pkTxouts (E : Ext) (fee : Nat) (sends : List Send) : Except Error (List TxOut × Nat) :=
  p2pkTxoutsLoop E sends [] fee

/-- The input `newTxins` makes for coin `c`. -/
def newTxin (seq : Nat) (c : UTXO) : TxIn :=
  { Hash := c.TxHash, Index := c.TxIndex, Script := [], Seq := seq }

/-- The selection loop of `newTxins` over the remaining sorted coins (`coins[i:]`), with the
inputs, used coins and amount gathered so far. -/
def newTxinsLoop (total seq : Nat) :
    List UTXO → List TxIn → List UTXO → Nat → List TxIn × List UTXO × Nat
  | [], txins, used, amount => (txins, used, amount)
  | c :: rest, txins, used, amount =>
    if amount < total then
      newTxinsLoop total seq rest (txins ++ [newTxin seq c]) (used ++ [c]) (add64 amount c.Value)
    else (txins, used, amount)

/-- The sequence number `newTxins` gives its inputs: `math.MaxUint32`, or 0 when the
lock-time is not zero. -/
def seqFor (locktime : Nat) : Nat := if locktime ≠ 0 then 0 else MaxUint32

/-- Selects coins for `total`; returns the inputs, the used coins, the change output and
the error. -/
def newTxins (E : Ext) (total : Nat) (coins : List UTXO) (refundAddress : String)
    (locktime : Nat) : List TxIn × List UTXO × Option TxOut × Option Error :=
  let seq := seqFor locktime
  let sorted := E.sortCoins coins
  match newTxinsLoop total seq sorted [] [] 0 with
  | (txins, used, amount) =>
    if amount < total then
      ([], [], none, some (.shortage amount total coins.length))
    else
      let remain := sub64 amount total
      if remain > 0 then
        if refundAddress = "" then ([], [], none, some .refundEmpty)
        else
          match p2pkTtxout E { Addr := refundAddress, Amount := remain } with
          | .error e => (txins, used, none, some e)
          | .ok mto => (txins, used, some mto, none)
      else (txins, used, none, none)

/-- The transaction with the script of input `i` overwritten (`result.TxIn[i].Script = s`);
an index outside the inputs leaves it as it is. -/
def setScript (t : Tx) (i : Nat) (script : Bytes) : Tx :=
  match t.TxIn[i]? with
  | none => t
  | some txin => { t with TxIn := t.TxIn.set i { txin with Script := script } }

/-- The bytes hashed for input `i`: the encoding of the transaction in which input `i` holds
`script`, followed by the hash code type `01 00 00 00`. -/
def sigPreimage (E : Ext) (t : Tx) (i : Nat) (script : Bytes) : Except String Bytes :=
  match E.Pack (setScript t i script) with
  | .error e => .error e
  | .ok buf => .ok (buf ++ [0x01, 0, 0, 0])

/-- The loop of `signTx` over the remaining used coins (`used[i:]`), with the transaction as
it stands and the signatures made so far. -/
def signTxLoop (E : Ext) : List UTXO → Nat → Tx → List Bytes →
    Option (Tx × List Bytes × Option Error)
  | [], _, result, sign => some (result, sign, none)
  | p :: rest, i, result, sign =>
    match result.TxIn[i]? with
    | none => none
    | some txin =>
      let backup := txin.Script
      let result1 := setScript result i p.Script
      match sigPreimage E result i p.Script with
      | .error e => some (result1, [], some (.lib e))
      | .ok beforeb =>
        let h := E.Sum256 (E.Sum256 beforeb)
        match p.Key with
        | none => none
        | some key =>
          match E.Sign key h with
          | .error e => some (result1, [], some (.lib e))
          | .ok s => signTxLoop E rest (i + 1) (setScript result1 i backup) (sign ++ [s])

/-- Signs every used coin's input; returns the transaction as the call leaves it, the
signatures and the error. -/
def signTx (E : Ext) (result : Tx) (used : List UTXO) :
    Option (Tx × List Bytes × Option Error) :=
  signTxLoop E used 0 result []

/-- The unlocking script `FillP2PKsign` builds from a signature and a public key:
`<len><signature, 0x01><len><serialized public key>`, the lengths being bytes. -/
def p2pkScript (E : Ext) (sig : Bytes) (pub : PublicKey) : Bytes :=
  let s := sig ++ [0x1]
  [s.length % 256] ++ s ++ [(E.Serialize pub).length % 256] ++ E.Serialize pub

/-- The memory that holds the bytes of the scripts, byte by address. -/
abbrev Memory := List Nat

/-- A Go slice of bytes: the address of its first element, its length and its capacity. -/
structure Slice where
  ptr : Nat
  len : Nat
  cap : Nat
  deriving DecidableEq, Repr

/-- The bytes a slice holds. -/
def load (mem : Memory) (s : Slice) : Bytes := (mem.drop s.ptr).take s.len

/-- The memory after `data` has been written from the address `addr` on. -/
def store (mem : Memory) (addr : Nat) (data : Bytes) : Memory :=
  mem.take addr ++ data ++ mem.drop (addr + data.length)

/-- Go's `append(s, data...)`: when the capacity of `s` suffices the bytes are written in
place, behind the elements of `s`; otherwise the elements and the bytes go to newly
allocated memory. Returns the memory and the resulting slice. (Go gives a new array a
capacity of at least the length; it is taken to be the length, the spare room of a new array
being shared with nothing.) -/
def sliceAppend (mem : Memory) (s : Slice) (data : Bytes) : Memory × Slice :=
  if s.len + data.length ≤ s.cap then
    (store mem (s.ptr + s.len) data, { s with len := s.len + data.length })
  else
    (mem ++ (load mem s ++ data),
      { ptr := mem.length, len := s.len + data.length, cap := s.len + data.length })

/-- The body of the loop of `FillP2PKsign` for one input: starting from `Script[:0]` of the
slice `old` the input holds, the appends of the length of `s`, of `s`, of the length of `pub`
and of `pub`. -/
def fillScript (mem : Memory) (old : Slice) (s pub : Bytes) : Memory × Slice :=
  let r1 := sliceAppend mem { old with len := 0 } [s.length % 256]
  let r2 := sliceAppend r1.1 r1.2 s
  let r3 := sliceAppend r2.1 r2.2 [pub.length % 256]
  sliceAppend r3.1 r3.2 pub

/-- The loop of `FillP2PKsign` over the remaining signatures (`signs[i:]`), with the memory
and the slices the inputs hold as their scripts (`scripts[i]` is `result.TxIn[i].Script`) as
they stand. -/
def fillLoop (E : Ext) (used : List UTXO) :
    List Bytes → Nat → Memory → List Slice → Option (Memory × List Slice)
  | [], _, mem, scripts => some (mem, scripts)
  | s :: rest, i, mem, scripts =>
    match scripts[i]? with
    | none => none
    | some old =>
      match used[i]? with
      | none => none
      | some u =>
        match u.Key with
        | none => none
        | some key =>
          let r := fillScript mem old (s ++ [0x1]) (E.Serialize key.PublicKey)
          fillLoop E used rest (i + 1) r.1 (scripts.set i r.2)

/-- The input with the script the slice holds in the memory. -/
def loadScript (mem : Memory) (x : TxIn) (s : Slice) : TxIn :=
  { x with Script := load mem s }

/-- The transaction with every input holding the script its slice holds in the memory. -/
def loadScripts (mem : Memory) (scripts : List Slice) (t : Tx) : Tx :=
  { t with TxIn := List.zipWith (loadScript mem) t.TxIn scripts }

/-- The slices of inputs whose scripts are all `[]byte{}`: length 0 and capacity 0. -/
def emptyScripts (txins : List TxIn) : List Slice :=
  txins.map (fun _ => { ptr := 0, len := 0, cap := 0 })

/-- FillP2PKsign embeds sign script to result Tx; returns the transaction as the call
leaves it and the error. The scripts of the inputs of `result` are the slices `scripts` of
the memory `mem`. -/
def FillP2PKsign (E : Ext) (mem : Memory) (scripts : List Slice) (result : Tx)
    (used : List UTXO) : Option (Tx × Option Error) :=
  match signTx E result used with
  | none => none
  | some r =>
    match r.2.2 with
    | some e => some (r.1, some e)
    | none =>
      match fillLoop E used r.2.1 0 mem scripts with
      | none => none
      | some m => some (loadScripts m.1 m.2 r.1, none)

/-- The end of `NewP2PKunsign`, from the result of its call of `newTxins` on. -/
def NewP2PKunsignBuild (locktime : Nat) (txouts : List TxOut) :
    List TxIn × List UTXO × Option TxOut × Option Error →
      Option Tx × List UTXO × Option Error
  | (_, _, _, some e) => (none, [], some e)
  | (txins, used, mto, none) =>
    let txouts := match mto with
      | none => txouts
      | some o => txouts ++ [o]
    (some { Version := 1, TxIn := txins, TxOut := txouts, Locktime := locktime }, used, none)

/-- NewP2PKunsign creates msg.Tx from send infos without signing tx. -/
def NewP2PKunsign (E : Ext) (fee : Nat) (coins : List UTXO) (locktime : Nat)
    (sends : List Send) : Option (Option Tx × List UTXO × Option Error) :=
  match p2pkTxouts E fee sends with
  | .error e => some (none, [], some e)
  | .ok (txouts, total) =>
    match sends.getLast? with
    | none => none
    | some last =>
      if last.Amount ≠ 0 then some (none, [], some .lastSendNotZero)
      else some (NewP2PKunsignBuild locktime txouts (newTxins E total coins last.Addr locktime))

/-- NewP2PK creates msg.Tx from send infos. The scripts of the inputs `newTxins` has made
are `[]byte{}`, slices of capacity 0 (`emptyScripts`). -/
def NewP2PK (E : Ext) (fee : Nat) (coins : List UTXO) (locktime : Nat) (sends : List Send) :
    Option (Option Tx × Option Error) :=
  match NewP2PKunsign E fee coins locktime sends with
  | none => none
  | some r =>
    match r.2.2 with
    | some e => some (none, some e)
    | none =>
      match r.1 with
      | none => none
      | some result =>
        match FillP2PKsign E [] (emptyScripts result.TxIn) result r.2.1 with
        | none => none
        | some (result1, err) => some (some result1, err)

/-- CustomTx returns OP_RETURN txout with the custom data (the value is the zero value). -/
def CustomTx (data : Bytes) : TxOut :=
  { Value := 0, Script := [opRETURN] ++ [data.length % 256] ++ data }

/-! ## struct.go -/

/-- The double SHA-256 of the encoding; `log.Fatal` when the encoding fails. -/
def hash (E : Ext) (t : Tx) : Option Bytes :=
  match E.Pack t with
  | .error _ => none
  | .ok bs => some (E.Sum256 (E.Sum256 bs))

/-- One iteration of the loop of `Reverse`:
`b[i], b[len(bs)-1-i] = bs[len(bs)-1-i], bs[i]`. -/
def reverseStep (bs : Bytes) (b : Bytes) (i : Nat) : Bytes :=
  (b.set i (bs.getD (bs.length - 1 - i) 0)).set (bs.length - 1 - i) (bs.getD i 0)

/-- Reverse reverse bits: a fresh zeroed slice of the same length, filled by the loop over
`i < len(bs)/2`. -/
def Reverse (bs : Bytes) : Bytes :=
  (List.range (bs.length / 2)).foldl (reverseStep bs) (List.replicate bs.length 0)

/-! ## p2sh.go -/

/-- The key pushes of the redeem script, in the stored order. -/
def redeemKeys (E : Ext) : List PublicKey → Bytes
  | [] => []
  | pu :: rest => [(E.Serialize pu).length % 256] ++ E.Serialize pu ++ redeemKeys E rest

/-- The multisig redeem script. -/
def redeemScript (E : Ext) (p : PubInfo) : Bytes :=
  [(op1 + (p.M + 255) % 256) % 256] ++ redeemKeys E p.Pubs ++
    [(op1 + (p.Pubs.length + 255) % 256) % 256] ++ [opCHECKMULTISIG]

/-- The pay-to-script-hash script locking to the redeem script. -/
def redeemHash (E : Ext) (p : PubInfo) : Bytes :=
  let hash160 := E.AddressBytes (redeemScript E p)
  [opHASH160, hash160.length % 256] ++ hash160 ++ [opEQUAL]

/-- The parameter check at the head of `BondTx`: the error it returns, if any. -/
def bondCheck (p : PubInfo) : Option Error :=
  let n := p.Pubs.length
  if n = 0 ∨ n > 7 then some .nRange
  else if p.M = 0 ∨ p.M > n % 256 then some .mRange
  else none

/-- The end of `BondTx`, from the result of its call of `newTxins` on: the change output,
the transaction, its signing and the binding of `p.bond`. Returns the `PubInfo` as the call
leaves it, the transaction and the error. The scripts of the inputs `newTxins` has made are
`[]byte{}`, slices of capacity 0 (`emptyScripts`). -/
def BondTxBuild (E : Ext) (p : PubInfo) (txouts : List TxOut) :
    List TxIn × List UTXO × Option TxOut × Option Error →
      Option (PubInfo × Option Tx × Option Error)
  | (_, _, _, some e) => some (p, none, some e)
  | (txins, privs, mto, none) =>
    let txouts := match mto with
      | none => txouts
      | some o => txouts ++ [o]
    let result : Tx := { Version := 1, TxIn := txins, TxOut := txouts, Locktime := 0 }
    match FillP2PKsign E [] (emptyScripts txins) result privs with
    | none => none
    | some (result1, err) => some ({ p with bond := some result1 }, some result1, err)

/-- BondTx creates a bond transaction. -/
def BondTx (E : Ext) (p : PubInfo) (coins : List UTXO) (refund : String) (locktime : Nat) :
    Option (PubInfo × Option Tx × Option Error) :=
  match bondCheck p with
  | some e => some (p, none, some e)
  | none =>
    let txouts : List TxOut := [{ Value := p.Amount, Script := redeemHash E p }]
    BondTxBuild E p txouts (newTxins E (add64 p.Amount p.Fee) coins refund locktime)

/-- The loop of `searchTxout` over the remaining outputs, `i` being the current index. -/
def searchTxoutLoop (hash : Bytes) : List TxOut → Nat → Except Error Nat
  | [], _ => .error .notFound
  | out :: rest, i =>
    if out.Script = hash then .ok (i % 2 ^ 32) else searchTxoutLoop hash rest (i + 1)

/-- The index of the bond output locked to the redeem hash. -/
def searchTxout (E : Ext) (p : PubInfo) : Option (Except Error Nat) :=
  match p.bond with
  | none => none
  | some bond => some (searchTxoutLoop (redeemHash E p) bond.TxOut 0)

/-- The end of `txForSign`, from the result of its call of `newTxins` on: the error check,
the write of the redeem script to `mtxin[0]`, the change output and the transaction. -/
def txForSignBuild (E : Ext) (p : PubInfo) (locktime : Nat) (txouts : List TxOut) :
    List TxIn × List UTXO × Option TxOut × Option Error → Option (Except Error Tx)
  | (_, _, _, some e) => some (.error e)
  | ([], _, _, none) => none
  | (in0 :: ins, _, txout, none) =>
    let mtxin := { in0 with Script := redeemScript E p } :: ins
    let txouts := match txout with
      | none => txouts
      | some o => txouts ++ [o]
    some (.ok { Version := 1, TxIn := mtxin, TxOut := txouts, Locktime := locktime })

/-- The unsigned spend of the bond for the given sends. -/
def txForSign (E : Ext) (p : PubInfo) (locktime : Nat) (sends : List Send) :
    Option (Except Error Tx) :=
  match p.bond with
  | none => some (.error .noBond)
  | some bond =>
    match p2pkTxouts E p.Fee sends with
    | .error e => some (.error e)
    | .ok (txouts, total) =>
      if p.Amount < total then some (.error .totalTooBig)
      else
        match searchTxoutLoop (redeemHash E p) bond.TxOut 0 with
        | .error e => some (.error e)
        | .ok index =>
          match hash E bond with
          | none => none
          | some h =>
            let utxos : List UTXO :=
              [{ Key := none, TxHash := h, TxIndex := index,
                 Script := redeemScript E p, Value := p.Amount }]
            match sends.getLast? with
            | none => none
            | some last =>
              txForSignBuild E p locktime txouts
                (newTxins E total utxos last.Addr locktime)

/-- Checks `sign` against `Pubs[i]` on the digest of `mtx`; the inner option is the error. -/
def verify (E : Ext) (p : PubInfo) (mtx : Tx) (sign : Bytes) (i : Nat) :
    Option (Option String) :=
  match E.Pack mtx with
  | .error e => some (some e)
  | .ok buf =>
    let beforeb := buf ++ [0x01, 0, 0, 0]
    let h := E.Sum256 (E.Sum256 beforeb)
    match p.Pubs[i]? with
    | none => none
    | some pub => some (E.Verify pub sign h)

/-- SignMultisig signs multisig transaction by priv. -/
def SignMultisig (E : Ext) (p : PubInfo) (priv : Option PrivateKey) (locktime : Nat)
    (sends : List Send) : Option (Except Error Bytes) :=
  match txForSign E p locktime sends with
  | none => none
  | some (.error e) => some (.error e)
  | some (.ok mtx) =>
    let prev : UTXO :=
      { Key := priv, TxHash := [], Value := 0, Script := redeemScript E p, TxIndex := 0 }
    match signTx E mtx [prev] with
    | none => none
    | some (_, _, some e) => some (.error e)
    | some (_, signs, none) =>
      match signs with
      | [] => none
      | s :: _ => some (.ok s)

/-- The loop of `embedSigns` over the remaining slots (`sigs[i:]`), with the script and the
signature count (a byte) so far; an absent signature is a nil slice. -/
def embedSignsLoop (E : Ext) (p : PubInfo) (mtx : Tx) :
    List (Option Bytes) → Nat → Bytes → Nat → Option (Except Error (Bytes × Nat))
  | [], _, script2, nsig => some (.ok (script2, nsig))
  | none :: rest, i, script2, nsig => embedSignsLoop E p mtx rest (i + 1) script2 nsig
  | some s :: rest, i, script2, nsig =>
    match verify E p mtx s i with
    | none => none
    | some (some err) => some (.error (.verifyAt err i))
    | some none =>
      embedSignsLoop E p mtx rest (i + 1)
        (script2 ++ [(s.length + 1) % 256] ++ s ++ [0x01]) ((nsig + 1) % 256)

/-- Verifies the signatures and writes the unlocking script to input 0; returns the
transaction as the call leaves it and the error. -/
def embedSigns (E : Ext) (p : PubInfo) (mtx : Tx) (sigs : List (Option Bytes)) :
    Option (Tx × Option Error) :=
  let redeem := redeemScript E p
  match embedSignsLoop E p mtx sigs 0 [op0] 0 with
  | none => none
  | some (.error e) => some (mtx, some e)
  | some (.ok (script2, nsig)) =>
    if nsig ≠ p.M then some (mtx, some .sigsNotEnough)
    else if redeem.length > 255 then some (mtx, some .redeemTooLong)
    else
      match mtx.TxIn with
      | [] => none
      | in0 :: ins =>
        let script2 := script2 ++ [opPUSHDATA1, redeem.length % 256] ++ redeem
        some ({ mtx with TxIn := { in0 with Script := script2 } :: ins }, none)

/-- SpendBondTx creates tx which spends bond. -/
def SpendBondTx (E : Ext) (p : PubInfo) (locktime : Nat) (sigs : List (Option Bytes))
    (sends : List Send) : Option (Option Tx × Option Error) :=
  if sigs.length = 0 then some (none, some .mustFillSigs)
  else
    match p.bond with
    | none => some (none, some .mustFillPrev)
    | some _ =>
      match txForSign E p locktime sends with
      | none => none
      | some (.error e) => some (none, some e)
      | some (.ok mtx) =>
        match embedSigns E p mtx sigs with
        | none => none
        | some (mtx1, err) => some (some mtx1, err)

/-! ## micropayment.go -/

/-- The payer or payee of a channel: a `PubInfo` and the party's own key. -/
structure mpay where
  PubInfo : PubInfo
  priv : PrivateKey
  deriving DecidableEq, Repr

/-- NewMicroPayer returns struct for payer. -/
def NewMicroPayer (payer : PrivateKey) (payee : PublicKey) (amount fee : Nat) : mpay :=
  { PubInfo := { Pubs := [payer.PublicKey, payee], Amount := amount, bond := none,
                 M := 2, Fee := fee },
    priv := payer }

/-- NewMicroPayee returns struct for payee. -/
def NewMicroPayee (payer : PublicKey) (payee : PrivateKey) (amount fee : Nat) : mpay :=
  { PubInfo := { Pubs := [payer, payee.PublicKey], Amount := amount, bond := none,
                 M := 2, Fee := fee },
    priv := payee }

/-- The sends of a channel payment of `amount`; the comparisons are the unsigned ones of the
source, so `< 0` is the comparison of a `uint64` with zero. -/
def sendstruct (E : Ext) (m : PubInfo) (amount : Nat) : Option (Except Error (List Send)) :=
  match m.Pubs[0]? with
  | none => none
  | some pk0 =>
    match m.Pubs[1]? with
    | none => none
    | some pk1 =>
      let payer := E.Address pk0
      let payee := E.Address pk1
      let sends : List Send := []
      if sub64 (sub64 m.Amount m.Fee) amount < 0 then some (.error .negativePayer)
      else
        let sends :=
          if sub64 (sub64 m.Amount m.Fee) amount = 0 then sends
          else sends ++ [{ Addr := payer, Amount := sub64 (sub64 m.Amount m.Fee) amount }]
        if amount < 0 then some (.error .negativePayee)
        else
          let sends :=
            if amount = 0 then sends
            else sends ++ [{ Addr := payee, Amount := amount }]
          some (.ok sends)

/-- SignIncremented signs incremented tx. -/
def SignIncremented (E : Ext) (m : mpay) (amount : Nat) : Option (Except Error Bytes) :=
  match sendstruct E m.PubInfo amount with
  | none => none
  | some (.error e) => some (.error e)
  | some (.ok sends) => SignMultisig E m.PubInfo (some m.priv) 0 sends

/-- IncrementedTx returns an incremented tx (`MultisigIn` is the former name of
`SpendBondTx`). -/
def IncrementedTx (E : Ext) (m : mpay) (amount : Nat) (sign : Option Bytes) :
    Option (Option Tx × Option Error) :=
  match sendstruct E m.PubInfo amount with
  | none => none
  | some (.error e) => some (none, some e)
  | some (.ok sends) =>
    match SignMultisig E m.PubInfo (some m.priv) 0 sends with
    | none => none
    | some (.error e) => some (none, some e)
    | some (.ok mysign) => SpendBondTx E m.PubInfo 0 [sign, some mysign] sends

/-- SignRefund of the payee signs the refund tx; returns the refund as the call leaves it,
the signature and the error. The `signTx` it calls takes private keys; that variant is not
among the given sources and is the parameter `signKeys`. -/
def PayeeSignRefund (E : Ext)
    (signKeys : Tx → List PrivateKey → Option (Tx × List Bytes × Option Error))
    (m : mpay) (refund : Tx) (locktime : Nat) : Option (Tx × Option Bytes × Option Error) :=
  if refund.Locktime ≠ locktime then some (refund, none, some .refundLocktime)
  else if refund.TxIn.length ≠ 1 then some (refund, none, some .txinNumber)
  else
    match refund.TxIn with
    | [] => none
    | in0 :: ins =>
      if in0.Index ≠ 0 then some (refund, none, some .txinIndex)
      else
        let refund1 : Tx :=
          { refund with TxIn := { in0 with Script := redeemHash E m.PubInfo } :: ins }
        match signKeys refund1 [m.priv] with
        | none => none
        | some r =>
          match r.2.2 with
          | some e => some (r.1, none, some e)
          | none =>
            match r.2.1 with
            | [] => none
            | s :: _ => some (r.1, some s, none)

/-- CheckBond checks and sets bond tx (`prev` is the former name of the field `bond`);
returns the payee as the call leaves it and the error. -/
def CheckBond (E : Ext) (m : mpay) (refund bond : Tx) : Option (mpay × Option Error) :=
  match bond.TxOut with
  | [] => none
  | out0 :: _ =>
    if out0.Script ≠ redeemHash E m.PubInfo then some (m, some .bondScript)
    else
      match refund.TxIn with
      | [] => none
      | in0 :: _ =>
        match hash E bond with
        | none => none
        | some h =>
          if in0.Hash ≠ h then some (m, some .refundHash)
          else some ({ m with PubInfo := { m.PubInfo with bond := some bond } }, none)

/-! ## A concrete instance of the collaborators

Used to evaluate the definitions on explicit inputs. The encoding is the wire format of the
transaction; the digest and the keys are small stand-ins with the interface of the real ones.
-/

/-- A 32-bit little-endian integer. -/
def le32 (n : Nat) : Bytes :=
  [n % 256, n / 256 % 256, n / 65536 % 256, n / 16777216 % 256]

/-- A 64-bit little-endian integer. -/
def le64 (n : Nat) : Bytes :=
  le32 (n % 4294967296) ++ le32 (n / 4294967296)

/-- The variable-length prefix of counts and script lengths. -/
def varint (n : Nat) : Bytes :=
  if n < 0xfd then [n]
  else if n ≤ 0xffff then [0xfd, n % 256, n / 256 % 256]
  else if n ≤ 0xffffffff then 0xfe :: le32 n
  else 0xff :: le64 n

/-- Modelled from the spec: the encoding of one input by the external codec,
{32-byte hash}{32-bit index}{length-prefixed script}{32-bit sequence}. -/
def packTxIn (x : TxIn) : Bytes :=
  x.Hash ++ le32 x.Index ++ varint x.Script.length ++ x.Script ++ le32 x.Seq

/-- Modelled from the spec: the encoding of one output by the external codec,
{64-bit amount}{length-prefixed script}. -/
def packTxOut (x : TxOut) : Bytes :=
  le64 x.Value ++ varint x.Script.length ++ x.Script

/-- The concatenation of the encodings of the items of a list. -/
def packList {α : Type} (f : α → Bytes) : List α → Bytes
  | [] => []
  | x :: rest => f x ++ packList f rest

/-- Modelled from the spec: the canonical encoding `packer.Pack` gives a `Tx`: version,
input count, inputs, output count, outputs, lock-time; a hash that is not 32 bytes long is
refused. -/
def packTx (t : Tx) : Except String Bytes :=
  if t.TxIn.all (fun x => x.Hash.length = 32) then
    .ok (le32 t.Version ++ varint t.TxIn.length ++ packList packTxIn t.TxIn ++
      varint t.TxOut.length ++ packList packTxOut t.TxOut ++ le32 t.Locktime)
  else .error "hash must be 32 bytes"

/-- Four bytes read as a 32-bit little-endian integer, and the bytes after them. -/
def readLE32 : Bytes → Option (Nat × Bytes)
  | b0 :: b1 :: b2 :: b3 :: rest => some (b0 + 256 * b1 + 65536 * b2 + 16777216 * b3, rest)
  | _ => none

/-- Eight bytes read as a 64-bit little-endian integer, and the bytes after them. -/
def readLE64 (b : Bytes) : Option (Nat × Bytes) :=
  match readLE32 b with
  | none => none
  | some (lo, b1) =>
    match readLE32 b1 with
    | none => none
    | some (hi, b2) => some (lo + 4294967296 * hi, b2)

/-- A variable-length prefix read back, and the bytes after it. -/
def readVarint : Bytes → Option (Nat × Bytes)
  | [] => none
  | t :: rest =>
    if t < 0xfd then some (t, rest)
    else if t = 0xfd then
      match rest with
      | b0 :: b1 :: r => some (b0 + 256 * b1, r)
      | _ => none
    else if t = 0xfe then readLE32 rest
    else readLE64 rest

/-- The first `n` bytes and the bytes after them; nothing when there are fewer. -/
def readBytes (n : Nat) (b : Bytes) : Option (Bytes × Bytes) :=
  if n ≤ b.length then some (b.take n, b.drop n) else none

/-- Modelled from the spec: the decoding of one input by the external codec, the inverse of
`packTxIn`. -/
def readTxIn (b : Bytes) : Option (TxIn × Bytes) :=
  match readBytes 32 b with
  | none => none
  | some (hash, b1) =>
    match readLE32 b1 with
    | none => none
    | some (index, b2) =>
      match readVarint b2 with
      | none => none
      | some (n, b3) =>
        match readBytes n b3 with
        | none => none
        | some (script, b4) =>
          match readLE32 b4 with
          | none => none
          | some (seq, b5) =>
            some ({ Hash := hash, Index := index, Script := script, Seq := seq }, b5)

/-- Modelled from the spec: the decoding of one output by the external codec, the inverse
of `packTxOut`. -/
def readTxOut (b : Bytes) : Option (TxOut × Bytes) :=
  match readLE64 b with
  | none => none
  | some (value, b1) =>
    match readVarint b1 with
    | none => none
    | some (n, b2) =>
      match readBytes n b2 with
      | none => none
      | some (script, b3) => some ({ Value := value, Script := script }, b3)

/-- The items of a list of known count read one after the other. -/
def readList {α : Type} (f : Bytes → Option (α × Bytes)) : Nat → Bytes → Option (List α × Bytes)
  | 0, b => some ([], b)
  | n + 1, b =>
    match f b with
    | none => none
    | some (x, b1) =>
      match readList f n b1 with
      | none => none
      | some (xs, b2) => some (x :: xs, b2)

/-- Modelled from the spec: the decoding `packer.Unpack` gives for a `Tx`, "the exact
inverse" of the encoding: version, input count, inputs, output count, outputs, lock-time;
truncated or over-length input is an error. -/
def unpackTx (dat : Bytes) : Except String Tx :=
  match readLE32 dat with
  | none => .error "unexpected end of input"
  | some (version, b1) =>
    match readVarint b1 with
    | none => .error "unexpected end of input"
    | some (nin, b2) =>
      match readList readTxIn nin b2 with
      | none => .error "unexpected end of input"
      | some (txin, b3) =>
        match readVarint b3 with
        | none => .error "unexpected end of input"
        | some (nout, b4) =>
          match readList readTxOut nout b4 with
          | none => .error "unexpected end of input"
          | some (txout, b5) =>
            match readLE32 b5 with
            | none => .error "unexpected end of input"
            | some (locktime, b6) =>
              if b6 = [] then
                .ok { Version := version, TxIn := txin, TxOut := txout, Locktime := locktime }
              else .error "trailing bytes"

/-- Pack packs Tx struct to bin: `packer.Pack` applied to the transaction. -/
def Pack (E : Ext) (t : Tx) : Except String Bytes := E.Pack t

/-- ParseTX parses byte array and returns Tx struct: `packer.Unpack`, the parameter
`unpack`, applied to the bytes. -/
def ParseTX (unpack : Bytes → Except String Tx) (dat : Bytes) : Except String Tx := unpack dat

/-- The ranges the field types of a transaction give its fields (`uint32`, `uint64`, slice
lengths), with all input hashes 32 bytes long. -/
def wellTyped (t : Tx) : Prop :=
  t.Version < 2 ^ 32 ∧ t.Locktime < 2 ^ 32 ∧ t.TxIn.length < 2 ^ 64 ∧ t.TxOut.length < 2 ^ 64 ∧
  (∀ x ∈ t.TxIn, x.Hash.length = 32 ∧ x.Index < 2 ^ 32 ∧ x.Seq < 2 ^ 32 ∧
    x.Script.length < 2 ^ 64) ∧
  (∀ x ∈ t.TxOut, x.Value < 2 ^ 64 ∧ x.Script.length < 2 ^ 64)

instance (t : Tx) : Decidable (wellTyped t) := by
  unfold wellTyped; infer_instance

instance : IsTotal UTXO coinLE := ⟨fun a b => Nat.le_total a.Value b.Value⟩

instance : IsTrans UTXO coinLE := ⟨fun _ _ _ h₁ h₂ => Nat.le_trans h₁ h₂⟩

/-- A concrete set of collaborators: insertion sort, the wire encoding, a checksum in place
of SHA-256, and keys whose signature of a digest is the key number followed by the digest;
keys numbered below 100 serialize compressed (33 bytes), the others uncompressed (65). -/
def modelExt : Ext where
  sortCoins := List.insertionSort coinLE
  sort_perm := List.perm_insertionSort coinLE
  sort_sorted := List.sorted_insertionSort coinLE
  Pack := packTx
  Sum256 := fun b => List.replicate 31 0 ++ [(b.sum + b.length) % 256]
  Sign := fun k h => .ok (k.PublicKey.id % 256 :: h)
  Verify := fun pub sig h => if sig = pub.id % 256 :: h then none else some "invalid signature"
  Serialize := fun pub =>
    if pub.id < 100 then 2 :: List.replicate 32 (pub.id % 256)
    else 4 :: List.replicate 64 (pub.id % 256)
  Address := fun pub => if pub.id = 0 then "payer" else "payee"
  DecodeAddress := fun s =>
    if s = "" then .error "empty address" else .ok (List.replicate 20 (s.length % 256))
  AddressBytes := fun b => List.replicate 20 (b.sum % 256)

/-! ## Quantities the statements speak about -/

/-- The exact (unbounded) sum of the values of a list of coins. -/
def coinSum (l : List UTXO) : Nat := (l.map (fun c => c.Value)).sum

/-- The coin values in ascending order, `v_1 ≤ ... ≤ v_n`. -/
def sortedValues (coins : List UTXO) : List Nat :=
  List.insertionSort (fun a b => a ≤ b) (coins.map (fun c => c.Value))

/-- A coin of the given value with a 32-byte hash and no key, for concrete evaluations. -/
def coinOf (v : Nat) : UTXO :=
  { Key := none, TxHash := List.replicate 32 0, Value := v, Script := [], TxIndex := 0 }

/-- A payer of a channel funded with 10 and fee 1, bound to a bond whose only output is
locked to the redeem hash. -/
def payer10 : mpay :=
  let m := NewMicroPayer { id := 0, PublicKey := { id := 0 } } { id := 1 } 10 1
  let bond : Tx :=
    { Version := 1, TxIn := [],
      TxOut := [{ Value := 10, Script := redeemHash modelExt m.PubInfo }],
      Locktime := 0 }
  { PubInfo := { Pubs := m.PubInfo.Pubs, Amount := m.PubInfo.Amount, bond := some bond,
                 Fee := m.PubInfo.Fee, M := m.PubInfo.M },
    priv := m.priv }

/-- The sends a channel payment of `x` is specified to produce: the remainder to the payer
if it is not zero, then `x` to the payee if it is not zero. -/
def channelSends (payer payee : String) (remainder x : Nat) : List Send :=
  (if remainder = 0 then [] else [{ Addr := payer, Amount := remainder }]) ++
    (if x = 0 then [] else [{ Addr := payee, Amount := x }])

/-- The signature pushes of the multisig unlocking script with the length reduced to one
byte: for each non-absent signature, in slot order, the byte `byte(len(sig)+1)`, the
signature and the byte `0x01`. -/
def sigPushes : List (Option Bytes) → Bytes
  | [] => []
  | none :: rest => sigPushes rest
  | some s :: rest => [(s.length + 1) % 256] ++ s ++ [0x01] ++ sigPushes rest

/-- The signature pushes of the multisig unlocking script in the words of the specification:
for each non-absent signature, in slot order, the number `len(sig)+1`, the signature and the
byte `0x01`. -/
def sigPushesSpec : List (Option Bytes) → Bytes
  | [] => []
  | none :: rest => sigPushesSpec rest
  | some s :: rest => [s.length + 1] ++ s ++ [0x01] ++ sigPushesSpec rest

/-- The number of non-absent slots of a signature list. -/
def presentCount : List (Option Bytes) → Nat
  | [] => 0
  | none :: rest => presentCount rest
  | some _ :: rest => presentCount rest + 1

/-- The multisig unlocking script as specified: `OP_0`, the signature pushes, then
`OP_PUSHDATA1`, the one-byte length of the redeem script and the redeem script. -/
def multisigScript (sigs : List (Option Bytes)) (redeem : Bytes) : Bytes :=
  [op0] ++ sigPushes sigs ++ [opPUSHDATA1, redeem.length] ++ redeem

/-- The transaction with the script of input 0 replaced (`mtx.TxIn[0].Script = script`). -/
def withScript0 (mtx : Tx) (script : Bytes) : Tx :=
  match mtx.TxIn with
  | [] => mtx
  | in0 :: ins => { mtx with TxIn := { in0 with Script := script } :: ins }

/-- The spend `txForSign` derives, for evaluations where it succeeds (the empty transaction
otherwise). -/
def spendOf (E : Ext) (p : PubInfo) (locktime : Nat) (sends : List Send) : Tx :=
  match txForSign E p locktime sends with
  | some (.ok t) => t
  | _ => { Version := 0, TxIn := [], TxOut := [], Locktime := 0 }

/-- A 2-of-4 context with uncompressed keys, funding 10 and fee 1, bound to a bond whose only
output is locked to the redeem hash. -/
def pub4 : PubInfo :=
  let keys : List PublicKey := [{ id := 100 }, { id := 101 }, { id := 102 }, { id := 103 }]
  let unbound : PubInfo := { Pubs := keys, Amount := 10, bond := none, Fee := 1, M := 2 }
  { Pubs := keys, Amount := 10, Fee := 1, M := 2,
    bond := some { Version := 1, TxIn := [],
                   TxOut := [{ Value := 10, Script := redeemHash modelExt unbound }],
                   Locktime := 0 } }

/-- A coin with a key, a 32-byte hash and a one-byte locking script, for evaluations. -/
def keyCoin (id v : Nat) : UTXO :=
  { Key := some { id := id, PublicKey := { id := id } }, TxHash := List.replicate 32 id,
    Value := v, Script := [id], TxIndex := 0 }

/-- A two-input transaction spending `keyCoin 1 5` and `keyCoin 2 6`, scripts empty. -/
def twoInputs : Tx :=
  { Version := 1, TxIn := [newTxin MaxUint32 (keyCoin 1 5), newTxin MaxUint32 (keyCoin 2 6)],
    TxOut := [{ Value := 10, Script := [0x6a] }], Locktime := 0 }

/-- The collaborators of `modelExt` with a key holder whose `Sign` returns an error. -/
def failExt : Ext := { modelExt with Sign := fun _ _ => .error "sign failed" }

/-- An unbound 1-of-1 context with funding 10 and fee 1. -/
def pub1 : PubInfo :=
  { Pubs := [{ id := 1 }], Amount := 10, bond := none, Fee := 1, M := 1 }

/-- An unbound 1-of-1 context whose funding 2^64-1 and fee 2 do not fit 64 bits together. -/
def pubWrap : PubInfo :=
  { Pubs := [{ id := 1 }], Amount := 2 ^ 64 - 1, bond := none, Fee := 2, M := 1 }

/-- A one-input transaction spending `keyCoin 1 5`, script empty. -/
def oneInput : Tx :=
  { Version := 1, TxIn := [newTxin MaxUint32 (keyCoin 1 5)],
    TxOut := [{ Value := 4, Script := [0x6a] }], Locktime := 0 }

/-- The push of one public key in the redeem script as specified: the one-byte length of its
serialization, then the serialization. -/
def keyPush (E : Ext) (pu : PublicKey) : Bytes :=
  [(E.Serialize pu).length % 256] ++ E.Serialize pu

/-- The number of outputs from which an index no longer fits the `uint32` of `TxIndex`. -/
def manyOutputs : Nat := 2 ^ 32

/-- A bond with `2^32` outputs of empty script followed by one output locked to the redeem
hash of `pub1`. -/
def manyBond : Tx :=
  { Version := 1, TxIn := [],
    TxOut := List.replicate manyOutputs { Value := 0, Script := [] } ++
      [{ Value := 10, Script := redeemHash modelExt pub1 }],
    Locktime := 0 }

/-- The 1-of-1 context of `pub1`, bound to `manyBond`. -/
def pubMany : PubInfo :=
  { Pubs := pub1.Pubs, Amount := pub1.Amount, Fee := pub1.Fee, M := pub1.M,
    bond := some manyBond }

/-- The 1-of-1 context of `pub1`, bound to a bond whose outputs 1 and 2 are both locked to
the redeem hash. -/
def pubTwice : PubInfo :=
  { Pubs := pub1.Pubs, Amount := pub1.Amount, Fee := pub1.Fee, M := pub1.M,
    bond := some
      { Version := 1, TxIn := [],
        TxOut := [{ Value := 3, Script := [0x6a] },
                  { Value := 10, Script := redeemHash modelExt pub1 },
                  { Value := 10, Script := redeemHash modelExt pub1 }],
        Locktime := 0 } }

/-- A stand-in for the `signTx` that takes private keys: it leaves the transaction as it
is and returns the key number as the signature of each key. -/
def stubSignKeys (t : Tx) (keys : List PrivateKey) : Option (Tx × List Bytes × Option Error) :=
  some (t, keys.map (fun k => [k.id]), none)

/-- The payee of a channel funded with 10 and fee 1 (keys 0 and 1). -/
def payee10 : mpay :=
  NewMicroPayee { id := 0 } { id := 1, PublicKey := { id := 1 } } 10 1

/-- The digest of a derived spend: SHA-256 twice over its encoding followed by the hash
code type `01 00 00 00`. -/
def spendDigest (E : Ext) (mtx : Tx) : Except String Bytes :=
  match E.Pack mtx with
  | .error e => .error e
  | .ok buf => .ok (E.Sum256 (E.Sum256 (buf ++ [0x01, 0, 0, 0])))

/-- The bond of the channel of `payer10`: one output of 10 locked to the redeem hash. -/
def bond10 : Tx :=
  { Version := 1, TxIn := [],
    TxOut := [{ Value := 10, Script := redeemHash modelExt payee10.PubInfo }],
    Locktime := 0 }

/-- The refund of the channel of `payer10`: the spend of the bond paying 9 to the payer. -/
def refund10 : Tx :=
  spendOf modelExt payer10.PubInfo 0 [{ Addr := "payer", Amount := 9 }]

/-- The exact (unbounded) sum of the amounts of a send list. -/
def sendSum (sends : List Send) : Nat := (sends.map (fun s => s.Amount)).sum

/-- The exact (unbounded) sum of the values of a list of outputs. -/
def outSum (outs : List TxOut) : Nat := (outs.map (fun o => o.Value)).sum

/-- The channel context of `payer10` with fee 0. -/
def pubFree : PubInfo :=
  { Pubs := payer10.PubInfo.Pubs, Amount := 10, bond := some bond10, Fee := 0, M := 2 }

/-- The single-key unlocking script in the words of the specification: the number
`len(sig)+1`, the signature, the byte `0x01`, the number `len(pub)` and the serialized public
key. -/
def p2pkScriptSpec (sig pub : Bytes) : Bytes :=
  [sig.length + 1] ++ sig ++ [0x01] ++ [pub.length] ++ pub

/-- Two slices share no memory within their capacities. -/
def apart (a b : Slice) : Prop :=
  a.cap = 0 ∨ b.cap = 0 ∨ a.ptr + a.cap ≤ b.ptr ∨ b.ptr + b.cap ≤ a.ptr

instance (a b : Slice) : Decidable (apart a b) := by
  unfold apart; infer_instance

/-! # Properties -/

/-! ## Coin selection (`newTxins`) -/

theorem add64_eq {a b : Nat} (h : a + b < 2 ^ 64) : add64 a b = a + b := by
  unfold add64; exact Nat.mod_eq_of_lt h

theorem sub64_eq {a b : Nat} (hb : b ≤ a) (ha : a < 2 ^ 64) : sub64 a b = a - b := by
  unfold sub64
  have hb2 : b % 2 ^ 64 = b := Nat.mod_eq_of_lt (by omega)
  rw [hb2]
  have : a + (2 ^ 64 - b) = (a - b) + 2 ^ 64 := by omega
  rw [this, Nat.add_mod_right]
  exact Nat.mod_eq_of_lt (by omega)

theorem coinSum_cons (c : UTXO) (l : List UTXO) : coinSum (c :: l) = c.Value + coinSum l := by
  simp [coinSum]

theorem coinSum_take_le (l : List UTXO) (k : Nat) : coinSum (l.take k) ≤ coinSum l := by
  induction l generalizing k with
  | nil => simp [coinSum]
  | cons c rest ih =>
    cases k with
    | zero => simp [coinSum]
    | succ k =>
      rw [List.take_succ_cons, coinSum_cons, coinSum_cons]
      have := ih k
      omega

/-- The selection loop, when the amounts cannot overflow: it takes the shortest prefix of
the remaining coins that lifts the amount to the total, or all of them. -/
theorem newTxinsLoop_spec (total seq : Nat) :
    ∀ (cs : List UTXO) (txins : List TxIn) (used : List UTXO) (amount : Nat),
      amount + coinSum cs < 2 ^ 64 →
      ∃ k, k ≤ cs.length ∧
        newTxinsLoop total seq cs txins used amount =
          (txins ++ (cs.take k).map (newTxin seq), used ++ cs.take k,
            amount + coinSum (cs.take k)) ∧
        (∀ j, j < k → amount + coinSum (cs.take j) < total) ∧
        (k < cs.length → total ≤ amount + coinSum (cs.take k)) := by
  intro cs
  induction cs with
  | nil =>
    intro txins used amount _
    exact ⟨0, by simp, by simp [newTxinsLoop, coinSum], by simp, by simp⟩
  | cons c rest ih =>
    intro txins used amount hsum
    rw [coinSum_cons] at hsum
    by_cases hlt : amount < total
    · have hadd : add64 amount c.Value = amount + c.Value := add64_eq (by omega)
      obtain ⟨k, hk, heq, hmin, hstop⟩ :=
        ih (txins ++ [newTxin seq c]) (used ++ [c]) (amount + c.Value) (by omega)
      refine ⟨k + 1, by simp; omega, ?_, ?_, ?_⟩
      · simp only [newTxinsLoop, hlt, if_true, hadd, heq, List.take_succ_cons, List.map_cons,
          coinSum_cons, List.append_assoc, List.singleton_append]
        simp [Nat.add_assoc]
      · intro j hj
        cases j with
        | zero => simpa [coinSum] using hlt
        | succ j =>
          have := hmin j (by omega)
          rw [List.take_succ_cons, coinSum_cons]
          omega
      · intro hlen
        have := hstop (by simpa using hlen)
        rw [List.take_succ_cons, coinSum_cons]
        omega
    · refine ⟨0, by simp, ?_, ?_, ?_⟩
      · simp [newTxinsLoop, hlt, coinSum]
      · intro j hj; omega
      · intro _; simp [coinSum]; omega

theorem coinSum_perm {l₁ l₂ : List UTXO} (h : l₁.Perm l₂) : coinSum l₁ = coinSum l₂ := by
  unfold coinSum
  exact (h.map _).sum_eq

theorem coinSum_sort (E : Ext) (coins : List UTXO) :
    coinSum (E.sortCoins coins) = coinSum coins :=
  coinSum_perm (E.sort_perm coins)

/-- Whatever sort is used, the values of the sorted coins are the ascending values. -/
theorem sortCoins_values (E : Ext) (coins : List UTXO) :
    (E.sortCoins coins).map (fun c => c.Value) = sortedValues coins := by
  unfold sortedValues
  apply List.eq_of_perm_of_sorted (r := fun a b : Nat => a ≤ b)
  · exact ((E.sort_perm coins).map _).trans (List.perm_insertionSort _ _).symm
  · have h := E.sort_sorted coins
    unfold List.Sorted at h ⊢
    rw [List.pairwise_map]
    exact h
  · exact List.sorted_insertionSort _ _

/-- An error of `p2pkTtxout` is an address-library error. -/
theorem p2pkTtxout_error (E : Ext) (send : Send) (e : Error)
    (h : p2pkTtxout E send = .error e) : ∃ msg, e = .lib msg := by
  unfold p2pkTtxout DefaultP2PKScript at h
  cases hd : E.DecodeAddress send.Addr with
  | error m => rw [hd] at h; simp at h; exact ⟨m, by cases h; rfl⟩
  | ok a => rw [hd] at h; simp at h

/-- The loop of `newTxins` on the sorted coins, when the sum of all values fits 64 bits. -/
theorem newTxins_loop_sorted (E : Ext) (total seq : Nat) (coins : List UTXO)
    (hsum : coinSum coins < 2 ^ 64) :
    ∃ k, k ≤ (E.sortCoins coins).length ∧
      newTxinsLoop total seq (E.sortCoins coins) [] [] 0 =
        (((E.sortCoins coins).take k).map (newTxin seq), (E.sortCoins coins).take k,
          coinSum ((E.sortCoins coins).take k)) ∧
      (∀ j, j < k → coinSum ((E.sortCoins coins).take j) < total) ∧
      (k < (E.sortCoins coins).length → total ≤ coinSum ((E.sortCoins coins).take k)) := by
  obtain ⟨k, hk, heq, hmin, hstop⟩ :=
    newTxinsLoop_spec total seq (E.sortCoins coins) [] [] 0
      (by rw [coinSum_sort]; omega)
  refine ⟨k, hk, ?_, ?_, ?_⟩
  · simpa using heq
  · intro j hj; simpa using hmin j hj
  · intro h; simpa using hstop h

theorem coinSum_take_sorted (E : Ext) (coins : List UTXO) (j : Nat) :
    coinSum ((E.sortCoins coins).take j) = ((sortedValues coins).take j).sum := by
  rw [← sortCoins_values E coins, ← List.map_take]
  rfl

/-- Claim C1 (amended): when the sum of all coin values fits 64 bits and `newTxins`
succeeds, the used coins have exactly the values `v_1..v_k` of the ascending order, where
`k` is the least index whose prefix sum reaches the total: the prefix of length `k` meets the
total and no shorter prefix does (so `k = 0` when the total is 0). -/
theorem newTxins_minimal_prefix (E : Ext) (total : Nat) (coins : List UTXO) (refund : String)
    (locktime : Nat) (txins : List TxIn) (used : List UTXO) (mto : Option TxOut)
    (hsum : coinSum coins < 2 ^ 64)
    (h : newTxins E total coins refund locktime = (txins, used, mto, none)) :
    ∃ k, used.map (fun c => c.Value) = (sortedValues coins).take k ∧
      total ≤ ((sortedValues coins).take k).sum ∧
      ∀ j, j < k → ((sortedValues coins).take j).sum < total := by
  unfold newTxins at h
  generalize (seqFor locktime) = seq at h
  obtain ⟨k, hk, heq, hmin, hstop⟩ := newTxins_loop_sorted E total seq coins hsum
  have hused : used = (E.sortCoins coins).take k ∧
      total ≤ coinSum ((E.sortCoins coins).take k) := by
    simp only [heq] at h
    split_ifs at h with h1 h2 h3
    · simp at h
    · simp at h
    · split at h
      · simp only [Prod.mk.injEq] at h
        exact absurd h.2.2.2 (by simp)
      · simp only [Prod.mk.injEq] at h
        exact ⟨h.2.1.symm, by omega⟩
    · simp only [Prod.mk.injEq] at h
      exact ⟨h.2.1.symm, by omega⟩
  refine ⟨k, ?_, ?_, ?_⟩
  · rw [hused.1, List.map_take, sortCoins_values]
  · rw [← coinSum_take_sorted E]; exact hused.2
  · intro j hj
    rw [← coinSum_take_sorted E]; exact hmin j hj

/-- Witness for C1: three coins of 3, 1 and 2 and a fourth of 7, total 5. -/
theorem newTxins_minimal_prefix_witness :
    coinSum [coinOf 3, coinOf 1, coinOf 2, coinOf 7] < 2 ^ 64 ∧
    (newTxins modelExt 5 [coinOf 3, coinOf 1, coinOf 2, coinOf 7] "x" 0).2.1 =
      [coinOf 1, coinOf 2, coinOf 3] ∧
    ∃ k, [coinOf 1, coinOf 2, coinOf 3].map (fun c => c.Value) =
        (sortedValues [coinOf 3, coinOf 1, coinOf 2, coinOf 7]).take k ∧
      5 ≤ ((sortedValues [coinOf 3, coinOf 1, coinOf 2, coinOf 7]).take k).sum ∧
      ∀ j, j < k → ((sortedValues [coinOf 3, coinOf 1, coinOf 2, coinOf 7]).take j).sum < 5 :=
  ⟨by decide, by decide,
    newTxins_minimal_prefix modelExt 5 [coinOf 3, coinOf 1, coinOf 2, coinOf 7] "x" 0
      (newTxins modelExt 5 [coinOf 3, coinOf 1, coinOf 2, coinOf 7] "x" 0).1
      [coinOf 1, coinOf 2, coinOf 3]
      (newTxins modelExt 5 [coinOf 3, coinOf 1, coinOf 2, coinOf 7] "x" 0).2.2.1
      (by decide) (by decide)⟩

/-- Counterexample to C1 as stated: with coins of 2^64-1, 2^63 and 2^63 and total 2^64-1 the
running amount wraps to 0 after the two smaller coins, so `newTxins` succeeds using all three
coins, although the ascending prefix of length 2 already sums to 2^64, above the total. -/
theorem newTxins_minimal_prefix_overflow :
    (newTxins modelExt (2 ^ 64 - 1) [coinOf (2 ^ 64 - 1), coinOf (2 ^ 63), coinOf (2 ^ 63)]
        "" 0).2.2.2 = none ∧
    ¬ ∃ k, ((newTxins modelExt (2 ^ 64 - 1)
          [coinOf (2 ^ 64 - 1), coinOf (2 ^ 63), coinOf (2 ^ 63)] "" 0).2.1).map
          (fun c => c.Value) =
        (sortedValues [coinOf (2 ^ 64 - 1), coinOf (2 ^ 63), coinOf (2 ^ 63)]).take k ∧
      2 ^ 64 - 1 ≤
        ((sortedValues [coinOf (2 ^ 64 - 1), coinOf (2 ^ 63), coinOf (2 ^ 63)]).take k).sum ∧
      ∀ j, j < k →
        ((sortedValues [coinOf (2 ^ 64 - 1), coinOf (2 ^ 63), coinOf (2 ^ 63)]).take j).sum
          < 2 ^ 64 - 1 := by
  have hv : sortedValues [coinOf (2 ^ 64 - 1), coinOf (2 ^ 63), coinOf (2 ^ 63)] =
      [2 ^ 63, 2 ^ 63, 2 ^ 64 - 1] := by decide
  have hu : ((newTxins modelExt (2 ^ 64 - 1)
      [coinOf (2 ^ 64 - 1), coinOf (2 ^ 63), coinOf (2 ^ 63)] "" 0).2.1).map
      (fun c => c.Value) = [2 ^ 63, 2 ^ 63, 2 ^ 64 - 1] := by decide
  refine ⟨by decide, ?_⟩
  rw [hv, hu]
  rintro ⟨k, hk, _, hmin⟩
  have hlen := congrArg List.length hk
  simp at hlen
  have h2 := hmin 2 (by omega)
  simp at h2

/-- The result of `newTxins` by cases, when the sum of all coin values fits 64 bits: `k` is
the number of coins the loop takes and the amount is their exact sum. -/
theorem newTxins_cases (E : Ext) (total : Nat) (coins : List UTXO) (refund : String)
    (locktime : Nat) (hsum : coinSum coins < 2 ^ 64) :
    ∃ k, k ≤ (E.sortCoins coins).length ∧
      (∀ j, j < k → coinSum ((E.sortCoins coins).take j) < total) ∧
      (k < (E.sortCoins coins).length → total ≤ coinSum ((E.sortCoins coins).take k)) ∧
      (newTxinsLoop total (seqFor locktime)
          (E.sortCoins coins) [] [] 0).2.1 = (E.sortCoins coins).take k ∧
      newTxins E total coins refund locktime =
        if coinSum ((E.sortCoins coins).take k) < total then
          ([], [], none,
            some (.shortage (coinSum ((E.sortCoins coins).take k)) total coins.length))
        else if coinSum ((E.sortCoins coins).take k) - total > 0 then
          if refund = "" then ([], [], none, some .refundEmpty)
          else
            match p2pkTtxout E
                { Addr := refund, Amount := coinSum ((E.sortCoins coins).take k) - total } with
            | .error e =>
              (((E.sortCoins coins).take k).map
                  (newTxin (seqFor locktime)),
                (E.sortCoins coins).take k, none, some e)
            | .ok mto =>
              (((E.sortCoins coins).take k).map
                  (newTxin (seqFor locktime)),
                (E.sortCoins coins).take k, some mto, none)
        else
          (((E.sortCoins coins).take k).map (newTxin (seqFor locktime)),
            (E.sortCoins coins).take k, none, none) := by
  unfold newTxins
  generalize (seqFor locktime) = seq
  obtain ⟨k, hk, heq, hmin, hstop⟩ := newTxins_loop_sorted E total seq coins hsum
  refine ⟨k, hk, hmin, hstop, by rw [heq], ?_⟩
  have hS : coinSum ((E.sortCoins coins).take k) < 2 ^ 64 := by
    have := coinSum_take_le (E.sortCoins coins) k
    rw [coinSum_sort] at this
    omega
  simp only [heq]
  by_cases h1 : coinSum ((E.sortCoins coins).take k) < total
  · simp [h1]
  · have hsub : sub64 (coinSum ((E.sortCoins coins).take k)) total =
        coinSum ((E.sortCoins coins).take k) - total := sub64_eq (by omega) hS
    simp only [h1, if_false, hsub]

/-- In the shortage case the loop has taken every coin. -/
theorem newTxins_short_all (E : Ext) (total : Nat) (coins : List UTXO) (k : Nat)
    (hk : k ≤ (E.sortCoins coins).length)
    (hstop : k < (E.sortCoins coins).length → total ≤ coinSum ((E.sortCoins coins).take k))
    (hlt : coinSum ((E.sortCoins coins).take k) < total) :
    coinSum ((E.sortCoins coins).take k) = coinSum coins := by
  have hk2 : k = (E.sortCoins coins).length := by
    by_contra hne
    have := hstop (by omega)
    omega
  rw [hk2, List.take_length, coinSum_sort]

/-- Claim C2 (amended): when the sum of all coin values fits 64 bits and `newTxins` succeeds
with used coins summing to `S` for total `T`, a change output is returned iff `S > T`, its
value is exactly `S - T`, its script is the pay-to-key-hash script of the refund address, and
no change output is returned when `S = T`; and when the selected coins sum to more than `T`
and the refund address is empty, `newTxins` fails (with "refund address is empty"). -/
theorem newTxins_change_exact (E : Ext) (total : Nat) (coins : List UTXO) (refund : String)
    (locktime : Nat) (hsum : coinSum coins < 2 ^ 64) :
    (∀ txins used mto, newTxins E total coins refund locktime = (txins, used, mto, none) →
      ((∃ o, mto = some o) ↔ total < coinSum used) ∧
      (∀ o, mto = some o →
        o.Value = coinSum used - total ∧ DefaultP2PKScript E refund = .ok o.Script) ∧
      (coinSum used = total → mto = none)) ∧
    (refund = "" →
      total < coinSum (newTxinsLoop total (seqFor locktime)
        (E.sortCoins coins) [] [] 0).2.1 →
      newTxins E total coins refund locktime = ([], [], none, some .refundEmpty)) := by
  obtain ⟨k, _, _, _, hsel, heq⟩ := newTxins_cases E total coins refund locktime hsum
  rw [heq, hsel]
  constructor
  · intro txins used mto h
    split_ifs at h with h1 h2 h3
    · simp at h
    · simp at h
    · cases hp : p2pkTtxout E
          { Addr := refund, Amount := coinSum ((E.sortCoins coins).take k) - total } with
      | error e => rw [hp] at h; simp at h
      | ok o =>
        rw [hp] at h
        simp only [Prod.mk.injEq, and_true] at h
        obtain ⟨_, hu, hm⟩ := h
        subst hu hm
        unfold p2pkTtxout at hp
        cases hd : DefaultP2PKScript E refund with
        | error e => simp [hd] at hp
        | ok scr =>
          simp only [hd] at hp
          injection hp with hp
          subst hp
          refine ⟨⟨fun _ => by omega, fun _ => ⟨_, rfl⟩⟩, ?_, fun hEq => by omega⟩
          intro o ho
          injection ho with ho
          subst ho
          exact ⟨rfl, rfl⟩
    · simp only [Prod.mk.injEq, and_true] at h
      obtain ⟨_, hu, hm⟩ := h
      subst hu hm
      refine ⟨⟨fun ⟨o, ho⟩ => by simp at ho, fun hlt => by omega⟩, ?_, fun _ => rfl⟩
      intro o ho
      simp at ho
  · intro hr hlt
    have h1 : ¬ coinSum ((E.sortCoins coins).take k) < total := by omega
    have h2 : coinSum ((E.sortCoins coins).take k) - total > 0 := by omega
    simp [h1, h2, hr]

/-- Witness for C2: coins 3, 1, 2, 7 and total 5 give a change output of exactly 1. -/
theorem newTxins_change_exact_witness :
    coinSum [coinOf 3, coinOf 1, coinOf 2, coinOf 7] < 2 ^ 64 ∧
    (newTxins modelExt 5 [coinOf 3, coinOf 1, coinOf 2, coinOf 7] "x" 0).2.2.1 =
      some { Value := 1, Script := [0x76, 0xa9, 20] ++ List.replicate 20 1 ++ [0x88, 0xac] } ∧
    (newTxins modelExt 5 [coinOf 3, coinOf 1, coinOf 2, coinOf 7] "" 0).2.2.2 =
      some .refundEmpty ∧
    ((∀ txins used mto,
      newTxins modelExt 5 [coinOf 3, coinOf 1, coinOf 2, coinOf 7] "x" 0 =
        (txins, used, mto, none) →
      ((∃ o, mto = some o) ↔ 5 < coinSum used) ∧
      (∀ o, mto = some o →
        o.Value = coinSum used - 5 ∧ DefaultP2PKScript modelExt "x" = .ok o.Script) ∧
      (coinSum used = 5 → mto = none)) ∧
    ("x" = "" →
      5 < coinSum (newTxinsLoop 5 (seqFor 0)
        (modelExt.sortCoins [coinOf 3, coinOf 1, coinOf 2, coinOf 7]) [] [] 0).2.1 →
      newTxins modelExt 5 [coinOf 3, coinOf 1, coinOf 2, coinOf 7] "x" 0 =
        ([], [], none, some .refundEmpty))) :=
  ⟨by decide, by decide, by decide,
    newTxins_change_exact modelExt 5 [coinOf 3, coinOf 1, coinOf 2, coinOf 7] "x" 0
      (by decide)⟩

/-- Counterexample to C2 as stated: with coins 2^64-1, 2^63, 2^63, total 2^64-1 and an empty
refund address the call succeeds and returns no change output, although the used coins sum
to 2^65-1, more than the total. -/
theorem newTxins_change_overflow :
    (newTxins modelExt (2 ^ 64 - 1) [coinOf (2 ^ 64 - 1), coinOf (2 ^ 63), coinOf (2 ^ 63)]
        "" 0).2.2 = (none, none) ∧
    2 ^ 64 - 1 < coinSum (newTxins modelExt (2 ^ 64 - 1)
        [coinOf (2 ^ 64 - 1), coinOf (2 ^ 63), coinOf (2 ^ 63)] "" 0).2.1 := by
  constructor
  · decide
  · decide

/-- Claim C3: when the sum of all coin values fits 64 bits, `newTxins` fails with the
shortage error if and only if that sum is strictly less than the total; in that case it
returns no inputs, no used coins and no change output (and the error carries the sum, the
total and the number of coins). -/
theorem newTxins_shortage_iff (E : Ext) (total : Nat) (coins : List UTXO) (refund : String)
    (locktime : Nat) (hsum : coinSum coins < 2 ^ 64) :
    ((∃ a t n, (newTxins E total coins refund locktime).2.2.2 = some (.shortage a t n)) ↔
      coinSum coins < total) ∧
    (coinSum coins < total →
      newTxins E total coins refund locktime =
        ([], [], none, some (.shortage (coinSum coins) total coins.length))) := by
  obtain ⟨k, hk, _, hstop, _, heq⟩ := newTxins_cases E total coins refund locktime hsum
  have hback : coinSum coins < total →
      newTxins E total coins refund locktime =
        ([], [], none, some (.shortage (coinSum coins) total coins.length)) := by
    intro hlt
    have hle := coinSum_take_le (E.sortCoins coins) k
    rw [coinSum_sort] at hle
    have h1 : coinSum ((E.sortCoins coins).take k) < total := by omega
    rw [heq, if_pos h1, newTxins_short_all E total coins k hk hstop h1]
  refine ⟨⟨?_, fun hlt => ⟨_, _, _, by rw [hback hlt]⟩⟩, hback⟩
  rintro ⟨a, t, n, h⟩
  rw [heq] at h
  split_ifs at h with h1 h2 h3
  · rw [← newTxins_short_all E total coins k hk hstop h1]; exact h1
  · simp at h
  · cases hp : p2pkTtxout E
        { Addr := refund, Amount := coinSum ((E.sortCoins coins).take k) - total } with
    | error e =>
      obtain ⟨msg, hmsg⟩ := p2pkTtxout_error E _ e hp
      rw [hp] at h
      simp [hmsg] at h
    | ok o => rw [hp] at h; simp at h

/-- Witness for C3: coins 3 and 1 cannot pay 5. -/
theorem newTxins_shortage_iff_witness :
    coinSum [coinOf 3, coinOf 1] < 2 ^ 64 ∧
    newTxins modelExt 5 [coinOf 3, coinOf 1] "x" 0 = ([], [], none, some (.shortage 4 5 2)) ∧
    (((∃ a t n, (newTxins modelExt 5 [coinOf 3, coinOf 1] "x" 0).2.2.2 =
        some (.shortage a t n)) ↔ coinSum [coinOf 3, coinOf 1] < 5) ∧
    (coinSum [coinOf 3, coinOf 1] < 5 →
      newTxins modelExt 5 [coinOf 3, coinOf 1] "x" 0 =
        ([], [], none, some (.shortage (coinSum [coinOf 3, coinOf 1]) 5
          [coinOf 3, coinOf 1].length)))) :=
  ⟨by decide, by decide, newTxins_shortage_iff modelExt 5 [coinOf 3, coinOf 1] "x" 0 (by decide)⟩

/-! ## The channel sends (`sendstruct`) -/

/-- No comparison of `sendstruct` can fail: it never returns an error. -/
theorem sendstruct_no_error (E : Ext) (m : PubInfo) (amount : Nat) (e : Error) :
    sendstruct E m amount ≠ some (.error e) := by
  unfold sendstruct
  cases m.Pubs[0]? with
  | none => simp
  | some pk0 =>
    cases m.Pubs[1]? with
    | none => simp
    | some pk1 => simp

set_option maxRecDepth 100000 in
/-- Claim C4 (the code at the failing input): for the channel funded with 10 and fee 1, the
request 10 exceeds 10 - 1, yet `sendstruct` returns a send list whose payer amount is the
wrapped 2^64 - 1, and `SignIncremented` signs it. -/
theorem sendstruct_overpay_accepted :
    10 > 10 - 1 ∧
    sendstruct modelExt payer10.PubInfo 10 =
      some (.ok [{ Addr := "payer", Amount := 2 ^ 64 - 1 }, { Addr := "payee", Amount := 10 }]) ∧
    SignIncremented modelExt payer10 10 = some (.ok (List.replicate 32 0 ++ [189])) := by
  refine ⟨by decide, by decide, by decide⟩

/-- Claim C5: in a channel context (keys payer, payee) with funding `A`, fee `F ≤ A` and
`x ≤ A - F`, `sendstruct x` succeeds and returns, in this order, a send of exactly
`A - F - x` to the payer's address if that is not zero and a send of exactly `x` to the
payee's address if `x` is not zero; the amounts of the sends plus the fee sum to `A`. -/
theorem sendstruct_split (E : Ext) (m : PubInfo) (pk0 pk1 : PublicKey) (x : Nat)
    (hpubs : m.Pubs = [pk0, pk1]) (hA : m.Amount < 2 ^ 64) (hF : m.Fee ≤ m.Amount)
    (hx : x ≤ m.Amount - m.Fee) :
    sendstruct E m x = some (.ok
      (channelSends (E.Address pk0) (E.Address pk1) (m.Amount - m.Fee - x) x)) ∧
    ((channelSends (E.Address pk0) (E.Address pk1) (m.Amount - m.Fee - x) x).map
      (fun s => s.Amount)).sum + m.Fee = m.Amount := by
  have h1 : sub64 m.Amount m.Fee = m.Amount - m.Fee := sub64_eq hF hA
  have h2 : sub64 (m.Amount - m.Fee) x = m.Amount - m.Fee - x := sub64_eq hx (by omega)
  unfold channelSends
  constructor
  · unfold sendstruct
    simp only [hpubs, h1, h2]
    by_cases hr : m.Amount - m.Fee - x = 0 <;> by_cases h0 : x = 0 <;> simp [hr, h0]
  · split_ifs <;>
      simp only [List.map_append, List.map_cons, List.map_nil, List.sum_append, List.sum_cons,
        List.sum_nil, List.nil_append, List.append_nil] <;> omega

/-- Witness for C5: the payer context of `NewMicroPayer` with funding 10, fee 1, payment 4. -/
theorem sendstruct_split_witness :
    sendstruct modelExt
        (NewMicroPayer { id := 0, PublicKey := { id := 0 } } { id := 1 } 10 1).PubInfo 4 =
      some (.ok (channelSends "payer" "payee" (10 - 1 - 4) 4)) ∧
    ((channelSends "payer" "payee" (10 - 1 - 4) 4).map (fun s => s.Amount)).sum + 1 = 10 :=
  sendstruct_split modelExt
    (NewMicroPayer { id := 0, PublicKey := { id := 0 } } { id := 1 } 10 1).PubInfo
    { id := 0 } { id := 1 } 4 rfl (by decide) (by decide) (by decide)

/-! ## Multisig signatures (`embedSigns`, `SpendBondTx`) -/

theorem presentCount_le (sigs : List (Option Bytes)) : presentCount sigs ≤ sigs.length := by
  induction sigs with
  | nil => simp [presentCount]
  | cons x rest ih =>
    cases x with
    | none => simp only [presentCount, List.length_cons]; omega
    | some s => simp only [presentCount, List.length_cons]; omega

/-- When every non-absent signature verifies at its slot, the loop of `embedSigns` ends with
the specified pushes appended and the count of the non-absent slots (as a byte). -/
theorem embedSignsLoop_ok (E : Ext) (p : PubInfo) (mtx : Tx) :
    ∀ (rest : List (Option Bytes)) (i : Nat) (sc : Bytes) (n : Nat), n < 256 →
      (∀ k s, rest[k]? = some (some s) → verify E p mtx s (i + k) = some none) →
      embedSignsLoop E p mtx rest i sc n =
        some (.ok (sc ++ sigPushes rest, (n + presentCount rest) % 256)) := by
  intro rest
  induction rest with
  | nil =>
    intro i sc n hn _
    simp [embedSignsLoop, sigPushes, presentCount, Nat.mod_eq_of_lt hn]
  | cons x rest ih =>
    intro i sc n hn hall
    have htail : ∀ k s, rest[k]? = some (some s) →
        verify E p mtx s (i + 1 + k) = some none := by
      intro k s hk
      have := hall (k + 1) s (by simpa using hk)
      rwa [show i + (k + 1) = i + 1 + k by omega] at this
    cases x with
    | none =>
      simp only [embedSignsLoop, sigPushes, presentCount]
      exact ih (i + 1) sc n hn htail
    | some s =>
      have h0 : verify E p mtx s i = some none := by
        have := hall 0 s (by simp)
        simpa using this
      simp only [embedSignsLoop, h0, sigPushes, presentCount]
      rw [ih (i + 1) _ ((n + 1) % 256) (Nat.mod_lt _ (by decide)) htail]
      have hmod : ((n + 1) % 256 + presentCount rest) % 256 =
          (n + (presentCount rest + 1)) % 256 := by omega
      simp [hmod, List.append_assoc]

/-- When the loop of `embedSigns` ends without error, every non-absent signature has
verified at its slot. -/
theorem embedSignsLoop_verified (E : Ext) (p : PubInfo) (mtx : Tx) :
    ∀ (rest : List (Option Bytes)) (i : Nat) (sc : Bytes) (n : Nat) (r : Bytes × Nat),
      embedSignsLoop E p mtx rest i sc n = some (.ok r) →
      ∀ k s, rest[k]? = some (some s) → verify E p mtx s (i + k) = some none := by
  intro rest
  induction rest with
  | nil => intro i sc n r _ k s hk; simp at hk
  | cons x rest ih =>
    intro i sc n r h k s hk
    cases x with
    | none =>
      simp only [embedSignsLoop] at h
      cases k with
      | zero => simp at hk
      | succ k =>
        have := ih (i + 1) sc n r h k s (by simpa using hk)
        rwa [show i + 1 + k = i + (k + 1) by omega] at this
    | some s0 =>
      simp only [embedSignsLoop] at h
      cases hv : verify E p mtx s0 i with
      | none => rw [hv] at h; simp at h
      | some o =>
        cases o with
        | some msg => rw [hv] at h; simp at h
        | none =>
          rw [hv] at h
          cases k with
          | zero =>
            simp at hk
            subst hk
            simpa using hv
          | succ k =>
            have := ih (i + 1) _ _ r h k s (by simpa using hk)
            rwa [show i + 1 + k = i + (k + 1) by omega] at this

/-- The loop of `embedSigns` stops at the first non-absent signature that does not verify,
with an error naming its slot. -/
theorem embedSignsLoop_first_bad (E : Ext) (p : PubInfo) (mtx : Tx) :
    ∀ (rest : List (Option Bytes)) (i : Nat) (sc : Bytes) (n : Nat) (k : Nat) (s : Bytes)
      (msg : String),
      rest[k]? = some (some s) → verify E p mtx s (i + k) = some (some msg) →
      (∀ j s', j < k → rest[j]? = some (some s') → verify E p mtx s' (i + j) = some none) →
      embedSignsLoop E p mtx rest i sc n = some (.error (.verifyAt msg (i + k))) := by
  intro rest
  induction rest with
  | nil => intro i sc n k s msg hk; simp at hk
  | cons x rest ih =>
    intro i sc n k s msg hk hbad hgood
    cases k with
    | zero =>
      simp at hk
      subst hk
      have hbad0 : verify E p mtx s i = some (some msg) := by simpa using hbad
      simp [embedSignsLoop, hbad0]
    | succ k =>
      have hk2 : rest[k]? = some (some s) := by simpa using hk
      have hbad2 : verify E p mtx s (i + 1 + k) = some (some msg) := by
        rwa [show i + 1 + k = i + (k + 1) by omega]
      have hgood2 : ∀ j s', j < k → rest[j]? = some (some s') →
          verify E p mtx s' (i + 1 + j) = some none := by
        intro j s2 hj hj2
        have := hgood (j + 1) s2 (by omega) (by simpa using hj2)
        rwa [show i + (j + 1) = i + 1 + j by omega] at this
      have hrec := ih (i + 1) 
      cases x with
      | none =>
        simp only [embedSignsLoop]
        rw [hrec sc n k s msg hk2 hbad2 hgood2, show i + 1 + k = i + (k + 1) by omega]
      | some s0 =>
        have h0 : verify E p mtx s0 i = some none := by
          have := hgood 0 s0 (by omega) (by simp)
          simpa using this
        simp only [embedSignsLoop, h0]
        rw [hrec _ _ k s msg hk2 hbad2 hgood2, show i + 1 + k = i + (k + 1) by omega]

theorem txForSignBuild_inputs (E : Ext) (p : PubInfo) (locktime : Nat) (txouts : List TxOut)
    (r : List TxIn × List UTXO × Option TxOut × Option Error) (mtx : Tx)
    (h : txForSignBuild E p locktime txouts r = some (.ok mtx)) :
    ∃ in0 ins, mtx.TxIn = in0 :: ins := by
  obtain ⟨mtxin, u, txout, err⟩ := r
  cases err with
  | some e => simp [txForSignBuild] at h
  | none =>
    cases mtxin with
    | nil => simp [txForSignBuild] at h
    | cons in0 ins =>
      simp only [txForSignBuild, Option.some.injEq, Except.ok.injEq] at h
      subst h
      exact ⟨_, _, rfl⟩

/-- A spend derived by `txForSign` has at least one input. -/
theorem txForSign_inputs (E : Ext) (p : PubInfo) (locktime : Nat) (sends : List Send)
    (mtx : Tx) (h : txForSign E p locktime sends = some (.ok mtx)) :
    ∃ in0 ins, mtx.TxIn = in0 :: ins := by
  unfold txForSign at h
  repeat' split at h
  all_goals try (exfalso; simp at h; done)
  exact txForSignBuild_inputs E p locktime _ _ mtx h

/-- What a successful `embedSigns` has checked and written. -/
theorem embedSigns_success (E : Ext) (p : PubInfo) (mtx mtx1 : Tx)
    (sigs : List (Option Bytes)) (h : embedSigns E p mtx sigs = some (mtx1, none)) :
    (∀ i s, sigs[i]? = some (some s) → verify E p mtx s i = some none) ∧
    presentCount sigs % 256 = p.M ∧ (redeemScript E p).length ≤ 255 ∧
    (∃ in0 ins, mtx.TxIn = in0 :: ins) ∧
    mtx1 = withScript0 mtx (multisigScript sigs (redeemScript E p)) := by
  unfold embedSigns at h
  cases hl : embedSignsLoop E p mtx sigs 0 [op0] 0 with
  | none => rw [hl] at h; simp at h
  | some r =>
    cases r with
    | error e => rw [hl] at h; simp at h
    | ok r =>
      have hall : ∀ i s, sigs[i]? = some (some s) → verify E p mtx s i = some none := by
        intro i s hi
        have := embedSignsLoop_verified E p mtx sigs 0 [op0] 0 r hl i s hi
        simpa using this
      have hval := embedSignsLoop_ok E p mtx sigs 0 [op0] 0 (by decide)
        (by intro k s hk; simpa using hall k s hk)
      rw [hl] at hval
      simp only [Option.some.injEq, Except.ok.injEq, Nat.zero_add] at hval
      subst hval
      rw [hl] at h
      simp only at h
      split_ifs at h with h1 h2
      · simp at h
      · simp at h
      · cases hin : mtx.TxIn with
        | nil => rw [hin] at h; simp at h
        | cons in0 ins =>
          rw [hin] at h
          simp only [Option.some.injEq, Prod.mk.injEq, and_true] at h
          have hlen : (redeemScript E p).length % 256 = (redeemScript E p).length :=
            Nat.mod_eq_of_lt (by omega)
          refine ⟨hall, by simpa using h1, by omega, ⟨in0, ins, rfl⟩, ?_⟩
          rw [← h, hlen]
          simp [withScript0, multisigScript, hin]

/-- The conditions under which `embedSigns` succeeds. -/
theorem embedSigns_of_valid (E : Ext) (p : PubInfo) (mtx : Tx) (sigs : List (Option Bytes))
    (hall : ∀ i s, sigs[i]? = some (some s) → verify E p mtx s i = some none)
    (hcount : presentCount sigs % 256 = p.M) (hlen : (redeemScript E p).length ≤ 255)
    (hin : ∃ in0 ins, mtx.TxIn = in0 :: ins) :
    embedSigns E p mtx sigs =
      some (withScript0 mtx (multisigScript sigs (redeemScript E p)), none) := by
  obtain ⟨in0, ins, hin⟩ := hin
  have hval := embedSignsLoop_ok E p mtx sigs 0 [op0] 0 (by decide)
    (by intro k s hk; simpa using hall k s hk)
  have hlen2 : (redeemScript E p).length % 256 = (redeemScript E p).length :=
    Nat.mod_eq_of_lt (by omega)
  have h2 : ¬ (redeemScript E p).length > 255 := by omega
  unfold embedSigns
  simp only [hval, Nat.zero_add, hcount, ne_eq, not_true_eq_false, if_false, h2, hin, hlen2]
  simp [withScript0, multisigScript, hin]

/-- The error of `embedSigns` when a signature does not verify and all before it do. -/
theorem embedSigns_first_bad (E : Ext) (p : PubInfo) (mtx : Tx) (sigs : List (Option Bytes))
    (i : Nat) (s : Bytes) (msg : String) (hi : sigs[i]? = some (some s))
    (hbad : verify E p mtx s i = some (some msg))
    (hgood : ∀ j s', j < i → sigs[j]? = some (some s') → verify E p mtx s' j = some none) :
    embedSigns E p mtx sigs = some (mtx, some (.verifyAt msg i)) := by
  have h := embedSignsLoop_first_bad E p mtx sigs 0 [op0] 0 i s msg hi (by simpa using hbad)
    (by intro j s2 hj hj2; simpa using hgood j s2 hj hj2)
  unfold embedSigns
  simp [h]

/-- A context for which `txForSign` succeeds is bound to a bond. -/
theorem txForSign_bond (E : Ext) (p : PubInfo) (locktime : Nat) (sends : List Send)
    (mtx : Tx) (h : txForSign E p locktime sends = some (.ok mtx)) :
    ∃ bond, p.bond = some bond := by
  cases hb : p.bond with
  | none => simp [txForSign, hb] at h
  | some bond => exact ⟨bond, rfl⟩

/-- `SpendBondTx` on a derivable spend is `embedSigns` on that spend. -/
theorem SpendBondTx_eq (E : Ext) (p : PubInfo) (locktime : Nat) (sends : List Send)
    (mtx : Tx) (sigs : List (Option Bytes))
    (hspend : txForSign E p locktime sends = some (.ok mtx)) (hne : sigs.length ≠ 0) :
    SpendBondTx E p locktime sigs sends =
      match embedSigns E p mtx sigs with
      | none => none
      | some (mtx1, err) => some (some mtx1, err) := by
  obtain ⟨bond, hb⟩ := txForSign_bond E p locktime sends mtx hspend
  unfold SpendBondTx
  simp only [hne, if_false, hb, hspend]

/-- Claim C6 (amended): for a bonded `PubInfo` with threshold `M` over `N` keys, sends for
which the spend can be derived, and a signature list with one slot per public key,
`SpendBondTx` succeeds if and only if the redeem script is at most 255 bytes long, exactly
`M` slots are non-absent and every non-absent signature at slot `i` verifies against
`Pubs[i]` on the spend's digest (so `M-1` or `M+1` valid signatures fail); and the first
non-absent signature that does not verify at its own position makes the call fail with an
error naming that position. -/
theorem SpendBondTx_threshold (E : Ext) (p : PubInfo) (locktime : Nat) (sends : List Send)
    (mtx : Tx) (sigs : List (Option Bytes))
    (hspend : txForSign E p locktime sends = some (.ok mtx))
    (hslots : sigs.length = p.Pubs.length) (hN : 0 < p.Pubs.length)
    (hN2 : p.Pubs.length < 256) :
    ((∃ tx, SpendBondTx E p locktime sigs sends = some (some tx, none)) ↔
      ((redeemScript E p).length ≤ 255 ∧ presentCount sigs = p.M ∧
        ∀ i s, sigs[i]? = some (some s) → verify E p mtx s i = some none)) ∧
    (∀ i s msg, sigs[i]? = some (some s) → verify E p mtx s i = some (some msg) →
      (∀ j s', j < i → sigs[j]? = some (some s') → verify E p mtx s' j = some none) →
      SpendBondTx E p locktime sigs sends = some (some mtx, some (.verifyAt msg i))) := by
  have hne : sigs.length ≠ 0 := by omega
  have hcnt : presentCount sigs % 256 = presentCount sigs :=
    Nat.mod_eq_of_lt (by have := presentCount_le sigs; omega)
  rw [SpendBondTx_eq E p locktime sends mtx sigs hspend hne]
  refine ⟨⟨?_, ?_⟩, ?_⟩
  · rintro ⟨tx, htx⟩
    cases he : embedSigns E p mtx sigs with
    | none => rw [he] at htx; simp at htx
    | some r =>
      obtain ⟨mtx1, err⟩ := r
      rw [he] at htx
      simp only [Option.some.injEq, Prod.mk.injEq] at htx
      obtain ⟨_, herr⟩ := htx
      subst herr
      obtain ⟨hall, hc, hl, _, _⟩ := embedSigns_success E p mtx mtx1 sigs he
      exact ⟨hl, by omega, hall⟩
  · rintro ⟨hl, hc, hall⟩
    rw [embedSigns_of_valid E p mtx sigs hall (by omega) hl
      (txForSign_inputs E p locktime sends mtx hspend)]
    exact ⟨_, rfl⟩
  · intro i s msg hi hbad hgood
    rw [embedSigns_first_bad E p mtx sigs i s msg hi hbad hgood]

set_option maxRecDepth 100000 in
/-- Witness for C6: the 2-of-2 context funded with 10, fee 1, paying 5 and 4, with the two
signatures of its keys on the digest of the spend. -/
theorem SpendBondTx_threshold_witness :
    (∃ tx, SpendBondTx modelExt payer10.PubInfo 0
        [some (0 :: List.replicate 31 0 ++ [196]), some (1 :: List.replicate 31 0 ++ [196])]
        [{ Addr := "payer", Amount := 5 }, { Addr := "payee", Amount := 4 }] =
      some (some tx, none)) ∧
    SpendBondTx modelExt payer10.PubInfo 0
        [some (0 :: List.replicate 31 0 ++ [196]), none]
        [{ Addr := "payer", Amount := 5 }, { Addr := "payee", Amount := 4 }] =
      some (some (spendOf modelExt payer10.PubInfo 0
        [{ Addr := "payer", Amount := 5 }, { Addr := "payee", Amount := 4 }]),
        some .sigsNotEnough) := by
  have h := SpendBondTx_threshold modelExt payer10.PubInfo 0
    [{ Addr := "payer", Amount := 5 }, { Addr := "payee", Amount := 4 }]
    (spendOf modelExt payer10.PubInfo 0
      [{ Addr := "payer", Amount := 5 }, { Addr := "payee", Amount := 4 }])
    [some (0 :: List.replicate 31 0 ++ [196]), some (1 :: List.replicate 31 0 ++ [196])]
    (by decide) (by decide) (by decide) (by decide)
  refine ⟨h.1.2 ⟨by decide, by decide, ?_⟩, by decide⟩
  intro i s hi
  match i, hi with
  | 0, hi =>
    simp only [List.getElem?_cons_zero, Option.some.injEq] at hi
    subst hi
    decide
  | 1, hi =>
    simp only [List.getElem?_cons_succ, List.getElem?_cons_zero, Option.some.injEq] at hi
    subst hi
    decide
  | n + 2, hi => simp at hi

set_option maxRecDepth 100000 in
/-- Counterexample to C6 as stated. First, the bonded 2-of-4 context with uncompressed keys:
exactly `M = 2` slots are non-absent and both signatures verify at their slots, yet
`SpendBondTx` fails, because the redeem script is 267 bytes long. Second, in the 2-of-2
context two signatures that do not verify at slots 0 and 1: the error names slot 0 only. -/
theorem SpendBondTx_threshold_redeem_limit :
    (pub4.Pubs.length = 4 ∧ pub4.M = 2 ∧
      presentCount [some (100 :: List.replicate 31 0 ++ [53]),
        some (101 :: List.replicate 31 0 ++ [53]), none, none] = 2 ∧
      verify modelExt pub4 (spendOf modelExt pub4 0 [{ Addr := "payer", Amount := 9 }])
        (100 :: List.replicate 31 0 ++ [53]) 0 = some none ∧
      verify modelExt pub4 (spendOf modelExt pub4 0 [{ Addr := "payer", Amount := 9 }])
        (101 :: List.replicate 31 0 ++ [53]) 1 = some none ∧
      (redeemScript modelExt pub4).length = 267 ∧
      SpendBondTx modelExt pub4 0
        [some (100 :: List.replicate 31 0 ++ [53]), some (101 :: List.replicate 31 0 ++ [53]),
          none, none] [{ Addr := "payer", Amount := 9 }] =
        some (some (spendOf modelExt pub4 0 [{ Addr := "payer", Amount := 9 }]),
          some .redeemTooLong)) ∧
    (verify modelExt payer10.PubInfo
        (spendOf modelExt payer10.PubInfo 0
          [{ Addr := "payer", Amount := 5 }, { Addr := "payee", Amount := 4 }]) [7] 1 =
        some (some "invalid signature") ∧
      SpendBondTx modelExt payer10.PubInfo 0 [some [7], some [7]]
          [{ Addr := "payer", Amount := 5 }, { Addr := "payee", Amount := 4 }] =
        some (some (spendOf modelExt payer10.PubInfo 0
          [{ Addr := "payer", Amount := 5 }, { Addr := "payee", Amount := 4 }]),
          some (.verifyAt "invalid signature" 0))) := by
  refine ⟨⟨by decide, by decide, by decide, by decide, by decide, by decide, by decide⟩,
    by decide, by decide⟩

/-- For signatures shorter than 255 bytes the length byte of a push is `len(sig)+1`. -/
theorem sigPushes_eq_spec (sigs : List (Option Bytes))
    (h : ∀ (i : Nat) (s : Bytes), sigs[i]? = some (some s) → s.length < 255) :
    sigPushes sigs = sigPushesSpec sigs := by
  induction sigs with
  | nil => rfl
  | cons x rest ih =>
    have hrest : ∀ (i : Nat) (s : Bytes), rest[i]? = some (some s) → s.length < 255 := by
      intro i s hi
      exact h (i + 1) s (by simpa using hi)
    cases x with
    | none => simp only [sigPushes, sigPushesSpec, ih hrest]
    | some s =>
      have hs : s.length < 255 := h 0 s (by simp)
      have hmod : (s.length + 1) % 256 = s.length + 1 := Nat.mod_eq_of_lt (by omega)
      simp only [sigPushes, sigPushesSpec, ih hrest, hmod]

/-- Claim C7: `embedSigns` succeeds exactly when every non-absent signature verifies at its
slot, the number of non-absent signatures (as a byte) is `M`, the redeem script is at most
255 bytes long and the transaction has an input 0; whenever it succeeds on the signature
list `sigs`, the transaction it leaves is the given one with the script of input 0 replaced
by `OP_0`, then for each non-absent `sigs[i]` in increasing `i` the byte `byte(len(sig)+1)`,
the signature and the byte `0x01`, then `OP_PUSHDATA1`, the length of the redeem script and
the redeem script; and when the signatures are shorter than 255 bytes the length byte of
each is the number `len(sig)+1`. -/
theorem embedSigns_script_layout (E : Ext) (p : PubInfo) (mtx : Tx)
    (sigs : List (Option Bytes)) :
    ((∃ mtx1, embedSigns E p mtx sigs = some (mtx1, none)) ↔
      ((∀ i s, sigs[i]? = some (some s) → verify E p mtx s i = some none) ∧
        presentCount sigs % 256 = p.M ∧ (redeemScript E p).length ≤ 255 ∧
        ∃ in0 ins, mtx.TxIn = in0 :: ins)) ∧
    (∀ mtx1, embedSigns E p mtx sigs = some (mtx1, none) →
      ∃ in0 ins, mtx.TxIn = in0 :: ins ∧
        mtx1.TxIn = ⟨in0.Hash, in0.Index, [op0] ++ sigPushes sigs ++
          [opPUSHDATA1, (redeemScript E p).length] ++ redeemScript E p, in0.Seq⟩ :: ins ∧
        mtx1.Version = mtx.Version ∧ mtx1.TxOut = mtx.TxOut ∧
        mtx1.Locktime = mtx.Locktime) ∧
    (∀ mtx1, embedSigns E p mtx sigs = some (mtx1, none) →
      (∀ (i : Nat) (s : Bytes), sigs[i]? = some (some s) → s.length < 255) →
      ∃ in0 ins, mtx1.TxIn = in0 :: ins ∧
        in0.Script = [op0] ++ sigPushesSpec sigs ++
          [opPUSHDATA1, (redeemScript E p).length] ++ redeemScript E p) := by
  refine ⟨⟨?_, ?_⟩, ?_, ?_⟩
  · rintro ⟨mtx1, h⟩
    obtain ⟨hall, hc, hl, hin, _⟩ := embedSigns_success E p mtx mtx1 sigs h
    exact ⟨hall, hc, hl, hin⟩
  · rintro ⟨hall, hc, hl, hin⟩
    exact ⟨_, embedSigns_of_valid E p mtx sigs hall hc hl hin⟩
  · intro mtx1 h
    obtain ⟨_, _, _, ⟨in0, ins, hin⟩, hm⟩ := embedSigns_success E p mtx mtx1 sigs h
    refine ⟨in0, ins, hin, ?_⟩
    rw [hm]
    simp [withScript0, multisigScript, hin]
  · intro mtx1 h hshort
    obtain ⟨_, _, _, ⟨in0, ins, hin⟩, hm⟩ := embedSigns_success E p mtx mtx1 sigs h
    refine ⟨{ in0 with Script := multisigScript sigs (redeemScript E p) }, ins, ?_, ?_⟩
    · rw [hm]
      simp [withScript0, hin]
    · simp [multisigScript, sigPushes_eq_spec sigs hshort]

set_option maxRecDepth 100000 in
/-- Witness for C7: on the 2-of-2 spend paying 5 and 4, with the signatures of both keys,
`embedSigns` succeeds and writes the script to input 0. -/
theorem embedSigns_script_layout_witness :
    (embedSigns modelExt payer10.PubInfo
        (spendOf modelExt payer10.PubInfo 0
          [{ Addr := "payer", Amount := 5 }, { Addr := "payee", Amount := 4 }])
        [some (0 :: List.replicate 31 0 ++ [196]),
          some (1 :: List.replicate 31 0 ++ [196])]).map
      (fun r => (r.1.TxIn.map (fun x => x.Script), r.2)) =
      some ([[op0] ++
        ([34] ++ (0 :: List.replicate 31 0 ++ [196]) ++ [1]) ++
        ([34] ++ (1 :: List.replicate 31 0 ++ [196]) ++ [1]) ++
        [opPUSHDATA1, 71] ++ redeemScript modelExt payer10.PubInfo], none) ∧
    ∀ mtx1, embedSigns modelExt payer10.PubInfo
        (spendOf modelExt payer10.PubInfo 0
          [{ Addr := "payer", Amount := 5 }, { Addr := "payee", Amount := 4 }])
        [some (0 :: List.replicate 31 0 ++ [196]),
          some (1 :: List.replicate 31 0 ++ [196])] = some (mtx1, none) →
      ∃ in0 ins, mtx1.TxIn = in0 :: ins ∧
        in0.Script = [op0] ++ sigPushesSpec
            [some (0 :: List.replicate 31 0 ++ [196]),
              some (1 :: List.replicate 31 0 ++ [196])] ++
          [opPUSHDATA1, (redeemScript modelExt payer10.PubInfo).length] ++
          redeemScript modelExt payer10.PubInfo :=
  ⟨by decide, fun mtx1 h =>
    (embedSigns_script_layout modelExt payer10.PubInfo
      (spendOf modelExt payer10.PubInfo 0
        [{ Addr := "payer", Amount := 5 }, { Addr := "payee", Amount := 4 }])
      [some (0 :: List.replicate 31 0 ++ [196]),
        some (1 :: List.replicate 31 0 ++ [196])]).2.2 mtx1 h
      (by
        intro i s hs
        rcases i with _ | _ | i
        · simp only [List.getElem?_cons_zero, Option.some.injEq] at hs
          subst hs
          decide
        · simp only [List.getElem?_cons_succ, List.getElem?_cons_zero,
            Option.some.injEq] at hs
          subst hs
          decide
        · simp at hs)⟩

/-! ## Signing (`signTx`) -/

theorem set_same {α : Type} (l : List α) (i : Nat) (a : α) (h : l[i]? = some a) :
    l.set i a = l := by
  apply List.ext_getElem?
  intro j
  rw [List.getElem?_set]
  split_ifs with h1 h2
  · subst h1; exact h.symm
  · subst h1; rw [List.getElem?_eq_none (by omega)]
  · rfl

/-- Writing the backup back undoes the substitution. -/
theorem setScript_restore (t : Tx) (i : Nat) (txin : TxIn) (s : Bytes)
    (h : t.TxIn[i]? = some txin) : setScript (setScript t i s) i txin.Script = t := by
  have hi : i < t.TxIn.length := by
    rcases Nat.lt_or_ge i t.TxIn.length with hlt | hge
    · exact hlt
    · rw [List.getElem?_eq_none hge] at h; simp at h
  have hget : t.TxIn[i] = txin := by
    rw [List.getElem?_eq_getElem hi] at h
    simpa using h
  have h1 : setScript t i s = { t with TxIn := t.TxIn.set i { txin with Script := s } } := by
    simp [setScript, h]
  rw [h1]
  have h2 : (t.TxIn.set i { txin with Script := s })[i]? = some { txin with Script := s } := by
    simp [hi]
  simp only [setScript, h2, List.set_set]
  have h3 : t.TxIn.set i txin = t.TxIn := set_same _ _ _ h
  cases t
  simp_all

/-- A second substitution at the same input overrides the first. -/
theorem setScript_setScript (t : Tx) (i : Nat) (s1 s2 : Bytes) :
    setScript (setScript t i s1) i s2 = setScript t i s2 := by
  cases h : t.TxIn[i]? with
  | none => simp [setScript, h]
  | some txin =>
    have hi : i < t.TxIn.length := by
      rcases Nat.lt_or_ge i t.TxIn.length with hlt | hge
      · exact hlt
      · rw [List.getElem?_eq_none hge] at h; simp at h
    have h1 : setScript t i s1 = { t with TxIn := t.TxIn.set i { txin with Script := s1 } } := by
      simp [setScript, h]
    have h2 : (t.TxIn.set i { txin with Script := s1 })[i]? =
        some { txin with Script := s1 } := by
      simp [hi]
    rw [h1]
    simp [setScript, h, h2, List.set_set]

/-- The substitution touches the script of input `i` and nothing else. -/
theorem setScript_spec (t : Tx) (i : Nat) (s : Bytes) :
    (setScript t i s).Version = t.Version ∧ (setScript t i s).TxOut = t.TxOut ∧
    (setScript t i s).Locktime = t.Locktime ∧
    (setScript t i s).TxIn[i]? = (t.TxIn[i]?).map (fun x => { x with Script := s }) ∧
    ∀ j, j ≠ i → (setScript t i s).TxIn[j]? = t.TxIn[j]? := by
  cases h : t.TxIn[i]? with
  | none => simp [setScript, h]
  | some txin =>
    have hi : i < t.TxIn.length := by
      rcases Nat.lt_or_ge i t.TxIn.length with hlt | hge
      · exact hlt
      · rw [List.getElem?_eq_none hge] at h; simp at h
    refine ⟨by simp [setScript, h], by simp [setScript, h], by simp [setScript, h],
      by simp [setScript, h, hi], ?_⟩
    intro j hj
    simp only [setScript, h]
    exact List.getElem?_set_ne (Ne.symm hj)

/-- One successful iteration of the loop of `signTx`. -/
theorem signTxLoop_cons (E : Ext) (p : UTXO) (rest : List UTXO) (i : Nat) (result t1 : Tx)
    (sign signs : List Bytes)
    (h : signTxLoop E (p :: rest) i result sign = some (t1, signs, none)) :
    ∃ key P s, p.Key = some key ∧ i < result.TxIn.length ∧
      E.Pack (setScript result i p.Script) = .ok P ∧
      E.Sign key (E.Sum256 (E.Sum256 (P ++ [0x01, 0, 0, 0]))) = .ok s ∧
      signTxLoop E rest (i + 1) result (sign ++ [s]) = some (t1, signs, none) := by
  simp only [signTxLoop, sigPreimage] at h
  cases hin : result.TxIn[i]? with
  | none => rw [hin] at h; simp at h
  | some txin =>
    have hi : i < result.TxIn.length := by
      rcases Nat.lt_or_ge i result.TxIn.length with hlt | hge
      · exact hlt
      · rw [List.getElem?_eq_none hge] at hin; simp at hin
    rw [hin] at h
    cases hp : E.Pack (setScript result i p.Script) with
    | error e => rw [hp] at h; simp at h
    | ok P =>
      rw [hp] at h
      cases hk : p.Key with
      | none => rw [hk] at h; simp at h
      | some key =>
        rw [hk] at h
        cases hs : E.Sign key (E.Sum256 (E.Sum256 (P ++ [0x01, 0, 0, 0]))) with
        | error e => simp only [hs] at h; simp at h
        | ok s =>
          simp only [hs] at h
          rw [setScript_restore result i txin p.Script hin] at h
          exact ⟨key, P, s, rfl, hi, rfl, hs, h⟩

/-- A successful run of the loop of `signTx` leaves the transaction as it was and appends
one signature per coin, each made on the digest of the transaction with that coin's script
substituted at its input. -/
theorem signTxLoop_success (E : Ext) :
    ∀ (rest : List UTXO) (i : Nat) (result t1 : Tx) (sign signs : List Bytes),
      signTxLoop E rest i result sign = some (t1, signs, none) →
      t1 = result ∧ ∃ new, signs = sign ++ new ∧ new.length = rest.length ∧
        ∀ k p, rest[k]? = some p → i + k < result.TxIn.length ∧
          ∃ key P s, p.Key = some key ∧
          E.Pack (setScript result (i + k) p.Script) = .ok P ∧
          E.Sign key (E.Sum256 (E.Sum256 (P ++ [0x01, 0, 0, 0]))) = .ok s ∧
          new[k]? = some s := by
  intro rest
  induction rest with
  | nil =>
    intro i result t1 sign signs h
    simp only [signTxLoop, Option.some.injEq, Prod.mk.injEq, and_true] at h
    exact ⟨h.1.symm, [], by simp [h.2], rfl, by intro k p hk; simp at hk⟩
  | cons p rest ih =>
    intro i result t1 sign signs h
    obtain ⟨key, P, s, hk, hi, hP, hs, hrec⟩ := signTxLoop_cons E p rest i result t1 sign signs h
    obtain ⟨ht, new, hsigns, hlen, hall⟩ := ih (i + 1) result t1 (sign ++ [s]) signs hrec
    refine ⟨ht, s :: new, by simp [hsigns], by simp [hlen], ?_⟩
    intro k q hq
    cases k with
    | zero =>
      simp only [List.getElem?_cons_zero, Option.some.injEq] at hq
      subst hq
      exact ⟨by simpa using hi, key, P, s, hk, by simpa using hP, hs, by simp⟩
    | succ k =>
      obtain ⟨hb, key2, P2, s2, h1, h2, h3, h4⟩ := hall k q (by simpa using hq)
      refine ⟨by omega, key2, P2, s2, h1, ?_, h3, by simpa using h4⟩
      rwa [show i + (k + 1) = i + 1 + k by omega]

/-- The loop of `signTx` succeeds when every coin has an input, a key, an encodable
substituted transaction and a successful signature. -/
theorem signTxLoop_complete (E : Ext) :
    ∀ (rest : List UTXO) (i : Nat) (result : Tx) (sign new : List Bytes),
      new.length = rest.length → i + rest.length ≤ result.TxIn.length →
      (∀ k p, rest[k]? = some p → ∃ key P s, p.Key = some key ∧
        E.Pack (setScript result (i + k) p.Script) = .ok P ∧
        E.Sign key (E.Sum256 (E.Sum256 (P ++ [0x01, 0, 0, 0]))) = .ok s ∧
        new[k]? = some s) →
      signTxLoop E rest i result sign = some (result, sign ++ new, none) := by
  intro rest
  induction rest with
  | nil =>
    intro i result sign new hlen _ _
    have : new = [] := List.eq_nil_of_length_eq_zero (by simpa using hlen)
    simp [signTxLoop, this]
  | cons p rest ih =>
    intro i result sign new hlen hi hall
    obtain ⟨key, P, s, hk, hP, hs, hnew⟩ := hall 0 p (by simp)
    cases new with
    | nil => simp at hlen
    | cons s0 new =>
      simp only [List.getElem?_cons_zero, Option.some.injEq] at hnew
      subst hnew
      simp only [List.length_cons] at hlen hi
      have hin : result.TxIn[i]? = some result.TxIn[i] :=
        List.getElem?_eq_getElem (by omega)
      have hrec := ih (i + 1) result (sign ++ [s0]) new (by omega) (by omega)
        (by
          intro k q hq
          obtain ⟨key2, P2, s2, h1, h2, h3, h4⟩ := hall (k + 1) q (by simpa using hq)
          refine ⟨key2, P2, s2, h1, ?_, h3, by simpa using h4⟩
          rwa [show i + 1 + k = i + (k + 1) by omega])
      simp only [Nat.add_zero] at hP
      simp only [signTxLoop, sigPreimage, hin, hP, hk, hs,
        setScript_restore result i _ p.Script hin, hrec]
      simp

/-- Claim C8: `signTx` succeeds exactly when every used coin has an input and a key and the
encoding and the key's `Sign` succeed; it then returns one signature per used coin, in the
same order, and the digest handed to the key of used coin `i` is SHA-256(SHA-256(P ++ 01 00
00 00)), where `P` is the encoding of the transaction in which input `i` holds
`used[i].Script` and everything else (version, outputs, lock-time, every other input) is as
in the given transaction. -/
theorem signTx_digest (E : Ext) (t t1 : Tx) (used : List UTXO) (signs : List Bytes) :
    (signTx E t used = some (t1, signs, none) ↔
      t1 = t ∧ used.length ≤ t.TxIn.length ∧ signs.length = used.length ∧
      ∀ i p, used[i]? = some p →
        ∃ key P s, p.Key = some key ∧ E.Pack (setScript t i p.Script) = .ok P ∧
          E.Sign key (E.Sum256 (E.Sum256 (P ++ [0x01, 0, 0, 0]))) = .ok s ∧
          signs[i]? = some s) ∧
    ∀ i script,
      (setScript t i script).Version = t.Version ∧
      (setScript t i script).TxOut = t.TxOut ∧
      (setScript t i script).Locktime = t.Locktime ∧
      (setScript t i script).TxIn[i]? =
        (t.TxIn[i]?).map (fun x => { x with Script := script }) ∧
      ∀ j, j ≠ i → (setScript t i script).TxIn[j]? = t.TxIn[j]? := by
  refine ⟨⟨?_, ?_⟩, fun i script => setScript_spec t i script⟩
  · intro h
    obtain ⟨ht, new, hsigns, hlen, hall⟩ := signTxLoop_success E used 0 t t1 [] signs h
    simp only [List.nil_append] at hsigns
    subst hsigns
    refine ⟨ht, ?_, hlen, ?_⟩
    · by_contra hlt
      have hlt2 : t.TxIn.length < used.length := by omega
      have hget : used[t.TxIn.length]? = some used[t.TxIn.length] :=
        List.getElem?_eq_getElem hlt2
      have := (hall _ _ hget).1
      omega
    · intro i p hp
      obtain ⟨_, key, P, s, h1, h2, h3, h4⟩ := hall i p hp
      exact ⟨key, P, s, h1, by simpa using h2, h3, h4⟩
  · rintro ⟨ht, hle, hlen, hall⟩
    subst ht
    have := signTxLoop_complete E used 0 t1 [] signs hlen (by omega)
      (by
        intro k p hp
        obtain ⟨key, P, s, h1, h2, h3, h4⟩ := hall k p hp
        exact ⟨key, P, s, h1, by simpa using h2, h3, h4⟩)
    simpa [signTx] using this

set_option maxRecDepth 100000 in
/-- The two-input transaction signed with the keys of its two coins: the call succeeds. -/
theorem signTx_twoInputs :
    (signTx modelExt twoInputs [keyCoin 1 5, keyCoin 2 6]).map (fun r => (r.1, r.2.2)) =
      some (twoInputs, none) := by
  decide

set_option maxRecDepth 100000 in
/-- Counterexample to C9 as stated: the two-input transaction and the same transaction with
input 1 holding the script `07` are identical except for the script of input 1, yet the
preimages built for input 0 with the same substituted script `01` differ (the encoding of
input 1's script is part of both). -/
theorem sigPreimage_other_script :
    (setScript twoInputs 1 [7]).Version = twoInputs.Version ∧
    (setScript twoInputs 1 [7]).TxOut = twoInputs.TxOut ∧
    (setScript twoInputs 1 [7]).Locktime = twoInputs.Locktime ∧
    (setScript twoInputs 1 [7]).TxIn[0]? = twoInputs.TxIn[0]? ∧
    ((setScript twoInputs 1 [7]).TxIn[1]?).map (fun x => (x.Hash, x.Index, x.Seq)) =
      (twoInputs.TxIn[1]?).map (fun x => (x.Hash, x.Index, x.Seq)) ∧
    sigPreimage modelExt twoInputs 0 [1] ≠
      sigPreimage modelExt (setScript twoInputs 1 [7]) 0 [1] := by
  refine ⟨by decide, by decide, by decide, by decide, by decide, by decide⟩

/-- When `signTx` returns an error, the transaction it leaves behind is the given one with
the locking script of the failing coin still substituted at its input, and no signature is
returned. -/
theorem signTxLoop_error_state (E : Ext) :
    ∀ (rest : List UTXO) (i : Nat) (result t1 : Tx) (sign signs : List Bytes) (e : Error),
      signTxLoop E rest i result sign = some (t1, signs, some e) →
      ∃ k p, rest[k]? = some p ∧ t1 = setScript result (i + k) p.Script ∧ signs = [] := by
  intro rest
  induction rest with
  | nil => intro i result t1 sign signs e h; simp [signTxLoop] at h
  | cons p rest ih =>
    intro i result t1 sign signs e h
    simp only [signTxLoop, sigPreimage] at h
    cases hin : result.TxIn[i]? with
    | none => rw [hin] at h; simp at h
    | some txin =>
      rw [hin] at h
      cases hp : E.Pack (setScript result i p.Script) with
      | error m =>
        rw [hp] at h
        simp only [Option.some.injEq, Prod.mk.injEq] at h
        exact ⟨0, p, by simp, by simpa using h.1.symm, h.2.1.symm⟩
      | ok P =>
        rw [hp] at h
        cases hk : p.Key with
        | none => rw [hk] at h; simp at h
        | some key =>
          rw [hk] at h
          cases hs : E.Sign key (E.Sum256 (E.Sum256 (P ++ [0x01, 0, 0, 0]))) with
          | error m =>
            simp only [hs, Option.some.injEq, Prod.mk.injEq] at h
            exact ⟨0, p, by simp, by simpa using h.1.symm, h.2.1.symm⟩
          | ok s =>
            simp only [hs] at h
            rw [setScript_restore result i txin p.Script hin] at h
            obtain ⟨k, q, hq, ht, hsg⟩ := ih (i + 1) result t1 _ signs e h
            exact ⟨k + 1, q, by simpa using hq,
              by rw [ht, show i + 1 + k = i + (k + 1) by omega], hsg⟩

set_option maxRecDepth 100000 in
/-- Claim C11 (the code at the failing input): the two inputs of the transaction hold empty
scripts; the key holder's `Sign` fails on the first input; `signTx` and `FillP2PKsign`
return the error and leave the locking script `01` of the first coin in input 0. -/
theorem signTx_failure_keeps_substitution :
    twoInputs.TxIn.map (fun x => x.Script) = [[], []] ∧
    signTx failExt twoInputs [keyCoin 1 5, keyCoin 2 6] =
      some (setScript twoInputs 0 [1], [], some (.lib "sign failed")) ∧
    FillP2PKsign failExt [] (emptyScripts twoInputs.TxIn) twoInputs
        [keyCoin 1 5, keyCoin 2 6] =
      some (setScript twoInputs 0 [1], some (.lib "sign failed")) ∧
    (setScript twoInputs 0 [1]).TxIn.map (fun x => x.Script) = [[1], []] := by
  refine ⟨by decide, by decide, by decide, by decide⟩

set_option maxRecDepth 100000 in
/-- Claim C12 (the code at the failing input): the unbound 1-of-1 context, a coin of 20 and a
key holder whose `Sign` fails: `BondTx` returns the signing error, and yet the context it
leaves behind is bound to the returned (unsigned) transaction. -/
theorem BondTx_failure_binds :
    pub1.bond = none ∧
    (BondTx failExt pub1 [keyCoin 1 20] "x" 0).map (fun r => r.2.2) =
      some (some (.lib "sign failed")) ∧
    (BondTx failExt pub1 [keyCoin 1 20] "x" 0).map (fun r => (r.1.bond.isSome, r.1.bond)) =
      (BondTx failExt pub1 [keyCoin 1 20] "x" 0).map (fun r => (true, r.2.1)) := by
  refine ⟨by decide, by decide, by decide⟩

/-- The error paths of `BondTx` before the signing leave the context as it was: the
parameter check and the coin selection return before `p.bond` is written. -/
theorem BondTx_early_errors (E : Ext) (p : PubInfo) (coins : List UTXO) (refund : String)
    (locktime : Nat) :
    (∀ e, bondCheck p = some e →
      BondTx E p coins refund locktime = some (p, none, some e)) ∧
    (∀ e, bondCheck p = none →
      (newTxins E (add64 p.Amount p.Fee) coins refund locktime).2.2.2 = some e →
      BondTx E p coins refund locktime = some (p, none, some e)) := by
  constructor
  · intro e he
    simp [BondTx, he]
  · intro e hc hn
    rcases hr : newTxins E (add64 p.Amount p.Fee) coins refund locktime with ⟨a, b, c, d⟩
    rw [hr] at hn
    simp only at hn
    subst hn
    simp [BondTx, hc, hr, BondTxBuild]

/-- Claim C17: `BondTx` returns the error of its parameter check, with no transaction and
the context untouched, whatever the coins, refund address, lock-time and collaborators are
(so before any coin is selected or script built), whenever `N = 0`, `N > 7`, `M = 0` or
`M > N`; and the check passes exactly when `1 ≤ M ≤ N ≤ 7`. -/
theorem BondTx_param_check (p : PubInfo) :
    ((p.Pubs.length = 0 ∨ p.Pubs.length > 7 ∨ p.M = 0 ∨ p.M > p.Pubs.length) →
      ∃ e, (e = Error.nRange ∨ e = Error.mRange) ∧ bondCheck p = some e ∧
        ∀ (E : Ext) (coins : List UTXO) (refund : String) (locktime : Nat),
          BondTx E p coins refund locktime = some (p, none, some e)) ∧
    (bondCheck p = none ↔ (1 ≤ p.M ∧ p.M ≤ p.Pubs.length ∧ p.Pubs.length ≤ 7)) := by
  have hiff : bondCheck p = none ↔ (1 ≤ p.M ∧ p.M ≤ p.Pubs.length ∧ p.Pubs.length ≤ 7) := by
    unfold bondCheck
    by_cases h1 : p.Pubs.length = 0 ∨ p.Pubs.length > 7
    · simp only [h1, if_true]
      constructor
      · intro h; simp at h
      · intro h; omega
    · have hmod : p.Pubs.length % 256 = p.Pubs.length := Nat.mod_eq_of_lt (by omega)
      simp only [h1, if_false, hmod]
      by_cases h2 : p.M = 0 ∨ p.M > p.Pubs.length
      · simp only [h2, if_true]
        constructor
        · intro h; simp at h
        · intro h; omega
      · simp only [h2, if_false, true_iff]
        omega
  refine ⟨?_, hiff⟩
  intro hbad
  cases hc : bondCheck p with
  | none => exact absurd (hiff.1 hc) (by omega)
  | some e =>
    refine ⟨e, ?_, rfl, fun E coins refund locktime => by simp [BondTx, hc]⟩
    simp only [bondCheck] at hc
    split_ifs at hc <;> simp_all

/-! ## Assembly (`NewP2PKunsign`, `newTxins`) and the script builders -/

/-- Claim C19: for a non-empty send list whose last entry has a non-zero amount,
`NewP2PKunsign` and `NewP2PK` return an error and no transaction (and no used coins),
whatever the fee, coins and lock-time are. -/
theorem NewP2PK_last_send_nonzero (E : Ext) (fee : Nat) (coins : List UTXO) (locktime : Nat)
    (sends : List Send) (last : Send) (hlast : sends.getLast? = some last)
    (hnz : last.Amount ≠ 0) :
    ∃ e, NewP2PKunsign E fee coins locktime sends = some (none, [], some e) ∧
      NewP2PK E fee coins locktime sends = some (none, some e) := by
  cases hp : p2pkTxouts E fee sends with
  | error e =>
    refine ⟨e, by simp [NewP2PKunsign, hp], by simp [NewP2PK, NewP2PKunsign, hp]⟩
  | ok r =>
    obtain ⟨txouts, total⟩ := r
    refine ⟨.lastSendNotZero, by simp [NewP2PKunsign, hp, hlast, hnz],
      by simp [NewP2PK, NewP2PKunsign, hp, hlast, hnz]⟩

/-- Witness for C19: a send of 5 followed by a last send of 3. -/
theorem NewP2PK_last_send_nonzero_witness :
    ∃ e, NewP2PKunsign modelExt 1 [keyCoin 1 20] 0
        [{ Addr := "a", Amount := 5 }, { Addr := "r", Amount := 3 }] =
        some (none, [], some e) ∧
      NewP2PK modelExt 1 [keyCoin 1 20] 0
        [{ Addr := "a", Amount := 5 }, { Addr := "r", Amount := 3 }] = some (none, some e) :=
  NewP2PK_last_send_nonzero modelExt 1 [keyCoin 1 20] 0
    [{ Addr := "a", Amount := 5 }, { Addr := "r", Amount := 3 }]
    { Addr := "r", Amount := 3 } (by decide) (by decide)

/-- The loop of `newTxins` keeps the inputs in step with the used coins. -/
theorem newTxinsLoop_mirror (total seq : Nat) :
    ∀ (cs : List UTXO) (txins : List TxIn) (used : List UTXO) (amount : Nat),
      txins = used.map (newTxin seq) →
      (newTxinsLoop total seq cs txins used amount).1 =
        (newTxinsLoop total seq cs txins used amount).2.1.map (newTxin seq) := by
  intro cs
  induction cs with
  | nil => intro txins used amount h; simpa [newTxinsLoop] using h
  | cons c rest ih =>
    intro txins used amount h
    by_cases hlt : amount < total
    · simp only [newTxinsLoop, hlt, if_true]
      exact ih _ _ _ (by simp [h])
    · simpa [newTxinsLoop, hlt] using h

/-- Whenever `newTxins` hands back inputs and used coins, the inputs mirror the coins. -/
theorem newTxins_mirror (E : Ext) (total : Nat) (coins : List UTXO) (refund : String)
    (locktime : Nat) :
    (newTxins E total coins refund locktime).1 =
      (newTxins E total coins refund locktime).2.1.map (newTxin (seqFor locktime)) := by
  have hl := newTxinsLoop_mirror total (seqFor locktime) (E.sortCoins coins) [] [] 0 rfl
  rcases hr : newTxinsLoop total (seqFor locktime) (E.sortCoins coins) [] [] 0 with ⟨a, b, c⟩
  rw [hr] at hl
  simp only at hl
  unfold newTxins
  simp only [hr]
  split_ifs
  · rfl
  · rfl
  · cases p2pkTtxout E { Addr := refund, Amount := sub64 c total } with
    | error e => exact hl
    | ok o => exact hl
  · exact hl

/-- Claim C20: whenever `newTxins` succeeds, it returns exactly one input per used coin, in
the same order: input `i` has the `TxHash` and `TxIndex` of used coin `i`, an empty script,
and sequence number 0 when the lock-time is not zero and 0xFFFFFFFF when it is. -/
theorem newTxins_inputs_mirror (E : Ext) (total : Nat) (coins : List UTXO) (refund : String)
    (locktime : Nat) (txins : List TxIn) (used : List UTXO) (mto : Option TxOut)
    (h : newTxins E total coins refund locktime = (txins, used, mto, none)) :
    txins.length = used.length ∧
    txins = used.map (fun c =>
      { Hash := c.TxHash, Index := c.TxIndex, Script := [],
        Seq := if locktime ≠ 0 then 0 else 0xFFFFFFFF }) := by
  have hm := newTxins_mirror E total coins refund locktime
  rw [h] at hm
  simp only at hm
  subst hm
  refine ⟨by simp, ?_⟩
  apply List.map_congr_left
  intro c _
  simp [newTxin, seqFor, MaxUint32]

/-- Witness for C20: coins 3, 1, 2, 7 and total 5, with a non-zero lock-time. -/
theorem newTxins_inputs_mirror_witness :
    ((newTxins modelExt 5 [coinOf 3, coinOf 1, coinOf 2, coinOf 7] "x" 9).1).length =
      [coinOf 1, coinOf 2, coinOf 3].length ∧
    (newTxins modelExt 5 [coinOf 3, coinOf 1, coinOf 2, coinOf 7] "x" 9).1 =
      [coinOf 1, coinOf 2, coinOf 3].map (fun c =>
        { Hash := c.TxHash, Index := c.TxIndex, Script := [],
          Seq := if 9 ≠ 0 then 0 else 0xFFFFFFFF }) :=
  newTxins_inputs_mirror modelExt 5 [coinOf 3, coinOf 1, coinOf 2, coinOf 7] "x" 9
    (newTxins modelExt 5 [coinOf 3, coinOf 1, coinOf 2, coinOf 7] "x" 9).1
    [coinOf 1, coinOf 2, coinOf 3]
    (newTxins modelExt 5 [coinOf 3, coinOf 1, coinOf 2, coinOf 7] "x" 9).2.2.1
    (by decide)

/-- Claim C15: for an address that decodes to the hash payload `h`, `DefaultP2PKScript`
returns exactly `OP_DUP` (0x76), `OP_HASH160` (0xa9), the byte `len(h)`, the bytes of `h`,
`OP_EQUALVERIFY` (0x88), `OP_CHECKSIG` (0xac), which is 25 bytes with length byte 0x14 for a
20-byte hash; for an address that fails to decode it returns the decode error and no
script. -/
theorem DefaultP2PKScript_layout (E : Ext) (btcadr : String) :
    (∀ h, E.DecodeAddress btcadr = .ok h →
      DefaultP2PKScript E btcadr =
        .ok ([0x76, 0xa9, h.length % 256] ++ h ++ [0x88, 0xac]) ∧
      (h.length = 20 →
        ([0x76, 0xa9, h.length % 256] ++ h ++ [0x88, 0xac]).length = 25 ∧
        h.length % 256 = 0x14)) ∧
    (∀ e, E.DecodeAddress btcadr = .error e →
      DefaultP2PKScript E btcadr = .error (.lib e)) := by
  constructor
  · intro h hd
    refine ⟨by simp [DefaultP2PKScript, hd, opDUP, opHASH160, opEQUALVERIFY, opCHECKSIG], ?_⟩
    intro hl
    simp [hl]
  · intro e hd
    simp [DefaultP2PKScript, hd]

/-- The key pushes of the redeem script are the pushes of the keys, in the stored order. -/
theorem redeemKeys_eq (E : Ext) (l : List PublicKey) :
    redeemKeys E l = (l.map (keyPush E)).flatten := by
  induction l with
  | nil => simp [redeemKeys]
  | cons pu rest ih => simp [redeemKeys, keyPush, ih]

theorem redeemKeys_length (E : Ext) (l : List PublicKey) :
    (redeemKeys E l).length = (l.map (fun pu => 1 + (E.Serialize pu).length)).sum := by
  induction l with
  | nil => simp [redeemKeys]
  | cons pu rest ih => simp [redeemKeys, ih]; omega

/-- Claim C14: for a `PubInfo` with threshold `1 ≤ M ≤ 16` and `1 ≤ N ≤ 16` public keys,
`redeemScript` is exactly the byte `OP_1 + (M-1)`, then for each public key in the stored
order the one-byte length of its serialization followed by the serialization, then the byte
`OP_1 + (N-1)`, then `OP_CHECKMULTISIG`; its length is 3 plus the sum over the keys of
(1 + serialized length); and the emitted pushes follow the key list position by position,
so a permuted key list emits the identically permuted pushes. -/
theorem redeemScript_layout (E : Ext) (p : PubInfo) (hM : 1 ≤ p.M ∧ p.M ≤ 16)
    (hN : 1 ≤ p.Pubs.length ∧ p.Pubs.length ≤ 16) :
    redeemScript E p =
      [0x51 + (p.M - 1)] ++ (p.Pubs.map (keyPush E)).flatten ++
        [0x51 + (p.Pubs.length - 1), 0xae] ∧
    (redeemScript E p).length =
      3 + (p.Pubs.map (fun pu => 1 + (E.Serialize pu).length)).sum ∧
    (∀ i : Nat, (p.Pubs.map (keyPush E))[i]? = (p.Pubs[i]?).map (keyPush E)) ∧
    (∀ keys : List PublicKey, keys.Perm p.Pubs →
      redeemScript E { p with Pubs := keys } =
        [0x51 + (p.M - 1)] ++ (keys.map (keyPush E)).flatten ++
          [0x51 + (p.Pubs.length - 1), 0xae] ∧
      (keys.map (keyPush E)).Perm (p.Pubs.map (keyPush E))) := by
  have hgen : ∀ keys : List PublicKey, keys.length = p.Pubs.length →
      redeemScript E { p with Pubs := keys } =
        [0x51 + (p.M - 1)] ++ (keys.map (keyPush E)).flatten ++
          [0x51 + (p.Pubs.length - 1), 0xae] := by
    intro keys hk
    have h1 : (op1 + (p.M + 255) % 256) % 256 = 0x51 + (p.M - 1) := by
      unfold op1; omega
    have h2 : (op1 + (keys.length + 255) % 256) % 256 = 0x51 + (p.Pubs.length - 1) := by
      unfold op1; omega
    simp only [redeemScript, h1, h2, redeemKeys_eq, opCHECKMULTISIG]
    simp
  refine ⟨hgen p.Pubs rfl, ?_, ?_, ?_⟩
  · simp only [redeemScript, List.length_append, List.length_cons, List.length_nil,
      redeemKeys_length]
    omega
  · intro i
    simp
  · intro keys hperm
    exact ⟨hgen keys hperm.length_eq, hperm.map _⟩

/-- Witness for C14: the 2-of-4 context with uncompressed keys. -/
theorem redeemScript_layout_witness :
    (redeemScript modelExt pub4).length =
      3 + (pub4.Pubs.map (fun pu => 1 + (modelExt.Serialize pu).length)).sum :=
  (redeemScript_layout modelExt pub4 (by decide) (by decide)).2.1

/-! ## Single-key unlocking scripts (`FillP2PKsign`) -/

theorem setScript_length (t : Tx) (i : Nat) (s : Bytes) :
    (setScript t i s).TxIn.length = t.TxIn.length := by
  cases h : t.TxIn[i]? with
  | none => simp [setScript, h]
  | some txin => simp [setScript, h]

theorem load_getElem? (mem : Memory) (s : Slice) (k : Nat) :
    (load mem s)[k]? = if k < s.len then mem[s.ptr + k]? else none := by
  simp only [load, List.getElem?_take, List.getElem?_drop]

theorem store_length (mem : Memory) (addr : Nat) (data : Bytes)
    (h : addr + data.length ≤ mem.length) : (store mem addr data).length = mem.length := by
  simp only [store, List.length_append, List.length_take, List.length_drop]
  omega

theorem store_getElem? (mem : Memory) (addr : Nat) (data : Bytes) (x : Nat)
    (h : addr + data.length ≤ mem.length) :
    (store mem addr data)[x]? =
      if addr ≤ x ∧ x < addr + data.length then data[x - addr]? else mem[x]? := by
  have hl : (List.take addr mem).length = addr := by
    simp only [List.length_take]; omega
  unfold store
  rw [List.append_assoc, List.getElem?_append]
  rw [hl]
  split_ifs with h1 h2 h2
  · omega
  · rw [List.getElem?_take]; simp [h1]
  · rw [List.getElem?_append]
    have : x - addr < data.length := by omega
    simp [this]
  · rw [List.getElem?_append]
    have : ¬ x - addr < data.length := by omega
    simp only [this, if_false, List.getElem?_drop]
    congr 1
    omega

/-- Slices that read the same bytes hold the same value. -/
theorem load_congr (m1 m2 : Memory) (r : Slice)
    (h : ∀ x, r.ptr ≤ x → x < r.ptr + r.len → m1[x]? = m2[x]?) : load m1 r = load m2 r := by
  apply List.ext_getElem?
  intro k
  rw [load_getElem?, load_getElem?]
  split_ifs with hk
  · exact h _ (by omega) (by omega)
  · rfl


theorem load_length (mem : Memory) (s : Slice) (h : s.ptr + s.len ≤ mem.length) :
    (load mem s).length = s.len := by
  simp only [load, List.length_take, List.length_drop]
  omega

/-- One `append`: the value of the resulting slice, and what it leaves of the memory. -/
theorem sliceAppend_spec (mem : Memory) (s : Slice) (data : Bytes)
    (hwf : s.ptr + s.cap ≤ mem.length) (hlen : s.len ≤ s.cap) :
    load (sliceAppend mem s data).1 (sliceAppend mem s data).2 = load mem s ++ data ∧
    mem.length ≤ (sliceAppend mem s data).1.length ∧
    (∀ x, x < mem.length → ¬ (s.ptr + s.len ≤ x ∧ x < s.ptr + s.cap) →
      (sliceAppend mem s data).1[x]? = mem[x]?) ∧
    (sliceAppend mem s data).2.ptr + (sliceAppend mem s data).2.cap ≤
      (sliceAppend mem s data).1.length ∧
    (sliceAppend mem s data).2.len ≤ (sliceAppend mem s data).2.cap ∧
    (((sliceAppend mem s data).2.ptr = s.ptr ∧ (sliceAppend mem s data).2.cap = s.cap) ∨
      mem.length ≤ (sliceAppend mem s data).2.ptr) := by
  have hll : (load mem s).length = s.len := load_length mem s (by omega)
  by_cases hfit : s.len + data.length ≤ s.cap
  · have hst : s.ptr + s.len + data.length ≤ mem.length := by omega
    simp only [sliceAppend, hfit, if_true]
    refine ⟨?_, ?_, ?_, ?_, ?_, ?_⟩
    · apply List.ext_getElem?
      intro k
      rw [load_getElem?, store_getElem? _ _ _ _ hst, List.getElem?_append, hll, load_getElem?]
      by_cases h1 : k < s.len
      · have h2 : k < s.len + data.length := by omega
        have h3 : ¬ (s.ptr + s.len ≤ s.ptr + k ∧ s.ptr + k < s.ptr + s.len + data.length) := by
          omega
        simp only [h1, h2, h3, if_true, if_false]
      · by_cases h2 : k < s.len + data.length
        · have h3 : s.ptr + s.len ≤ s.ptr + k ∧ s.ptr + k < s.ptr + s.len + data.length := by
            omega
          simp only [h1, h2, h3, and_self, if_true, if_false]
          congr 1
          omega
        · simp only [h1, h2, if_false]
          rw [List.getElem?_eq_none (by omega)]
    · rw [store_length _ _ _ hst]
    · intro x _ hx
      rw [store_getElem? _ _ _ _ hst]
      have h3 : ¬ (s.ptr + s.len ≤ x ∧ x < s.ptr + s.len + data.length) := by omega
      simp only [h3, if_false]
    · rw [store_length _ _ _ hst]
      exact hwf
    · trivial
    · exact Or.inl ⟨trivial, trivial⟩
  · simp only [sliceAppend, hfit, if_false]
    refine ⟨?_, ?_, ?_, ?_, ?_, ?_⟩
    · simp only [load, List.drop_left]
      rw [List.take_of_length_le]
      simp only [List.length_append]
      have := hll
      simp only [load] at this
      omega
    · simp
    · intro x hx _
      exact List.getElem?_append_left hx
    · simp only [List.length_append, hll]
      omega
    · exact Nat.le_refl _
    · exact Or.inr (Nat.le_refl _)

/-- The body of the loop: the script it leaves in the slice, and what it leaves of the
memory: bytes outside the capacity of the old slice are as before, and the new slice lies
either in that capacity or in memory that was not allocated before. -/
theorem fillScript_spec (mem : Memory) (old : Slice) (s pub : Bytes)
    (hwf : old.ptr + old.cap ≤ mem.length) :
    load (fillScript mem old s pub).1 (fillScript mem old s pub).2 =
      [s.length % 256] ++ s ++ [pub.length % 256] ++ pub ∧
    mem.length ≤ (fillScript mem old s pub).1.length ∧
    (∀ x, x < mem.length → ¬ (old.ptr ≤ x ∧ x < old.ptr + old.cap) →
      (fillScript mem old s pub).1[x]? = mem[x]?) ∧
    (fillScript mem old s pub).2.ptr + (fillScript mem old s pub).2.len ≤
      (fillScript mem old s pub).1.length ∧
    (((fillScript mem old s pub).2.ptr = old.ptr ∧
        (fillScript mem old s pub).2.len ≤ old.cap) ∨
      mem.length ≤ (fillScript mem old s pub).2.ptr) := by
  have h0 : load mem { old with len := 0 } = [] := by simp [load]
  obtain ⟨a1, b1, c1, d1, e1, f1⟩ :=
    sliceAppend_spec mem { old with len := 0 } [s.length % 256] hwf (Nat.zero_le _)
  obtain ⟨a2, b2, c2, d2, e2, f2⟩ := sliceAppend_spec _ _ s d1 e1
  obtain ⟨a3, b3, c3, d3, e3, f3⟩ := sliceAppend_spec _ _ [pub.length % 256] d2 e2
  obtain ⟨a4, b4, c4, d4, e4, f4⟩ := sliceAppend_spec _ _ pub d3 e3
  simp only at f1 c1
  refine ⟨?_, ?_, ?_, ?_, ?_⟩
  · simp only [fillScript]
    rw [a4, a3, a2, a1, h0]
    simp
  · simp only [fillScript]
    omega
  · intro x hx hout
    simp only [fillScript]
    rw [c4 x (by omega) (by omega), c3 x (by omega) (by omega), c2 x (by omega) (by omega),
      c1 x hx (by omega)]
  · simp only [fillScript]
    omega
  · simp only [fillScript]
    omega

/-- The loop of `FillP2PKsign` changes no slice header's position in the list. -/
theorem fillLoop_length (E : Ext) (used : List UTXO) :
    ∀ (rest : List Bytes) (i : Nat) (mem : Memory) (scripts : List Slice)
      (m : Memory × List Slice),
      fillLoop E used rest i mem scripts = some m → m.2.length = scripts.length := by
  intro rest
  induction rest with
  | nil =>
    intro i mem scripts m h
    simp only [fillLoop, Option.some.injEq] at h
    subst h
    rfl
  | cons s rest ih =>
    intro i mem scripts m h
    cases hin : scripts[i]? with
    | none => simp [fillLoop, hin] at h
    | some old =>
      cases hu : used[i]? with
      | none => simp [fillLoop, hin, hu] at h
      | some u =>
        cases hk : u.Key with
        | none => simp [fillLoop, hin, hu, hk] at h
        | some key =>
          simp only [fillLoop, hin, hu, hk] at h
          rw [ih (i + 1) _ _ m h, List.length_set]

/-- The loop of `FillP2PKsign` on slices that lie in the memory and share no memory with
one another: every signature it is given ends up, with the public key of the coin at the
same position, in the script of the input at that position; a slice that shares no memory
with the slices still to be written holds what it held; the slices outside the range of the
loop are untouched. -/
theorem fillLoop_spec (E : Ext) (used : List UTXO) :
    ∀ (rest : List Bytes) (i : Nat) (mem : Memory) (scripts : List Slice)
      (m : Memory × List Slice),
      fillLoop E used rest i mem scripts = some m →
      (∀ k h, i ≤ k → k < i + rest.length → scripts[k]? = some h →
        h.ptr + h.cap ≤ mem.length) →
      (∀ k1 k2 h1 h2, i ≤ k1 → k1 < k2 → k2 < i + rest.length →
        scripts[k1]? = some h1 → scripts[k2]? = some h2 → apart h1 h2) →
      (∀ k s, rest[k]? = some s → ∃ u key h, used[i + k]? = some u ∧ u.Key = some key ∧
        m.2[i + k]? = some h ∧ load m.1 h = p2pkScript E s key.PublicKey) ∧
      (∀ r : Slice, r.ptr + r.len ≤ mem.length →
        (∀ k h, i ≤ k → k < i + rest.length → scripts[k]? = some h →
          ∀ x, r.ptr ≤ x → x < r.ptr + r.len → ¬ (h.ptr ≤ x ∧ x < h.ptr + h.cap)) →
        load m.1 r = load mem r) ∧
      (∀ j, j < i → m.2[j]? = scripts[j]?) ∧
      (∀ j, i + rest.length ≤ j → m.2[j]? = scripts[j]?) ∧
      mem.length ≤ m.1.length := by
  intro rest
  induction rest with
  | nil =>
    intro i mem scripts m h _ _
    simp only [fillLoop, Option.some.injEq] at h
    subst h
    exact ⟨by intro k s hk; simp at hk, fun _ _ _ => rfl, fun _ _ => rfl, fun _ _ => rfl,
      Nat.le_refl _⟩
  | cons s rest ih =>
    intro i mem scripts m h hwf hdis
    cases hin : scripts[i]? with
    | none => simp [fillLoop, hin] at h
    | some old =>
      cases hu : used[i]? with
      | none => simp [fillLoop, hin, hu] at h
      | some u =>
        cases hk : u.Key with
        | none => simp [fillLoop, hin, hu, hk] at h
        | some key =>
          simp only [fillLoop, hin, hu, hk] at h
          have hi : i < scripts.length := by
            rcases Nat.lt_or_ge i scripts.length with hlt | hge
            · exact hlt
            · rw [List.getElem?_eq_none hge] at hin; simp at hin
          have hold : old.ptr + old.cap ≤ mem.length :=
            hwf i old (Nat.le_refl _) (by simp) hin
          obtain ⟨fa, fb, fc, fd, fe⟩ :=
            fillScript_spec mem old (s ++ [0x1]) (E.Serialize key.PublicKey) hold
          have hset : ∀ k, k ≠ i →
              (scripts.set i (fillScript mem old (s ++ [0x1])
                (E.Serialize key.PublicKey)).2)[k]? = scripts[k]? := by
            intro k hk
            exact List.getElem?_set_ne (Ne.symm hk)
          obtain ⟨ha, hb, hc, hd, he⟩ := ih (i + 1) _ _ m h
            (by
              intro k h0 hk1 hk2 hk3
              rw [hset k (by omega)] at hk3
              have := hwf k h0 (by omega) (by simp only [List.length_cons]; omega) hk3
              omega)
            (by
              intro k1 k2 h1 h2 hk1 hk12 hk2 e1 e2
              rw [hset k1 (by omega)] at e1
              rw [hset k2 (by omega)] at e2
              exact hdis k1 k2 h1 h2 (by omega) hk12
                (by simp only [List.length_cons]; omega) e1 e2)
          refine ⟨?_, ?_, ?_, ?_, by omega⟩
          · intro k s2 hk2
            cases k with
            | zero =>
              simp only [List.getElem?_cons_zero, Option.some.injEq] at hk2
              subst hk2
              refine ⟨u, key,
                (fillScript mem old (s ++ [0x1]) (E.Serialize key.PublicKey)).2,
                by simpa using hu, hk, ?_, ?_⟩
              · rw [Nat.add_zero, hc i (by omega)]
                simp [hi]
              · rw [hb _ fd ?_, fa]
                · simp [p2pkScript]
                · intro k h0 hk1 hk3 hk4 x hx1 hx2
                  rw [hset k (by omega)] at hk4
                  have hw := hwf k h0 (by omega) (by simp only [List.length_cons]; omega) hk4
                  have hap := hdis i k old h0 (Nat.le_refl _) (by omega)
                    (by simp only [List.length_cons]; omega) hin hk4
                  unfold apart at hap
                  omega
            | succ k =>
              obtain ⟨u2, key2, h2, e1, e2, e3, e4⟩ := ha k s2 (by simpa using hk2)
              refine ⟨u2, key2, h2, ?_, e2, ?_, e4⟩
              · rwa [show i + (k + 1) = i + 1 + k by omega]
              · rwa [show i + (k + 1) = i + 1 + k by omega]
          · intro r hr hfree
            have h1 : load (fillScript mem old (s ++ [0x1])
                (E.Serialize key.PublicKey)).1 r = load mem r := by
              apply load_congr
              intro x hx1 hx2
              exact fc x (by omega)
                (hfree i old (Nat.le_refl _) (by simp) hin x hx1 hx2)
            rw [← h1]
            apply hb r (by omega)
            intro k h0 hk1 hk3 hk4 x hx1 hx2
            rw [hset k (by omega)] at hk4
            exact hfree k h0 (by omega) (by simp only [List.length_cons]; omega) hk4 x hx1 hx2
          · intro j hj
            rw [hc j (by omega), hset j (by omega)]
          · intro j hj
            simp only [List.length_cons] at hj
            rw [hd j (by omega), hset j (by omega)]

/-- A successful `FillP2PKsign` is a successful `signTx`, which leaves the transaction as it
was, followed by the fill loop; the transaction is read back from the memory. -/
theorem FillP2PKsign_success (E : Ext) (mem : Memory) (scripts : List Slice) (t t1 : Tx)
    (used : List UTXO) (h : FillP2PKsign E mem scripts t used = some (t1, none)) :
    ∃ signs m, signTx E t used = some (t, signs, none) ∧
      fillLoop E used signs 0 mem scripts = some m ∧ t1 = loadScripts m.1 m.2 t := by
  unfold FillP2PKsign at h
  cases hs : signTx E t used with
  | none => rw [hs] at h; simp at h
  | some r =>
    obtain ⟨t0, signs, err⟩ := r
    rw [hs] at h
    cases err with
    | some e => simp at h
    | none =>
      simp only at h
      have ht : t0 = t := (signTxLoop_success E used 0 t t0 [] signs hs).1
      subst ht
      cases hf : fillLoop E used signs 0 mem scripts with
      | none => rw [hf] at h; simp at h
      | some m =>
        rw [hf] at h
        simp only [Option.some.injEq, Prod.mk.injEq, and_true] at h
        exact ⟨signs, m, rfl, hf, h.symm⟩

/-- A successful `FillP2PKsign` changes nothing but input scripts. -/
theorem FillP2PKsign_frame (E : Ext) (mem : Memory) (scripts : List Slice) (t t1 : Tx)
    (used : List UTXO) (hlen : scripts.length = t.TxIn.length)
    (h : FillP2PKsign E mem scripts t used = some (t1, none)) :
    t1.Version = t.Version ∧ t1.TxOut = t.TxOut ∧ t1.Locktime = t.Locktime ∧
      t1.TxIn.length = t.TxIn.length := by
  obtain ⟨signs, m, _, hf, ht⟩ := FillP2PKsign_success E mem scripts t t1 used h
  have hl := fillLoop_length E used signs 0 mem scripts m hf
  subst ht
  refine ⟨rfl, rfl, rfl, ?_⟩
  simp only [loadScripts, List.length_zipWith]
  omega

/-- The script an input of the transaction read back from the memory holds. -/
theorem loadScripts_script (mem : Memory) (scripts : List Slice) (t : Tx) (i : Nat)
    (h : Slice) (x : TxIn) (hs : scripts[i]? = some h) (hx : t.TxIn[i]? = some x) :
    ((loadScripts mem scripts t).TxIn[i]?).map (fun y => y.Script) = some (load mem h) := by
  simp [loadScripts, List.getElem?_zipWith, hs, hx, loadScript]

/-- Slices of a pairwise apart list are apart. -/
theorem apart_of_pairwise (scripts : List Slice) (n k1 k2 : Nat) (h1 h2 : Slice)
    (hp : (scripts.take n).Pairwise apart) (hk : k1 < k2) (hk2 : k2 < n)
    (e1 : scripts[k1]? = some h1) (e2 : scripts[k2]? = some h2) : apart h1 h2 := by
  have g1 : (scripts.take n)[k1]? = some h1 := by
    rw [List.getElem?_take]
    simp only [show k1 < n by omega, if_true, e1]
  have g2 : (scripts.take n)[k2]? = some h2 := by
    rw [List.getElem?_take]
    simp only [hk2, if_true, e2]
  have l1 : k1 < (scripts.take n).length := by
    rcases Nat.lt_or_ge k1 (scripts.take n).length with hlt | hge
    · exact hlt
    · rw [List.getElem?_eq_none hge] at g1; simp at g1
  have l2 : k2 < (scripts.take n).length := by
    rcases Nat.lt_or_ge k2 (scripts.take n).length with hlt | hge
    · exact hlt
    · rw [List.getElem?_eq_none hge] at g2; simp at g2
  have hr := List.pairwise_iff_getElem.mp hp k1 k2 l1 l2 hk
  rw [List.getElem?_eq_getElem l1] at g1
  rw [List.getElem?_eq_getElem l2] at g2
  injection g1 with g1
  injection g2 with g2
  rw [g1, g2] at hr
  exact hr

/-- The fresh empty scripts `NewP2PK` and `BondTx` hand to `FillP2PKsign` lie in any memory
and are pairwise apart. -/
theorem emptyScripts_apart (txins : List TxIn) (mem : Memory) (n : Nat) :
    (∀ h ∈ (emptyScripts txins).take n, h.ptr + h.cap ≤ mem.length) ∧
    ((emptyScripts txins).take n).Pairwise apart := by
  have hall : ∀ h ∈ (emptyScripts txins).take n, h = ⟨0, 0, 0⟩ := by
    intro h hh
    have hm := List.mem_of_mem_take hh
    simp only [emptyScripts, List.mem_map] at hm
    obtain ⟨_, _, he⟩ := hm
    exact he.symm
  constructor
  · intro h hh
    rw [hall h hh]
    exact Nat.zero_le _
  · apply List.pairwise_of_forall_mem_list
    intro a ha b _
    rw [hall a ha]
    exact Or.inl rfl

/-- Claim C13 (amended): whenever `FillP2PKsign` succeeds on a transaction whose input
scripts, for the used coins, are slices that lie in the memory and share no memory with one
another within their capacities, for every used coin `i` the script of input `i` is exactly
the byte `byte(len(sig_i)+1)`, the signature `sig_i` that `signTx` returned for that input,
the byte 0x01, the byte `byte(len(pub_i))` and the serialized public key `pub_i` of
`used[i].Key`; and when the signature is shorter than 255 bytes, the first byte is the
number `len(sig_i)+1`, it counts signature plus type byte, and the public key starts at
offset (first byte)+2. -/
theorem FillP2PKsign_layout (E : Ext) (mem : Memory) (scripts : List Slice) (t t1 : Tx)
    (used : List UTXO)
    (hwf : ∀ h ∈ scripts.take used.length, h.ptr + h.cap ≤ mem.length)
    (hapart : (scripts.take used.length).Pairwise apart)
    (h : FillP2PKsign E mem scripts t used = some (t1, none)) :
    ∃ signs, signTx E t used = some (t, signs, none) ∧
      ∀ (i : Nat) (u : UTXO), used[i]? = some u →
        ∃ (sig : Bytes) (key : PrivateKey) (script : Bytes),
        signs[i]? = some sig ∧ u.Key = some key ∧
        (t1.TxIn[i]?).map (fun x => x.Script) = some script ∧
        script = [(sig.length + 1) % 256] ++ sig ++ [0x01] ++
          [(E.Serialize key.PublicKey).length % 256] ++ E.Serialize key.PublicKey ∧
        (sig.length < 255 →
          script.head? = some (sig.length + 1) ∧
          script.drop (sig.length + 1 + 2) = E.Serialize key.PublicKey ∧
          ((E.Serialize key.PublicKey).length < 256 →
            script = p2pkScriptSpec sig (E.Serialize key.PublicKey))) := by
  obtain ⟨signs, m, hs, hf, ht⟩ := FillP2PKsign_success E mem scripts t t1 used h
  refine ⟨signs, hs, ?_⟩
  obtain ⟨_, new, hnew, hnl, hall⟩ := signTxLoop_success E used 0 t t [] signs hs
  simp only [List.nil_append] at hnew
  subst hnew
  have hwf2 : ∀ k h0, 0 ≤ k → k < 0 + signs.length → scripts[k]? = some h0 →
      h0.ptr + h0.cap ≤ mem.length := by
    intro k h0 _ hk e
    apply hwf h0
    have g : (scripts.take used.length)[k]? = some h0 := by
      rw [List.getElem?_take]
      simp only [show k < used.length by omega, if_true, e]
    exact List.getElem?_mem g
  have hdis : ∀ k1 k2 h1 h2, 0 ≤ k1 → k1 < k2 → k2 < 0 + signs.length →
      scripts[k1]? = some h1 → scripts[k2]? = some h2 → apart h1 h2 := by
    intro k1 k2 h1 h2 _ hk hk2 e1 e2
    exact apart_of_pairwise scripts used.length k1 k2 h1 h2 hapart hk (by omega) e1 e2
  obtain ⟨hA, _, _, _, _⟩ := fillLoop_spec E used signs 0 mem scripts m hf hwf2 hdis
  intro i u hu
  obtain ⟨hlt, key, P, sig, hkey, _, _, hsig⟩ := hall i u hu
  obtain ⟨u2, key2, hd, hu2, hkey2, hm, hload⟩ := hA i sig hsig
  simp only [Nat.zero_add] at hu2 hm hlt
  rw [hu] at hu2
  injection hu2 with hu2
  subst hu2
  rw [hkey] at hkey2
  injection hkey2 with hkey2
  subst hkey2
  have hscr : (t1.TxIn[i]?).map (fun x => x.Script) = some (p2pkScript E sig key.PublicKey) := by
    rw [ht, ← hload]
    exact loadScripts_script m.1 m.2 t i hd t.TxIn[i] hm (List.getElem?_eq_getElem hlt)
  refine ⟨sig, key, _, hsig, hkey, hscr, by simp [p2pkScript], ?_⟩
  intro hlt2
  have hmod : (sig.length + 1) % 256 = sig.length + 1 := Nat.mod_eq_of_lt (by omega)
  refine ⟨by simp [p2pkScript, hmod], ?_, ?_⟩
  · have hsplit : p2pkScript E sig key.PublicKey =
        ((sig.length + 1) % 256 :: (sig ++ [0x1])) ++
          ((E.Serialize key.PublicKey).length % 256 :: E.Serialize key.PublicKey) := by
      simp [p2pkScript]
    have hd : ((sig.length + 1) % 256 :: (sig ++ [0x1])).drop (sig.length + 1 + 2) = [] :=
      List.drop_eq_nil_of_le (by simp)
    have hn : sig.length + 1 + 2 - ((sig.length + 1) % 256 :: (sig ++ [0x1])).length = 1 := by
      simp
    rw [hsplit, List.drop_append_eq_append_drop, hd, hn]
    rfl
  · intro hpub
    have hmod2 : (E.Serialize key.PublicKey).length % 256 = (E.Serialize key.PublicKey).length :=
      Nat.mod_eq_of_lt hpub
    simp [p2pkScript, p2pkScriptSpec, hmod, hmod2]

set_option maxRecDepth 100000 in
/-- Witness for C13: the two-input transaction with its two scripts in separate halves of a
memory of 256 bytes, each with room for 128 bytes, filled with the signatures of its coins'
keys: both scripts are written in place, each starts with the byte 34 (a 33-byte signature
and the type byte) and holds the public key from offset 36 on. -/
theorem FillP2PKsign_layout_witness :
    twoInputs.TxIn.map (fun x => x.Script) =
      [⟨0, 0, 128⟩, ⟨128, 0, 128⟩].map (load (List.replicate 256 0)) ∧
    (((FillP2PKsign modelExt (List.replicate 256 0) [⟨0, 0, 128⟩, ⟨128, 0, 128⟩] twoInputs
        [keyCoin 1 5, keyCoin 2 6]).getD (twoInputs, none)).1.TxIn.map
      (fun x => (x.Script.head?, x.Script.drop 36))) =
      [(some 34, modelExt.Serialize { id := 1 }), (some 34, modelExt.Serialize { id := 2 })] ∧
    ∃ signs, signTx modelExt twoInputs [keyCoin 1 5, keyCoin 2 6] =
        some (twoInputs, signs, none) ∧
      ∀ (i : Nat) (u : UTXO), [keyCoin 1 5, keyCoin 2 6][i]? = some u →
        ∃ (sig : Bytes) (key : PrivateKey) (script : Bytes),
        signs[i]? = some sig ∧ u.Key = some key ∧
        ((((FillP2PKsign modelExt (List.replicate 256 0) [⟨0, 0, 128⟩, ⟨128, 0, 128⟩]
          twoInputs [keyCoin 1 5, keyCoin 2 6]).getD (twoInputs, none)).1).TxIn[i]?).map
          (fun x => x.Script) = some script ∧
        script = [(sig.length + 1) % 256] ++ sig ++ [0x01] ++
          [(modelExt.Serialize key.PublicKey).length % 256] ++
          modelExt.Serialize key.PublicKey ∧
        (sig.length < 255 →
          script.head? = some (sig.length + 1) ∧
          script.drop (sig.length + 1 + 2) = modelExt.Serialize key.PublicKey ∧
          ((modelExt.Serialize key.PublicKey).length < 256 →
            script = p2pkScriptSpec sig (modelExt.Serialize key.PublicKey))) :=
  ⟨by decide, by decide,
    FillP2PKsign_layout modelExt (List.replicate 256 0) [⟨0, 0, 128⟩, ⟨128, 0, 128⟩] twoInputs
      ((FillP2PKsign modelExt (List.replicate 256 0) [⟨0, 0, 128⟩, ⟨128, 0, 128⟩] twoInputs
        [keyCoin 1 5, keyCoin 2 6]).getD (twoInputs, none)).1
      [keyCoin 1 5, keyCoin 2 6] (by decide) (by decide) (by decide)⟩

set_option maxRecDepth 100000 in
/-- Counterexample to C13 as stated: the two inputs of the transaction hold empty scripts
that are the same slice, of capacity 128, of one buffer. `FillP2PKsign` succeeds; the script
of input 1 is written over the script of input 0, so that input 0 ends with the signature
and the public key of input 1 and not with its own. -/
theorem FillP2PKsign_shared_buffer :
    twoInputs.TxIn.map (fun x => x.Script) =
      [⟨0, 0, 128⟩, ⟨0, 0, 128⟩].map (load (List.replicate 128 0)) ∧
    (signTx modelExt twoInputs [keyCoin 1 5, keyCoin 2 6]).map (fun r => (r.2.1, r.2.2)) =
      some ([1 :: List.replicate 31 0 ++ [95], 2 :: List.replicate 31 0 ++ [96]], none) ∧
    (FillP2PKsign modelExt (List.replicate 128 0) [⟨0, 0, 128⟩, ⟨0, 0, 128⟩] twoInputs
        [keyCoin 1 5, keyCoin 2 6]).map (fun r => (r.1.TxIn.map (fun x => x.Script), r.2)) =
      some ([p2pkScript modelExt (2 :: List.replicate 31 0 ++ [96]) { id := 2 },
        p2pkScript modelExt (2 :: List.replicate 31 0 ++ [96]) { id := 2 }], none) ∧
    p2pkScript modelExt (2 :: List.replicate 31 0 ++ [96]) { id := 2 } ≠
      p2pkScript modelExt (1 :: List.replicate 31 0 ++ [95]) { id := 1 } := by
  refine ⟨by decide, by decide, by decide, by decide⟩

/-! ## The bond transaction (`BondTx`) -/

/-- The change output of a successful `newTxins`, when the sum of all coin values fits 64
bits. -/
theorem newTxins_success_change (E : Ext) (total : Nat) (coins : List UTXO) (refund : String)
    (locktime : Nat) (txins : List TxIn) (used : List UTXO) (mto : Option TxOut)
    (hsum : coinSum coins < 2 ^ 64)
    (h : newTxins E total coins refund locktime = (txins, used, mto, none)) :
    ((∃ o, mto = some o) ↔ total < coinSum used) ∧
    (∀ o, mto = some o →
      o.Value = coinSum used - total ∧ DefaultP2PKScript E refund = .ok o.Script) := by
  obtain ⟨k, _, _, _, _, heq⟩ := newTxins_cases E total coins refund locktime hsum
  rw [heq] at h
  split_ifs at h with h1 h2 h3
  · simp at h
  · simp at h
  · cases hp : p2pkTtxout E
        { Addr := refund, Amount := coinSum ((E.sortCoins coins).take k) - total } with
    | error e => rw [hp] at h; simp at h
    | ok o =>
      rw [hp] at h
      simp only [Prod.mk.injEq, and_true] at h
      obtain ⟨_, hu, hm⟩ := h
      subst hu hm
      unfold p2pkTtxout at hp
      cases hd : DefaultP2PKScript E refund with
      | error e => simp [hd] at hp
      | ok scr =>
        simp only [hd] at hp
        injection hp with hp
        subst hp
        refine ⟨⟨fun _ => by omega, fun _ => ⟨_, rfl⟩⟩, ?_⟩
        intro o ho
        injection ho with ho
        subst ho
        exact ⟨rfl, rfl⟩
  · simp only [Prod.mk.injEq, and_true] at h
    obtain ⟨_, hu, hm⟩ := h
    subst hu hm
    refine ⟨⟨fun ⟨o, ho⟩ => by simp at ho, fun hlt => by omega⟩, ?_⟩
    intro o ho
    simp at ho

/-- What a successful end of `BondTx` has done. -/
theorem BondTxBuild_success (E : Ext) (p p1 : PubInfo) (txouts : List TxOut)
    (txins : List TxIn) (used : List UTXO) (mto : Option TxOut) (err : Option Error) (tx : Tx)
    (h : BondTxBuild E p txouts (txins, used, mto, err) = some (p1, some tx, none)) :
    err = none ∧ p1 = { p with bond := some tx } ∧
    FillP2PKsign E [] (emptyScripts txins)
      { Version := 1, TxIn := txins, TxOut := txouts ++ mto.toList, Locktime := 0 } used =
      some (tx, none) := by
  cases err with
  | some e => simp [BondTxBuild] at h
  | none =>
    cases mto with
    | none =>
      simp only [BondTxBuild] at h
      split at h
      · simp at h
      · rename_i r1 e1 hf
        simp only [Option.some.injEq, Prod.mk.injEq] at h
        obtain ⟨hp1, htx, herr⟩ := h
        subst herr
        subst htx
        exact ⟨rfl, hp1.symm, by simpa using hf⟩
    | some o =>
      simp only [BondTxBuild] at h
      split at h
      · simp at h
      · rename_i r1 e1 hf
        simp only [Option.some.injEq, Prod.mk.injEq] at h
        obtain ⟨hp1, htx, herr⟩ := h
        subst herr
        subst htx
        exact ⟨rfl, hp1.symm, by simpa using hf⟩

/-- What a successful `BondTx` has done: the parameter check has passed, `newTxins` has
succeeded on the wrapped sum of amount and fee, and the signed transaction is bound. -/
theorem BondTx_success (E : Ext) (p p1 : PubInfo) (coins : List UTXO) (refund : String)
    (locktime : Nat) (tx : Tx)
    (h : BondTx E p coins refund locktime = some (p1, some tx, none)) :
    bondCheck p = none ∧ p1 = { p with bond := some tx } ∧
    ∃ txins used mto,
      newTxins E (add64 p.Amount p.Fee) coins refund locktime = (txins, used, mto, none) ∧
      FillP2PKsign E [] (emptyScripts txins)
        { Version := 1, TxIn := txins,
          TxOut := { Value := p.Amount, Script := redeemHash E p } :: mto.toList,
          Locktime := 0 } used = some (tx, none) := by
  unfold BondTx at h
  cases hc : bondCheck p with
  | some e => simp [hc] at h
  | none =>
    simp only [hc] at h
    rcases hr : newTxins E (add64 p.Amount p.Fee) coins refund locktime with
      ⟨txins, used, mto, err⟩
    rw [hr] at h
    obtain ⟨herr, hp1, hf⟩ := BondTxBuild_success E p p1 _ txins used mto err tx h
    subst herr
    exact ⟨rfl, hp1, txins, used, mto, rfl, by simpa using hf⟩

/-- Claim C16 (amended): when amount plus fee and the sum of all coin values fit 64 bits
(and the hash of the redeem script is 20 bytes long), whenever `BondTx` succeeds the
returned transaction has version 1, its output 0 has value exactly `Amount` and script
`OP_HASH160`, 0x14, the hash160 of `redeemScript()`, `OP_EQUAL`; the coins are the ones
`newTxins` selects for the required total `Amount + Fee`, one input per used coin; and it has
at most one further output, present iff the used coins exceed `Amount + Fee`, carrying
exactly that surplus to the refund address. -/
theorem BondTx_shape (E : Ext) (p p1 : PubInfo) (coins : List UTXO) (refund : String)
    (locktime : Nat) (tx : Tx)
    (hAF : p.Amount + p.Fee < 2 ^ 64) (hsum : coinSum coins < 2 ^ 64)
    (hhash : (E.AddressBytes (redeemScript E p)).length = 20)
    (h : BondTx E p coins refund locktime = some (p1, some tx, none)) :
    tx.Version = 1 ∧
    ∃ txins used mto,
      newTxins E (p.Amount + p.Fee) coins refund locktime = (txins, used, mto, none) ∧
      tx.TxIn.length = used.length ∧
      tx.TxOut =
        { Value := p.Amount,
          Script := [0xa9, 0x14] ++ E.AddressBytes (redeemScript E p) ++ [0x87] } ::
          mto.toList ∧
      ((∃ o, mto = some o) ↔ p.Amount + p.Fee < coinSum used) ∧
      (∀ o, mto = some o → o.Value = coinSum used - (p.Amount + p.Fee) ∧
        DefaultP2PKScript E refund = .ok o.Script) := by
  obtain ⟨_, _, txins, used, mto, hn, hf⟩ := BondTx_success E p p1 coins refund locktime tx h
  rw [add64_eq hAF] at hn
  obtain ⟨hv, ho, _, hlen⟩ :=
    FillP2PKsign_frame E [] (emptyScripts txins) _ tx used (by simp [emptyScripts]) hf
  obtain ⟨hiff, hval⟩ :=
    newTxins_success_change E _ coins refund locktime txins used mto hsum hn
  have hm := newTxins_mirror E (p.Amount + p.Fee) coins refund locktime
  rw [hn] at hm
  simp only at hm
  refine ⟨hv, txins, used, mto, hn, ?_, ?_, hiff, hval⟩
  · rw [hlen]; simp [hm]
  · rw [ho]
    simp [redeemHash, hhash, opHASH160, opEQUAL]

set_option maxRecDepth 100000 in
/-- Witness for C16: the 1-of-1 context with funding 10 and fee 1, funded by a coin of 20:
the bond has the locked output of 10 and a change output of 9. -/
theorem BondTx_shape_witness :
    (((BondTx modelExt pub1 [keyCoin 1 20] "x" 0).getD (pub1, none, none)).2.1.getD
      oneInput).TxOut.map (fun o => o.Value) = [10, 9] ∧
    (((BondTx modelExt pub1 [keyCoin 1 20] "x" 0).getD (pub1, none, none)).2.1.getD
      oneInput).Version = 1 :=
  ⟨by decide,
    (BondTx_shape modelExt pub1
      ((BondTx modelExt pub1 [keyCoin 1 20] "x" 0).getD (pub1, none, none)).1
      [keyCoin 1 20] "x" 0
      (((BondTx modelExt pub1 [keyCoin 1 20] "x" 0).getD (pub1, none, none)).2.1.getD
        oneInput)
      (by decide) (by decide) (by decide) (by decide)).1⟩

set_option maxRecDepth 100000 in
/-- Counterexample to C16 as stated: with funding 2^64-1 and fee 2 the required total wraps
to 1, so `BondTx` succeeds on a single coin of value 1 and returns a bond whose output 0
carries 2^64-1; the coins were not selected for `Amount + Fee`, for which `newTxins`
reports a shortage. -/
theorem BondTx_total_wraps :
    (BondTx modelExt pubWrap [keyCoin 1 1] "x" 0).map (fun r => r.2.2) = some none ∧
    (BondTx modelExt pubWrap [keyCoin 1 1] "x" 0).map
      (fun r => r.2.1.map (fun t => (t.TxIn.length, t.TxOut.map (fun o => o.Value)))) =
      some (some (1, [2 ^ 64 - 1])) ∧
    coinSum [keyCoin 1 1] < pubWrap.Amount + pubWrap.Fee ∧
    newTxins modelExt (pubWrap.Amount + pubWrap.Fee) [keyCoin 1 1] "x" 0 =
      ([], [], none, some (.shortage 1 (2 ^ 64 + 1) 1)) := by
  refine ⟨by decide, by decide, by decide, by decide⟩

/-! ## The bond output (`searchTxout`, `txForSign`) -/

/-- A successful search returns the (truncated) index of the first output whose script is
the wanted one. -/
theorem searchTxoutLoop_ok (hash : Bytes) :
    ∀ (outs : List TxOut) (i0 r : Nat), searchTxoutLoop hash outs i0 = .ok r →
      ∃ k o, outs[k]? = some o ∧ o.Script = hash ∧ r = (i0 + k) % 2 ^ 32 ∧
        ∀ j o2, j < k → outs[j]? = some o2 → o2.Script ≠ hash := by
  intro outs
  induction outs with
  | nil => intro i0 r h; simp [searchTxoutLoop] at h
  | cons out rest ih =>
    intro i0 r h
    by_cases hs : out.Script = hash
    · simp only [searchTxoutLoop, hs, if_true, Except.ok.injEq] at h
      exact ⟨0, out, by simp, hs, by simpa using h.symm, by intro j o2 hj; omega⟩
    · simp only [searchTxoutLoop, hs, if_false] at h
      obtain ⟨k, o, hk, ho, hr, hmin⟩ := ih (i0 + 1) r h
      refine ⟨k + 1, o, by simpa using hk, ho, by rw [hr]; congr 1; omega, ?_⟩
      intro j o2 hj hj2
      cases j with
      | zero =>
        simp only [List.getElem?_cons_zero, Option.some.injEq] at hj2
        subst hj2
        exact hs
      | succ j => exact hmin j o2 (by omega) (by simpa using hj2)

/-- The search returns the (truncated) index of the first matching output. -/
theorem searchTxoutLoop_first (hash : Bytes) :
    ∀ (outs : List TxOut) (i0 k : Nat) (o : TxOut), outs[k]? = some o → o.Script = hash →
      (∀ j o2, j < k → outs[j]? = some o2 → o2.Script ≠ hash) →
      searchTxoutLoop hash outs i0 = .ok ((i0 + k) % 2 ^ 32) := by
  intro outs
  induction outs with
  | nil => intro i0 k o hk; simp at hk
  | cons out rest ih =>
    intro i0 k o hk ho hmin
    cases k with
    | zero =>
      simp only [List.getElem?_cons_zero, Option.some.injEq] at hk
      subst hk
      simp [searchTxoutLoop, ho]
    | succ k =>
      have hs : out.Script ≠ hash := hmin 0 out (by omega) (by simp)
      simp only [searchTxoutLoop, hs, if_false]
      rw [ih (i0 + 1) k o (by simpa using hk) ho
        (fun j o2 hj hj2 => hmin (j + 1) o2 (by omega) (by simpa using hj2))]
      congr 2
      omega

/-- The search fails, with "not found", exactly when no output has the wanted script. -/
theorem searchTxoutLoop_error (hash : Bytes) :
    ∀ (outs : List TxOut) (i0 : Nat),
      (∀ e, searchTxoutLoop hash outs i0 = .error e → e = .notFound) ∧
      (searchTxoutLoop hash outs i0 = .error .notFound ↔ ∀ o ∈ outs, o.Script ≠ hash) := by
  intro outs
  induction outs with
  | nil => intro i0; simp [searchTxoutLoop]
  | cons out rest ih =>
    intro i0
    by_cases hs : out.Script = hash
    · simp [searchTxoutLoop, hs]
    · simp only [searchTxoutLoop, hs, if_false, List.mem_cons, forall_eq_or_imp, ne_eq,
        not_false_eq_true, true_and]
      exact ih (i0 + 1)

/-- The coins `newTxins` uses are a prefix of the sorted coins. -/
theorem newTxinsLoop_used (total seq : Nat) :
    ∀ (cs : List UTXO) (txins : List TxIn) (used : List UTXO) (amount : Nat),
      ∃ k, (newTxinsLoop total seq cs txins used amount).2.1 = used ++ cs.take k := by
  intro cs
  induction cs with
  | nil => intro txins used amount; exact ⟨0, by simp [newTxinsLoop]⟩
  | cons c rest ih =>
    intro txins used amount
    by_cases hlt : amount < total
    · obtain ⟨k, hk⟩ := ih (txins ++ [newTxin seq c]) (used ++ [c]) (add64 amount c.Value)
      exact ⟨k + 1, by simp [newTxinsLoop, hlt, hk]⟩
    · exact ⟨0, by simp [newTxinsLoop, hlt]⟩

/-- The coins `newTxins` returns are a prefix of the sorted coins. -/
theorem newTxins_used (E : Ext) (total : Nat) (coins : List UTXO) (refund : String)
    (locktime : Nat) :
    ∃ k, (newTxins E total coins refund locktime).2.1 = (E.sortCoins coins).take k := by
  obtain ⟨k, hk⟩ := newTxinsLoop_used total (seqFor locktime) (E.sortCoins coins) [] [] 0
  rcases hr : newTxinsLoop total (seqFor locktime) (E.sortCoins coins) [] [] 0 with ⟨a, b, c⟩
  rw [hr] at hk
  simp only [List.nil_append] at hk
  unfold newTxins
  simp only [hr]
  split_ifs
  · exact ⟨0, by simp⟩
  · exact ⟨0, by simp⟩
  · cases p2pkTtxout E { Addr := refund, Amount := sub64 c total } with
    | error e => exact ⟨k, hk⟩
    | ok o => exact ⟨k, hk⟩
  · exact ⟨k, hk⟩

/-- The spend `txForSign` derives: one input, referencing the bond's identifier and the
index found by the search, holding the redeem script. -/
theorem txForSign_shape (E : Ext) (p : PubInfo) (locktime : Nat) (sends : List Send)
    (mtx : Tx) (h : txForSign E p locktime sends = some (.ok mtx)) :
    ∃ bond index hsh, p.bond = some bond ∧
      searchTxoutLoop (redeemHash E p) bond.TxOut 0 = .ok index ∧ hash E bond = some hsh ∧
      mtx.TxIn = [{ Hash := hsh, Index := index, Script := redeemScript E p,
                    Seq := seqFor locktime }] ∧
      mtx.Version = 1 ∧ mtx.Locktime = locktime := by
  cases hb : p.bond with
  | none => simp [txForSign, hb] at h
  | some bond =>
    cases hp : p2pkTxouts E p.Fee sends with
    | error e => simp [txForSign, hb, hp] at h
    | ok r =>
      obtain ⟨txouts, total⟩ := r
      by_cases hlt : p.Amount < total
      · simp [txForSign, hb, hp, hlt] at h
      · cases hs : searchTxoutLoop (redeemHash E p) bond.TxOut 0 with
        | error e => simp [txForSign, hb, hp, hlt, hs] at h
        | ok index =>
          cases hh : hash E bond with
          | none => simp [txForSign, hb, hp, hlt, hs, hh] at h
          | some hsh =>
            cases hl : sends.getLast? with
            | none => simp [txForSign, hb, hp, hlt, hs, hh, hl] at h
            | some last =>
              simp only [txForSign, hb, hp, hlt, if_false, hs, hh, hl] at h
              have hm := newTxins_mirror E total
                [{ Key := none, TxHash := hsh, Value := p.Amount,
                   Script := redeemScript E p, TxIndex := index }] last.Addr locktime
              obtain ⟨k, hk⟩ := newTxins_used E total
                [{ Key := none, TxHash := hsh, Value := p.Amount,
                   Script := redeemScript E p, TxIndex := index }] last.Addr locktime
              rw [(E.sort_perm _).eq_singleton] at hk
              rcases hr : newTxins E total
                [{ Key := none, TxHash := hsh, Value := p.Amount,
                   Script := redeemScript E p, TxIndex := index }] last.Addr locktime with
                ⟨mtxin, used, txout, err⟩
              rw [hr] at h hm hk
              simp only at hm hk
              refine ⟨bond, index, hsh, rfl, hs, hh, ?_⟩
              cases err with
              | some e => simp [txForSignBuild] at h
              | none =>
                cases k with
                | zero =>
                  simp only [List.take_zero] at hk
                  subst hk
                  simp only [List.map_nil] at hm
                  subst hm
                  simp [txForSignBuild] at h
                | succ k =>
                  simp only [List.take_succ_cons, List.take_nil] at hk
                  subst hk
                  simp only [List.map_cons, List.map_nil] at hm
                  subst hm
                  simp only [txForSignBuild, Option.some.injEq, Except.ok.injEq] at h
                  subst h
                  simp [newTxin]

/-- Claim C18 (amended): for a bonded `PubInfo` whose bond has at most 2^32 outputs,
`searchTxout` returns the least index `i` such that the bond's output `i` has a script equal
to `redeemHash()`, and returns the "not found" error (its only error) iff no output of the
bond has that script; the spend derived by `txForSign` has one input and it references
exactly that index. -/
theorem searchTxout_first_match (E : Ext) (p : PubInfo) (bond : Tx)
    (hb : p.bond = some bond) (hlen : bond.TxOut.length ≤ 2 ^ 32) :
    (∀ i, searchTxout E p = some (.ok i) ↔
      ∃ o, bond.TxOut[i]? = some o ∧ o.Script = redeemHash E p ∧
        ∀ j o2, j < i → bond.TxOut[j]? = some o2 → o2.Script ≠ redeemHash E p) ∧
    (searchTxout E p = some (.error .notFound) ↔
      ∀ o ∈ bond.TxOut, o.Script ≠ redeemHash E p) ∧
    (∀ e, searchTxout E p = some (.error e) → e = .notFound) ∧
    (∀ locktime sends mtx, txForSign E p locktime sends = some (.ok mtx) →
      ∃ i in0, searchTxout E p = some (.ok i) ∧ mtx.TxIn = [in0] ∧ in0.Index = i) := by
  have hbound : ∀ (k : Nat) (o : TxOut), bond.TxOut[k]? = some o → k % 2 ^ 32 = k := by
    intro k o hk
    have hlt : k < bond.TxOut.length := by
      rcases Nat.lt_or_ge k bond.TxOut.length with h | h
      · exact h
      · rw [List.getElem?_eq_none h] at hk; simp at hk
    exact Nat.mod_eq_of_lt (by omega)
  have hs : searchTxout E p = some (searchTxoutLoop (redeemHash E p) bond.TxOut 0) := by
    simp [searchTxout, hb]
  refine ⟨?_, ?_, ?_, ?_⟩
  · intro i
    rw [hs]
    constructor
    · intro h
      simp only [Option.some.injEq] at h
      obtain ⟨k, o, hk, ho, hr, hmin⟩ := searchTxoutLoop_ok _ _ _ _ h
      rw [Nat.zero_add, hbound k o hk] at hr
      subst hr
      exact ⟨o, hk, ho, hmin⟩
    · rintro ⟨o, hk, ho, hmin⟩
      rw [searchTxoutLoop_first _ _ 0 i o hk ho hmin, Nat.zero_add, hbound i o hk]
  · rw [hs]
    simp only [Option.some.injEq]
    exact (searchTxoutLoop_error _ _ 0).2
  · intro e he
    rw [hs] at he
    simp only [Option.some.injEq] at he
    exact (searchTxoutLoop_error _ _ 0).1 e he
  · intro locktime sends mtx hm
    obtain ⟨bond2, index, hsh, hb2, hidx, _, hin, _⟩ := txForSign_shape E p locktime sends mtx hm
    rw [hb] at hb2
    injection hb2 with hb2
    subst hb2
    exact ⟨index, _, by rw [hs, hidx], hin, rfl⟩

set_option maxRecDepth 100000 in
/-- Witness for C18: in a bond whose outputs 1 and 2 are both locked to the redeem hash, the
search returns 1. -/
theorem searchTxout_first_match_witness :
    searchTxout modelExt pubTwice = some (.ok 1) ∧
    (searchTxout modelExt pubTwice = some (.error .notFound) ↔
      ∀ o ∈ [({ Value := 3, Script := [0x6a] } : TxOut),
              { Value := 10, Script := redeemHash modelExt pub1 },
              { Value := 10, Script := redeemHash modelExt pub1 }],
        o.Script ≠ redeemHash modelExt pubTwice) :=
  ⟨by decide,
    (searchTxout_first_match modelExt pubTwice
      { Version := 1, TxIn := [],
        TxOut := [{ Value := 3, Script := [0x6a] },
                  { Value := 10, Script := redeemHash modelExt pub1 },
                  { Value := 10, Script := redeemHash modelExt pub1 }],
        Locktime := 0 } rfl (by decide)).2.1⟩

/-- The search skips a run of outputs whose script is not the wanted one. -/
theorem searchTxoutLoop_replicate (hash : Bytes) (x : TxOut) (rest : List TxOut)
    (hx : x.Script ≠ hash) :
    ∀ (n i0 : Nat), searchTxoutLoop hash (List.replicate n x ++ rest) i0 =
      searchTxoutLoop hash rest (i0 + n) := by
  intro n
  induction n with
  | zero => intro i0; rfl
  | succ n ih =>
    intro i0
    rw [List.replicate_succ, List.cons_append]
    simp only [searchTxoutLoop, hx, if_false]
    rw [ih (i0 + 1)]
    congr 1
    omega

/-- The search of `searchTxout` on a bound context. -/
theorem searchTxout_eq (E : Ext) (p : PubInfo) (bond : Tx) (hb : p.bond = some bond) :
    searchTxout E p = some (searchTxoutLoop (redeemHash E p) bond.TxOut 0) := by
  simp [searchTxout, hb]

theorem redeemHash_ne_nil (E : Ext) (p : PubInfo) : redeemHash E p ≠ [] := by
  simp [redeemHash]

/-- Counterexample to C18 as stated: in a bond with 2^32 outputs of empty script followed by
the output locked to the redeem hash, the least matching index is 2^32, but `searchTxout`
returns the index as a `uint32`, which is 0, and output 0 does not have that script. -/
theorem searchTxout_index_wraps :
    searchTxout modelExt pubMany = some (.ok 0) ∧
    (manyBond.TxOut[0]?).map (fun o => o.Script) = some [] ∧
    redeemHash modelExt pubMany ≠ [] ∧
    (manyBond.TxOut[manyOutputs]?).map (fun o => o.Script) =
      some (redeemHash modelExt pubMany) := by
  have hsame : redeemHash modelExt pub1 = redeemHash modelExt pubMany := rfl
  have hT : manyBond.TxOut = List.replicate manyOutputs ({ Value := 0, Script := [] } : TxOut) ++
      [{ Value := 10, Script := redeemHash modelExt pubMany }] := by
    rw [← hsame]; rfl
  have hne : ({ Value := 0, Script := [] } : TxOut).Script ≠ redeemHash modelExt pubMany :=
    fun h => redeemHash_ne_nil modelExt pubMany h.symm
  have hpos : 0 < manyOutputs := by unfold manyOutputs; omega
  refine ⟨?_, ?_, redeemHash_ne_nil _ _, ?_⟩
  · rw [searchTxout_eq modelExt pubMany manyBond rfl, hT,
      searchTxoutLoop_replicate _ _ _ hne]
    have hz : (0 + manyOutputs) % 2 ^ 32 = 0 := by unfold manyOutputs; omega
    simp only [searchTxoutLoop, if_true, hz]
  · rw [hT, List.getElem?_append_left (by rw [List.length_replicate]; exact hpos),
      List.getElem?_replicate]
    rw [if_pos hpos]
    rfl
  · rw [hT, List.getElem?_append_right (by rw [List.length_replicate]),
      List.length_replicate, Nat.sub_self]
    rfl

/-! ## Null-data output and byte reversal (`CustomTx`, `Reverse`) -/

/-- Claim C24 (amended): for every payload of at most 255 bytes, `CustomTx` returns an
output whose value is 0 and whose script is `OP_RETURN` (0x6a) followed by a length prefix
that equals the payload's length, followed by exactly the payload bytes, so that the script
length is 2 + payload length. -/
theorem CustomTx_layout (data : Bytes) (h : data.length ≤ 255) :
    (CustomTx data).Value = 0 ∧
    (CustomTx data).Script = [0x6a, data.length] ++ data ∧
    (CustomTx data).Script.length = 2 + data.length := by
  have hmod : data.length % 256 = data.length := Nat.mod_eq_of_lt (by omega)
  refine ⟨rfl, by simp [CustomTx, opRETURN, hmod], by simp [CustomTx]; omega⟩

/-- Witness for C24: the payload of the test, 16 bytes. -/
theorem CustomTx_layout_witness :
    (CustomTx (List.replicate 16 115)).Value = 0 ∧
    (CustomTx (List.replicate 16 115)).Script =
      [0x6a, (List.replicate 16 115).length] ++ List.replicate 16 115 ∧
    (CustomTx (List.replicate 16 115)).Script.length = 2 + (List.replicate 16 115).length :=
  CustomTx_layout (List.replicate 16 115) (by decide)

set_option maxRecDepth 100000 in
/-- Counterexample to C24 as stated: for a payload of 256 bytes the length prefix is 0. -/
theorem CustomTx_long_payload :
    (List.replicate 256 7).length = 256 ∧
    (CustomTx (List.replicate 256 7)).Script.take 2 = [0x6a, 0] ∧
    (CustomTx (List.replicate 256 7)).Script.drop 2 = List.replicate 256 7 := by
  refine ⟨by decide, by decide, by decide⟩

/-- Claim C25 (the code at the failing input): `Reverse` of the three bytes 1, 2, 3 is
3, 0, 1: the loop runs over `i < len/2` and never writes the middle byte, so
`Reverse(b)[1]` is 0 and not `b[1] = 2`, and reversing twice gives 1, 0, 3. -/
theorem Reverse_odd_middle :
    Reverse [1, 2, 3] = [3, 0, 1] ∧ (Reverse [1, 2, 3]).length = 3 ∧
    Reverse (Reverse [1, 2, 3]) = [1, 0, 3] := by
  refine ⟨by decide, by decide, by decide⟩

/-- On the 32-byte hashes of the tests (even length) `Reverse` does reverse. -/
theorem Reverse_even_example :
    Reverse [1, 2, 3, 4] = [4, 3, 2, 1] ∧ Reverse (Reverse [1, 2, 3, 4]) = [1, 2, 3, 4] := by
  refine ⟨by decide, by decide⟩

/-! ## The channel setup of the payee (`SignRefund`, `CheckBond`) -/

/-- Claim C22: the payee's `SignRefund` returns an error and no signature, leaving the
refund as it is and without calling the signer, if the refund's lock-time differs from the
agreed value, or it does not have exactly one input, or that input's index is not 0; when
all three checks pass, it writes `redeemHash()` to the script of input 0 and signs that
transaction with the payee's key, returning the first signature or the signer's error. -/
theorem PayeeSignRefund_checks (E : Ext) (m : mpay) (refund : Tx) (locktime : Nat) :
    ((refund.Locktime ≠ locktime ∨ refund.TxIn.length ≠ 1 ∨
        (∃ in0 ins, refund.TxIn = in0 :: ins ∧ in0.Index ≠ 0)) →
      ∃ e, ∀ signKeys,
        PayeeSignRefund E signKeys m refund locktime = some (refund, none, some e)) ∧
    (∀ in0, refund.Locktime = locktime → refund.TxIn = [in0] → in0.Index = 0 →
      ∀ signKeys,
        (∀ r, signKeys { refund with
            TxIn := [{ in0 with Script := redeemHash E m.PubInfo }] } [m.priv] = some r →
          (∀ e, r.2.2 = some e →
            PayeeSignRefund E signKeys m refund locktime = some (r.1, none, some e)) ∧
          (∀ sig rest, r.2.2 = none → r.2.1 = sig :: rest →
            PayeeSignRefund E signKeys m refund locktime = some (r.1, some sig, none)))) := by
  constructor
  · intro hbad
    by_cases h1 : refund.Locktime ≠ locktime
    · exact ⟨.refundLocktime, fun signKeys => by simp [PayeeSignRefund, h1]⟩
    · by_cases h2 : refund.TxIn.length ≠ 1
      · exact ⟨.txinNumber, fun signKeys => by simp [PayeeSignRefund, h1, h2]⟩
      · rcases hbad with hb | hb | ⟨in0, ins, hin, hidx⟩
        · exact absurd hb h1
        · exact absurd hb h2
        · refine ⟨.txinIndex, fun signKeys => ?_⟩
          have h2x : ¬ (in0 :: ins).length ≠ 1 := by rw [← hin]; exact h2
          simp only [PayeeSignRefund, h1, if_false, hin, h2x, hidx, ne_eq, not_false_eq_true,
            if_true]
  · intro in0 hl hin hidx signKeys r hr
    have h1 : ¬ refund.Locktime ≠ locktime := by simp [hl]
    have h2 : ¬ [in0].length ≠ 1 := by simp
    have h3 : ¬ in0.Index ≠ 0 := by simp [hidx]
    constructor
    · intro e he
      simp only [PayeeSignRefund, h1, if_false, hin, h2, h3, hr, he]
    · intro sig rest he hs
      simp only [PayeeSignRefund, h1, if_false, hin, h2, h3, hr, he, hs]

/-- The payee's `SignRefund` on three refunds: a wrong lock-time, an input index 1, and a
refund that passes the checks. -/
theorem PayeeSignRefund_examples :
    PayeeSignRefund modelExt stubSignKeys payee10 oneInput 7 =
      some (oneInput, none, some .refundLocktime) ∧
    PayeeSignRefund modelExt stubSignKeys payee10 twoInputs 0 =
      some (twoInputs, none, some .txinNumber) ∧
    PayeeSignRefund modelExt stubSignKeys payee10 (withScript0 oneInput [9]) 0 =
      some (withScript0 oneInput (redeemHash modelExt payee10.PubInfo), some [1], none) := by
  refine ⟨by decide, by decide, by decide⟩

/-- Claim C23: for a bond with at least one output and a refund with at least one input,
the payee's `CheckBond` succeeds if and only if the script of the bond's output 0 equals
`redeemHash()` and the hash of the refund's input 0 equals the bond's identifier, the
double SHA-256 of its encoding; on success the payee's bond reference is the bond and
nothing else has changed, and when an error is returned the payee is unchanged. -/
theorem CheckBond_iff (E : Ext) (m : mpay) (refund bond : Tx) (out0 : TxOut)
    (outs : List TxOut) (in0 : TxIn) (ins : List TxIn)
    (hout : bond.TxOut = out0 :: outs) (hin : refund.TxIn = in0 :: ins) :
    ((∃ m1, CheckBond E m refund bond = some (m1, none)) ↔
      (out0.Script = redeemHash E m.PubInfo ∧
        ∃ P, E.Pack bond = .ok P ∧ in0.Hash = E.Sum256 (E.Sum256 P))) ∧
    (∀ m1, CheckBond E m refund bond = some (m1, none) →
      m1 = { m with PubInfo := { m.PubInfo with bond := some bond } }) ∧
    (∀ m1 e, CheckBond E m refund bond = some (m1, some e) → m1 = m) := by
  by_cases hs : out0.Script = redeemHash E m.PubInfo
  · cases hp : E.Pack bond with
    | error e =>
      have hc : CheckBond E m refund bond = none := by
        simp [CheckBond, hout, hin, hs, hash, hp]
      simp [hc]
    | ok P =>
      by_cases hh : in0.Hash = E.Sum256 (E.Sum256 P)
      · have hc : CheckBond E m refund bond =
            some ({ m with PubInfo := { m.PubInfo with bond := some bond } }, none) := by
          simp [CheckBond, hout, hin, hs, hash, hp, hh]
        rw [hc]
        refine ⟨⟨fun _ => ⟨hs, P, rfl, hh⟩, fun _ => ⟨_, rfl⟩⟩, ?_, ?_⟩
        · intro m1 h1
          simp only [Option.some.injEq, Prod.mk.injEq, and_true] at h1
          exact h1.symm
        · intro m1 e h1
          simp at h1
      · have hc : CheckBond E m refund bond = some (m, some .refundHash) := by
          simp [CheckBond, hout, hin, hs, hash, hp, hh]
        rw [hc]
        refine ⟨⟨fun ⟨m1, h1⟩ => by simp at h1, ?_⟩, ?_, ?_⟩
        · rintro ⟨_, P2, hP2, hh2⟩
          simp only [Except.ok.injEq] at hP2
          subst hP2
          exact absurd hh2 hh
        · intro m1 h1
          simp at h1
        · intro m1 e h1
          simp only [Option.some.injEq, Prod.mk.injEq] at h1
          exact h1.1.symm
  · have hc : CheckBond E m refund bond = some (m, some .bondScript) := by
      simp [CheckBond, hout, hs]
    rw [hc]
    refine ⟨⟨fun ⟨m1, h1⟩ => by simp at h1, fun ⟨h1, _⟩ => absurd h1 hs⟩, ?_, ?_⟩
    · intro m1 h1
      simp at h1
    · intro m1 e h1
      simp only [Option.some.injEq, Prod.mk.injEq] at h1
      exact h1.1.symm

set_option maxRecDepth 100000 in
/-- Witness for C23: the payee checks the bond of the channel funded with 10 against its
refund, and is bound to it. -/
theorem CheckBond_iff_witness :
    CheckBond modelExt payee10 refund10 bond10 =
      some ({ payee10 with PubInfo := { payee10.PubInfo with bond := some bond10 } }, none) ∧
    ((∃ m1, CheckBond modelExt payee10 refund10 bond10 = some (m1, none)) ↔
      (({ Value := 10, Script := redeemHash modelExt payee10.PubInfo } : TxOut).Script =
          redeemHash modelExt payee10.PubInfo ∧
        ∃ P, modelExt.Pack bond10 = .ok P ∧
          (refund10.TxIn.headD (newTxin 0 (coinOf 0))).Hash =
            modelExt.Sum256 (modelExt.Sum256 P))) :=
  ⟨by decide,
    (CheckBond_iff modelExt payee10 refund10 bond10
      { Value := 10, Script := redeemHash modelExt payee10.PubInfo } []
      (refund10.TxIn.headD (newTxin 0 (coinOf 0))) [] rfl (by decide)).1⟩

/-! ## Signing and verifying a spend of the bond -/

/-- Writing to an input the script it already holds changes nothing. -/
theorem setScript_self (t : Tx) (i : Nat) (txin : TxIn) (h : t.TxIn[i]? = some txin) :
    setScript t i txin.Script = t := by
  have h3 : t.TxIn.set i txin = t.TxIn := set_same _ _ _ h
  cases t
  simp_all [setScript]

/-- Claim C28: for a bonded `PubInfo`, lock-time and sends for which `txForSign` succeeds,
`SignMultisig` hands the private key the digest of the derived spend (or returns the
encoding error), and `verify`, through which `embedSigns` and `SpendBondTx` check every
signature, checks against that same digest; hence, if the key library's `Verify` accepts
every signature its `Sign` makes with the matching key, a signature produced by
`SignMultisig` with the key of `Pubs[i]` passes verification at slot `i`. -/
theorem SignMultisig_verify_digest (E : Ext) (p : PubInfo) (locktime : Nat)
    (sends : List Send) (mtx : Tx) (h : txForSign E p locktime sends = some (.ok mtx)) :
    (∀ priv, SignMultisig E p (some priv) locktime sends =
      match spendDigest E mtx with
      | .error e => some (.error (.lib e))
      | .ok d =>
        match E.Sign priv d with
        | .error e => some (.error (.lib e))
        | .ok sig => some (.ok sig)) ∧
    (∀ sig i, verify E p mtx sig i =
      match spendDigest E mtx with
      | .error e => some (some e)
      | .ok d =>
        match p.Pubs[i]? with
        | none => none
        | some pub => some (E.Verify pub sig d)) ∧
    ((∀ priv d sig, E.Sign priv d = .ok sig → E.Verify priv.PublicKey sig d = none) →
      ∀ priv sig i, SignMultisig E p (some priv) locktime sends = some (.ok sig) →
        p.Pubs[i]? = some priv.PublicKey → verify E p mtx sig i = some none) := by
  obtain ⟨bond, index, hsh, _, _, _, hin, _, _⟩ := txForSign_shape E p locktime sends mtx h
  have h0 : mtx.TxIn[0]? = some ⟨hsh, index, redeemScript E p, seqFor locktime⟩ := by
    rw [hin]; rfl
  have hself : setScript mtx 0 (redeemScript E p) = mtx := setScript_self mtx 0 _ h0
  have hsign : ∀ priv, SignMultisig E p (some priv) locktime sends =
      match spendDigest E mtx with
      | .error e => some (.error (.lib e))
      | .ok d =>
        match E.Sign priv d with
        | .error e => some (.error (.lib e))
        | .ok sig => some (.ok sig) := by
    intro priv
    simp only [SignMultisig, h, signTx, signTxLoop, sigPreimage, h0, hself, spendDigest]
    cases hp : E.Pack mtx with
    | error e => simp
    | ok P =>
      simp only
      cases hs : E.Sign priv (E.Sum256 (E.Sum256 (P ++ [0x01, 0, 0, 0]))) with
      | error e => simp
      | ok sig => simp
  have hver : ∀ sig i, verify E p mtx sig i =
      match spendDigest E mtx with
      | .error e => some (some e)
      | .ok d =>
        match p.Pubs[i]? with
        | none => none
        | some pub => some (E.Verify pub sig d) := by
    intro sig i
    simp only [verify, spendDigest]
    cases hp : E.Pack mtx with
    | error e => simp
    | ok P => simp
  refine ⟨hsign, hver, ?_⟩
  intro hlib priv sig i hs hpub
  rw [hsign priv] at hs
  rw [hver sig i]
  cases hd : spendDigest E mtx with
  | error e => rw [hd] at hs; simp at hs
  | ok d =>
    simp only [hd] at hs
    simp only [hpub]
    cases hsg : E.Sign priv d with
    | error e => simp [hsg] at hs
    | ok sig2 =>
      simp only [hsg, Option.some.injEq, Except.ok.injEq] at hs
      subst hs
      rw [hlib priv d sig2 hsg]

set_option maxRecDepth 100000 in
/-- Witness for C28: in the channel funded with 10, the signature `SignMultisig` makes with
the payee's key verifies at slot 1. -/
theorem SignMultisig_verify_digest_witness :
    SignMultisig modelExt payer10.PubInfo (some { id := 1, PublicKey := { id := 1 } }) 0
        [{ Addr := "payer", Amount := 5 }, { Addr := "payee", Amount := 4 }] =
      some (.ok (1 :: List.replicate 31 0 ++ [196])) ∧
    verify modelExt payer10.PubInfo
      (spendOf modelExt payer10.PubInfo 0
        [{ Addr := "payer", Amount := 5 }, { Addr := "payee", Amount := 4 }])
      (1 :: List.replicate 31 0 ++ [196]) 1 = some none :=
  ⟨by decide,
    (SignMultisig_verify_digest modelExt payer10.PubInfo 0
      [{ Addr := "payer", Amount := 5 }, { Addr := "payee", Amount := 4 }]
      (spendOf modelExt payer10.PubInfo 0
        [{ Addr := "payer", Amount := 5 }, { Addr := "payee", Amount := 4 }])
      (by decide)).2.2
      (by
        intro priv d sig hs
        simp only [modelExt, Except.ok.injEq] at hs
        subst hs
        simp [modelExt])
      { id := 1, PublicKey := { id := 1 } } (1 :: List.replicate 31 0 ++ [196]) 1
      (by decide) (by decide)⟩

/-! ## Value conservation and the derived spend -/

theorem outSum_append (a b : List TxOut) : outSum (a ++ b) = outSum a + outSum b := by
  simp [outSum]

/-- The total and the outputs of `p2pkTxouts`, when fee and amounts cannot overflow. -/
theorem p2pkTxoutsLoop_sum (E : Ext) :
    ∀ (sends : List Send) (txouts : List TxOut) (total : Nat) (outs : List TxOut) (tot : Nat),
      total + sendSum sends < 2 ^ 64 →
      p2pkTxoutsLoop E sends txouts total = .ok (outs, tot) →
      tot = total + sendSum sends ∧ outSum outs = outSum txouts + sendSum sends := by
  intro sends
  induction sends with
  | nil =>
    intro txouts total outs tot _ h
    simp only [p2pkTxoutsLoop, Except.ok.injEq, Prod.mk.injEq] at h
    simp [sendSum, h.1, h.2]
  | cons send rest ih =>
    intro txouts total outs tot hlt h
    have hcons : sendSum (send :: rest) = send.Amount + sendSum rest := by simp [sendSum]
    rw [hcons] at hlt ⊢
    by_cases h0 : send.Amount = 0
    · simp only [p2pkTxoutsLoop, h0, if_true] at h
      have := ih txouts total outs tot (by omega) h
      omega
    · simp only [p2pkTxoutsLoop, h0, if_false] at h
      cases hp : p2pkTtxout E send with
      | error e => simp [hp] at h
      | ok txout =>
        simp only [hp] at h
        have hv : txout.Value = send.Amount := by
          unfold p2pkTtxout at hp
          cases hd : DefaultP2PKScript E send.Addr with
          | error e => simp [hd] at hp
          | ok scr =>
            simp only [hd, Except.ok.injEq] at hp
            rw [← hp]
        rw [add64_eq (by omega)] at h
        have := ih (txouts ++ [txout]) (total + send.Amount) outs tot (by omega) h
        rw [outSum_append] at this
        simp only [outSum, List.map_cons, List.map_nil, List.sum_cons, List.sum_nil] at this ⊢
        omega

/-- A successful `newTxins` has used coins worth at least the total, when the sum of all coin
values fits 64 bits. -/
theorem newTxins_success_total (E : Ext) (total : Nat) (coins : List UTXO) (refund : String)
    (locktime : Nat) (txins : List TxIn) (used : List UTXO) (mto : Option TxOut)
    (hsum : coinSum coins < 2 ^ 64)
    (h : newTxins E total coins refund locktime = (txins, used, mto, none)) :
    total ≤ coinSum used := by
  obtain ⟨k, _, _, _, _, heq⟩ := newTxins_cases E total coins refund locktime hsum
  rw [heq] at h
  split_ifs at h with h1 h2 h3
  · simp at h
  · simp at h
  · cases hp : p2pkTtxout E
        { Addr := refund, Amount := coinSum ((E.sortCoins coins).take k) - total } with
    | error e => rw [hp] at h; simp at h
    | ok o =>
      rw [hp] at h
      simp only [Prod.mk.injEq, and_true] at h
      rw [← h.2.1]; omega
  · simp only [Prod.mk.injEq, and_true] at h
    rw [← h.2.1]; omega

/-- What a successful `NewP2PKunsign` has done. -/
theorem NewP2PKunsign_success (E : Ext) (fee : Nat) (coins : List UTXO) (locktime : Nat)
    (sends : List Send) (tx : Tx) (used : List UTXO)
    (h : NewP2PKunsign E fee coins locktime sends = some (some tx, used, none)) :
    ∃ txouts total last txins mto,
      p2pkTxouts E fee sends = .ok (txouts, total) ∧ sends.getLast? = some last ∧
      last.Amount = 0 ∧
      newTxins E total coins last.Addr locktime = (txins, used, mto, none) ∧
      tx = { Version := 1, TxIn := txins, TxOut := txouts ++ mto.toList,
             Locktime := locktime } := by
  unfold NewP2PKunsign at h
  cases hp : p2pkTxouts E fee sends with
  | error e => simp [hp] at h
  | ok r =>
    obtain ⟨txouts, total⟩ := r
    cases hl : sends.getLast? with
    | none => simp [hp, hl] at h
    | some last =>
      by_cases hz : last.Amount ≠ 0
      · simp [hp, hl, hz] at h
      · simp only [hp, hl, hz, if_false, Option.some.injEq] at h
        rcases hr : newTxins E total coins last.Addr locktime with ⟨txins, used1, mto, err⟩
        rw [hr] at h
        cases err with
        | some e => simp [NewP2PKunsignBuild] at h
        | none =>
          cases mto with
          | none =>
            simp only [NewP2PKunsignBuild, Prod.mk.injEq, Option.some.injEq, and_true] at h
            obtain ⟨htx, hu⟩ := h
            subst hu
            exact ⟨txouts, total, last, txins, none, rfl, rfl, by simpa using hz, hr,
              by simp [← htx]⟩
          | some o =>
            simp only [NewP2PKunsignBuild, Prod.mk.injEq, Option.some.injEq, and_true] at h
            obtain ⟨htx, hu⟩ := h
            subst hu
            exact ⟨txouts, total, last, txins, some o, rfl, rfl, by simpa using hz, hr,
              by simp [← htx]⟩

/-- Claim C27 (amended): whenever `NewP2PKunsign` succeeds, with fee plus send amounts and
the sum of all coin values not overflowing 64 bits, the sum of the values of the returned
transaction's outputs plus the fee equals the sum of the values of the returned used coins. -/
theorem NewP2PKunsign_conserves (E : Ext) (fee : Nat) (coins : List UTXO) (locktime : Nat)
    (sends : List Send) (tx : Tx) (used : List UTXO)
    (hfee : fee + sendSum sends < 2 ^ 64) (hsum : coinSum coins < 2 ^ 64)
    (h : NewP2PKunsign E fee coins locktime sends = some (some tx, used, none)) :
    outSum tx.TxOut + fee = coinSum used := by
  obtain ⟨txouts, total, last, txins, mto, hp, _, _, hn, htx⟩ :=
    NewP2PKunsign_success E fee coins locktime sends tx used h
  obtain ⟨htot, hout⟩ := p2pkTxoutsLoop_sum E sends [] fee txouts total hfee hp
  have hge := newTxins_success_total E total coins last.Addr locktime txins used mto hsum hn
  obtain ⟨hiff, hval⟩ :=
    newTxins_success_change E total coins last.Addr locktime txins used mto hsum hn
  subst htx
  simp only [outSum_append, hout]
  cases mto with
  | none =>
    have : ¬ total < coinSum used := fun hlt => by
      obtain ⟨o, ho⟩ := hiff.2 hlt
      simp at ho
    simp [outSum]
    omega
  | some o =>
    have hlt : total < coinSum used := hiff.1 ⟨o, rfl⟩
    have hv := (hval o rfl).1
    simp [outSum, hv]
    omega

/-- Witness for C27: a coin of 20 pays 5 and the fee 1; the change is 14. -/
theorem NewP2PKunsign_conserves_witness :
    outSum ((((NewP2PKunsign modelExt 1 [keyCoin 1 20] 0
      [{ Addr := "a", Amount := 5 }, { Addr := "r", Amount := 0 }]).getD
        (none, [], none)).1.getD oneInput).TxOut) + 1 = coinSum [keyCoin 1 20] :=
  NewP2PKunsign_conserves modelExt 1 [keyCoin 1 20] 0
    [{ Addr := "a", Amount := 5 }, { Addr := "r", Amount := 0 }]
    (((NewP2PKunsign modelExt 1 [keyCoin 1 20] 0
      [{ Addr := "a", Amount := 5 }, { Addr := "r", Amount := 0 }]).getD
        (none, [], none)).1.getD oneInput)
    [keyCoin 1 20] (by decide) (by decide) (by decide)

/-- Counterexample to C27 as stated: with coins 2^64-1, 2^63, 2^63, fee 1 and one send of
2^64-2 (fee plus amounts is 2^64-1, no overflow) `NewP2PKunsign` succeeds; the outputs plus
the fee are worth 2^64-1 and the used coins 2^65-1. -/
theorem NewP2PKunsign_coins_overflow :
    1 + sendSum [{ Addr := "a", Amount := 2 ^ 64 - 2 }, { Addr := "", Amount := 0 }] < 2 ^ 64 ∧
    (NewP2PKunsign modelExt 1 [coinOf (2 ^ 64 - 1), coinOf (2 ^ 63), coinOf (2 ^ 63)] 0
      [{ Addr := "a", Amount := 2 ^ 64 - 2 }, { Addr := "", Amount := 0 }]).map
      (fun r => (r.1.map (fun t => outSum t.TxOut + 1), coinSum r.2.1, r.2.2)) =
      some (some (2 ^ 64 - 1), 2 ^ 65 - 1, none) := by
  refine ⟨by decide, by decide⟩

set_option maxRecDepth 100000 in
/-- The case the amended C26 leaves out: with fee 0 and a single send of amount 0 the
required total is 0, `newTxins` selects no coin, and `txForSign` faults on `mtxin[0]`. -/
theorem txForSign_zero_total_faults :
    pubFree.Fee + sendSum [{ Addr := "payer", Amount := 0 }] ≤ pubFree.Amount ∧
    searchTxout modelExt pubFree = some (.ok 0) ∧
    newTxins modelExt 0
      [{ Key := none, TxHash := (hash modelExt bond10).getD [], Value := 10,
         Script := redeemScript modelExt pubFree, TxIndex := 0 }] "payer" 0 =
      ([], [], none, none) ∧
    txForSign modelExt pubFree 0 [{ Addr := "payer", Amount := 0 }] = none := by
  refine ⟨by decide, by decide, by decide, by decide⟩

/-! ## The encoding round trip (`Pack`, `ParseTX`) -/

theorem readLE32_le32 (n : Nat) (rest : Bytes) (h : n < 2 ^ 32) :
    readLE32 (le32 n ++ rest) = some (n, rest) := by
  simp only [le32, List.cons_append, List.nil_append, readLE32, Option.some.injEq,
    Prod.mk.injEq, and_true]
  omega

theorem readLE64_le64 (n : Nat) (rest : Bytes) (h : n < 2 ^ 64) :
    readLE64 (le64 n ++ rest) = some (n, rest) := by
  have h1 : n % 4294967296 < 2 ^ 32 := by omega
  have h2 : n / 4294967296 < 2 ^ 32 := by omega
  simp only [le64, readLE64, List.append_assoc, readLE32_le32 _ _ h1, readLE32_le32 _ _ h2,
    Option.some.injEq, Prod.mk.injEq, and_true]
  omega

theorem readVarint_varint (n : Nat) (rest : Bytes) (h : n < 2 ^ 64) :
    readVarint (varint n ++ rest) = some (n, rest) := by
  unfold varint
  split_ifs with h1 h2 h3
  · simp [readVarint, h1]
  · simp only [List.cons_append, List.nil_append, readVarint]
    simp only [show ¬ (0xfd : Nat) < 0xfd by decide, if_false, if_true, Option.some.injEq,
      Prod.mk.injEq, and_true]
    omega
  · simp only [List.cons_append, readVarint]
    simp only [show ¬ (0xfe : Nat) < 0xfd by decide, show ¬ (0xfe : Nat) = 0xfd by decide,
      if_false, if_true]
    exact readLE32_le32 n rest (by omega)
  · simp only [List.cons_append, readVarint]
    simp only [show ¬ (0xff : Nat) < 0xfd by decide, show ¬ (0xff : Nat) = 0xfd by decide,
      show ¬ (0xff : Nat) = 0xfe by decide, if_false]
    exact readLE64_le64 n rest h

theorem readBytes_append (x rest : Bytes) :
    readBytes x.length (x ++ rest) = some (x, rest) := by
  simp [readBytes]

theorem readTxIn_pack (x : TxIn) (rest : Bytes)
    (h : x.Hash.length = 32 ∧ x.Index < 2 ^ 32 ∧ x.Seq < 2 ^ 32 ∧ x.Script.length < 2 ^ 64) :
    readTxIn (packTxIn x ++ rest) = some (x, rest) := by
  obtain ⟨hh, hi, hs, hl⟩ := h
  have h32 := readBytes_append x.Hash
    (le32 x.Index ++ (varint x.Script.length ++ (x.Script ++ (le32 x.Seq ++ rest))))
  rw [hh] at h32
  simp only [packTxIn, readTxIn, List.append_assoc, h32, readLE32_le32 _ _ hi,
    readVarint_varint _ _ hl, readBytes_append, readLE32_le32 _ _ hs]

theorem readTxOut_pack (x : TxOut) (rest : Bytes)
    (h : x.Value < 2 ^ 64 ∧ x.Script.length < 2 ^ 64) :
    readTxOut (packTxOut x ++ rest) = some (x, rest) := by
  obtain ⟨hv, hl⟩ := h
  simp only [packTxOut, readTxOut, List.append_assoc, readLE64_le64 _ _ hv,
    readVarint_varint _ _ hl, readBytes_append]

theorem readList_pack {α : Type} (enc : α → Bytes) (dec : Bytes → Option (α × Bytes)) :
    ∀ (l : List α) (rest : Bytes),
      (∀ x ∈ l, ∀ r, dec (enc x ++ r) = some (x, r)) →
      readList dec l.length (packList enc l ++ rest) = some (l, rest) := by
  intro l
  induction l with
  | nil => intro rest _; rfl
  | cons x xs ih =>
    intro rest h
    have hx := h x (List.mem_cons_self _ _) (packList enc xs ++ rest)
    have hxs := ih rest (fun y hy r => h y (List.mem_cons_of_mem _ hy) r)
    simp only [List.length_cons, packList, List.append_assoc, readList, hx, hxs]

/-- The codec of the spec: decoding the encoding of a well-typed transaction gives it back. -/
theorem unpackTx_packTx (t : Tx) (h : wellTyped t) :
    ∃ b, packTx t = .ok b ∧ unpackTx b = .ok t := by
  obtain ⟨hv, hl, hni, hno, hin, hout⟩ := h
  have hall : t.TxIn.all (fun x => decide (x.Hash.length = 32)) = true := by
    simp only [List.all_eq_true, decide_eq_true_eq]
    exact fun x hx => (hin x hx).1
  refine ⟨le32 t.Version ++ varint t.TxIn.length ++ packList packTxIn t.TxIn ++
    varint t.TxOut.length ++ packList packTxOut t.TxOut ++ le32 t.Locktime,
    by simp only [packTx, hall, if_true], ?_⟩
  have hins := readList_pack packTxIn readTxIn t.TxIn
    (varint t.TxOut.length ++ (packList packTxOut t.TxOut ++ le32 t.Locktime))
    (fun x hx r => readTxIn_pack x r (hin x hx))
  have houts := readList_pack packTxOut readTxOut t.TxOut (le32 t.Locktime)
    (fun x hx r => readTxOut_pack x r (hout x hx))
  have hlt := readLE32_le32 t.Locktime [] hl
  rw [List.append_nil] at hlt
  simp only [unpackTx, List.append_assoc, readLE32_le32 _ _ hv, readVarint_varint _ _ hni,
    hins, readVarint_varint _ _ hno, houts, hlt, if_true]

/-- Claim C21: encoding round trip. For every transaction whose fields are in the ranges of
their types and whose input hashes are all 32 bytes long, `Pack` succeeds and `ParseTX` of the
bytes succeeds and gives back the transaction: same version, inputs (hash, index, script,
sequence), outputs (value, script) and lock-time; and every byte string that is the encoding
of such a transaction is parsed to a transaction whose encoding is that byte string. -/
theorem ParseTX_Pack_roundtrip (t : Tx) (hwf : wellTyped t) :
    (∃ b, Pack modelExt t = .ok b ∧ ParseTX unpackTx b = .ok t) ∧
    (∀ b, Pack modelExt t = .ok b →
      ∃ t2, ParseTX unpackTx b = .ok t2 ∧ Pack modelExt t2 = .ok b) := by
  obtain ⟨b, hp, hu⟩ := unpackTx_packTx t hwf
  have hP : Pack modelExt t = .ok b := hp
  refine ⟨⟨b, hP, hu⟩, ?_⟩
  intro b2 hb2
  rw [hP] at hb2
  injection hb2 with hb2
  subst hb2
  exact ⟨t, hu, hP⟩

set_option maxRecDepth 100000 in
theorem ParseTX_Pack_roundtrip_witness :
    wellTyped refund10 ∧
    (∃ b, Pack modelExt refund10 = .ok b ∧ ParseTX unpackTx b = .ok refund10) ∧
    (∀ b, Pack modelExt refund10 = .ok b →
      ∃ t2, ParseTX unpackTx b = .ok t2 ∧ Pack modelExt t2 = .ok b) :=
  ⟨by decide, ParseTX_Pack_roundtrip refund10 (by decide)⟩

/-! ## The preimage and the scripts of the other inputs -/

/-- The encoding is injective on transactions whose fields are in the ranges of their
types: two of them with the same encoding are the same transaction. -/
theorem packTx_injective (t1 t2 : Tx) (b : Bytes) (h1 : wellTyped t1) (h2 : wellTyped t2)
    (hp1 : packTx t1 = .ok b) (hp2 : packTx t2 = .ok b) : t1 = t2 := by
  obtain ⟨b1, hb1, hu1⟩ := unpackTx_packTx t1 h1
  obtain ⟨b2, hb2, hu2⟩ := unpackTx_packTx t2 h2
  rw [hp1] at hb1
  rw [hp2] at hb2
  injection hb1 with hb1
  injection hb2 with hb2
  subst hb1
  subst hb2
  rw [hu1] at hu2
  injection hu2

/-- Claim C9 (amended): for two transactions (fields in the ranges of their types, encoded
canonically) that are identical except for the unlocking script held by an input `j`, and a
signed input `i` different from `j` with the same substituted locking script, the sighash
preimages built for input `i` are the same if and only if the two scripts held by input `j`
are the same: the script every other input currently holds is encoded into the preimage.
Only the script held by the signed input `i` itself does not matter: two transactions
identical except for the script held by input `i` give the same preimage, and hence the same
digest, for input `i`. -/
theorem sigPreimage_other_input (E : Ext)
    (hinj : ∀ t1 t2 b, wellTyped t1 → wellTyped t2 → E.Pack t1 = .ok b → E.Pack t2 = .ok b →
      t1 = t2)
    (t : Tx) (i j : Nat) (a b script : Bytes) (hij : i ≠ j) (hj : j < t.TxIn.length)
    (hwa : wellTyped (setScript (setScript t j a) i script))
    (hwb : wellTyped (setScript (setScript t j b) i script))
    (hok : ∃ P, sigPreimage E (setScript t j a) i script = .ok P) :
    (sigPreimage E (setScript t j a) i script = sigPreimage E (setScript t j b) i script ↔
      a = b) ∧
    (∀ held, sigPreimage E (setScript t i held) i script = sigPreimage E t i script ∧
      (sigPreimage E (setScript t i held) i script).map (fun x => E.Sum256 (E.Sum256 x)) =
        (sigPreimage E t i script).map (fun x => E.Sum256 (E.Sum256 x))) := by
  constructor
  · constructor
    · intro heq
      obtain ⟨P, hP⟩ := hok
      cases hpa : E.Pack (setScript (setScript t j a) i script) with
      | error e => simp [sigPreimage, hpa] at hP
      | ok bufA =>
        cases hpb : E.Pack (setScript (setScript t j b) i script) with
        | error e => simp [sigPreimage, hpa, hpb] at heq
        | ok bufB =>
          simp only [sigPreimage, hpa, hpb, Except.ok.injEq, List.append_left_inj] at heq
          subst heq
          have htx := hinj _ _ _ hwa hwb hpa hpb
          have hja : (setScript (setScript t j a) i script).TxIn[j]? =
              (t.TxIn[j]?).map (fun x => { x with Script := a }) := by
            rw [(setScript_spec (setScript t j a) i script).2.2.2.2 j (Ne.symm hij)]
            exact (setScript_spec t j a).2.2.2.1
          have hjb : (setScript (setScript t j b) i script).TxIn[j]? =
              (t.TxIn[j]?).map (fun x => { x with Script := b }) := by
            rw [(setScript_spec (setScript t j b) i script).2.2.2.2 j (Ne.symm hij)]
            exact (setScript_spec t j b).2.2.2.1
          rw [htx, hjb, List.getElem?_eq_getElem hj] at hja
          simp only [Option.map_some', Option.some.injEq] at hja
          exact (congrArg TxIn.Script hja).symm
    · intro hab
      rw [hab]
  · intro held
    have h : sigPreimage E (setScript t i held) i script = sigPreimage E t i script := by
      unfold sigPreimage
      rw [setScript_setScript]
    exact ⟨h, by rw [h]⟩

set_option maxRecDepth 100000 in
/-- Witness for C9: the two-input transaction, input 0 signed with the substituted script
`01`, and input 1 holding the empty script or the script `07`. -/
theorem sigPreimage_other_input_witness :
    (sigPreimage modelExt (setScript twoInputs 1 []) 0 [1] =
        sigPreimage modelExt (setScript twoInputs 1 [7]) 0 [1] ↔ ([] : Bytes) = [7]) ∧
    (∀ held, sigPreimage modelExt (setScript twoInputs 0 held) 0 [1] =
        sigPreimage modelExt twoInputs 0 [1] ∧
      (sigPreimage modelExt (setScript twoInputs 0 held) 0 [1]).map
          (fun x => modelExt.Sum256 (modelExt.Sum256 x)) =
        (sigPreimage modelExt twoInputs 0 [1]).map
          (fun x => modelExt.Sum256 (modelExt.Sum256 x))) :=
  sigPreimage_other_input modelExt
    (fun t1 t2 b h1 h2 hp1 hp2 => packTx_injective t1 t2 b h1 h2 hp1 hp2)
    twoInputs 0 1 [] [7] [1] (by decide) (by decide) (by decide) (by decide)
    ⟨_, rfl⟩

end Bitgoin
